import Mathlib

/-!
Shallow embedding of the `LexicalAnalyzer` repository's NFA→DFA pipeline
(`NFA_Deserializer.py`, `DFA_Builder.py`).

Python dicts are modelled as association lists (`List (κ × α)`) with
insertion-ordered update (`dinsert`), Python sets as lists with
membership-guarded append (`sadd`); a Python set's (arbitrary) iteration
order is represented by the list order.  Machine strings are Lean `String`.
All definitions are executable.
-/

namespace LexAnalyzer

/-- Python dict lookup `d.get(k)` / `d[k]` on an association list. -/
def dlookup {κ α : Type} [DecidableEq κ] : List (κ × α) → κ → Option α
  | [], _ => none
  | (k', v) :: rest, k => if k' = k then some v else dlookup rest k

/-- Python dict assignment `d[k] = v`: replaces in place if the key exists,
otherwise appends at the end (Python dicts are insertion ordered). -/
def dinsert {κ α : Type} [DecidableEq κ] : List (κ × α) → κ → α → List (κ × α)
  | [], k, v => [(k, v)]
  | (k', v') :: rest, k, v =>
      if k' = k then (k, v) :: rest else (k', v') :: dinsert rest k v

/-- Python set add `s.add(x)`: no-op when the element is present. -/
def sadd (s : List String) (x : String) : List String :=
  if x ∈ s then s else s ++ [x]

/-- Python `str.lower()` as used on candidate epsilon spellings: ASCII
per-character lowering (non-ASCII case mapping can never produce the ASCII
string `"epsilon"`, so this matches Python on the comparison below). -/
def pyLower (s : String) : String := String.mk (s.data.map Char.toLower)

/-- The epsilon test used verbatim (inline) in `get_epsilon_closure`
(line 120) and `convert_nfa_to_dfa` (line 156):
`symbol == "" or symbol.lower() == "epsilon" or symbol == "Îµ" or symbol == "ε"`. -/
def isEpsilonSymbol (s : String) : Bool :=
  s = "" || pyLower s = "epsilon" || s = "Îµ" || s = "ε"

/-- `NFA` from `NFA_Deserializer.py`.  Transitions:
`{state: {symbol: [next_states]}}`.  `start_state` is `Option` because the
deserializer may store a JSON `null` (Python `None`) there. -/
structure NFA where
  start_state : Option String
  states : List String
  final_states : List String
  transitions : List (String × List (String × List String))
  deriving Repr, DecidableEq

/-- `NFA.add_state` (`NFA_Deserializer.py` lines 13-18). -/
def NFA.add_state (n : NFA) (state_name : String) (is_final : Bool) : NFA :=
  { n with
    states := sadd n.states state_name
    final_states := if is_final then sadd n.final_states state_name else n.final_states
    transitions :=
      if (dlookup n.transitions state_name).isSome then n.transitions
      else dinsert n.transitions state_name [] }

/-- `NFA.add_transition` (`NFA_Deserializer.py` lines 20-29): creates the
per-state dict and the per-symbol list when absent, and appends the target
unless it is already present. -/
def NFA.add_transition (n : NFA) (from_state symbol to_state : String) : NFA :=
  let d0 := (dlookup n.transitions from_state).getD []
  let lst := (dlookup d0 symbol).getD []
  let lst' := if to_state ∈ lst then lst else lst ++ [to_state]
  { n with transitions := dinsert n.transitions from_state (dinsert d0 symbol lst') }

/-- `DFA` from `DFA_Builder.py` (lines 61-66); `start_state` is
initialized to `None` in Python. -/
structure DFA where
  start_state : Option String
  states : List String
  final_states : List String
  transitions : List (String × List (String × String))
  deriving Repr, DecidableEq

/-- The freshly constructed `DFA()` object. -/
def DFA.empty : DFA :=
  { start_state := none, states := [], final_states := [], transitions := [] }

/-- `DFA.add_state` (`DFA_Builder.py` lines 68-73). -/
def DFA.add_state (d : DFA) (state_name : String) (is_final : Bool) : DFA :=
  { d with
    states := sadd d.states state_name
    final_states := if is_final then sadd d.final_states state_name else d.final_states
    transitions :=
      if (dlookup d.transitions state_name).isSome then d.transitions
      else dinsert d.transitions state_name [] }

/-- `DFA.add_transition` (`DFA_Builder.py` lines 75-78): overwrites the
single target for `(from_state, symbol)`. -/
def DFA.add_transition (d : DFA) (from_state symbol to_state : String) : DFA :=
  let d0 := (dlookup d.transitions from_state).getD []
  { d with transitions := dinsert d.transitions from_state (dinsert d0 symbol to_state) }

/-- Fresh `NFA(start)` instance: Python constructor `NFA.__init__`. -/
def NFA.init (start : String) : NFA :=
  { start_state := some start, states := [], final_states := [], transitions := [] }

/-! ### Operation sequences on automaton instances (for the model claims) -/

/-- A call to `add_state` or `add_transition` on an automaton instance. -/
inductive AutOp where
  | addState (state_name : String) (is_final : Bool)
  | addTrans (from_state symbol to_state : String)
  deriving Repr, DecidableEq

/-- Apply a sequence of `add_state`/`add_transition` calls to an `NFA`. -/
def NFA.applyOps (n : NFA) : List AutOp → NFA
  | [] => n
  | .addState s f :: rest => (n.add_state s f).applyOps rest
  | .addTrans a c b :: rest => (n.add_transition a c b).applyOps rest

/-- Apply a sequence of `add_state`/`add_transition` calls to a `DFA`. -/
def DFA.applyOps (d : DFA) : List AutOp → DFA
  | [] => d
  | .addState s f :: rest => (d.add_state s f).applyOps rest
  | .addTrans a c b :: rest => (d.add_transition a c b).applyOps rest

/-- A state is (eventually) declared by an op sequence. -/
def declaredIn (ops : List AutOp) (s : String) : Prop :=
  ∃ f, AutOp.addState s f ∈ ops

/-- Every state referenced by every `add_transition` op is eventually declared. -/
def refsDeclared (ops : List AutOp) : Prop :=
  ∀ a c b, AutOp.addTrans a c b ∈ ops → declaredIn ops a ∧ declaredIn ops b

/-- All state references in an NFA's transition table satisfy `P`. -/
def nfaRefsSat (n : NFA) (P : String → Prop) : Prop :=
  ∀ p ∈ n.transitions, P p.1 ∧ ∀ q ∈ p.2, ∀ t ∈ q.2, P t

/-- All state references in a DFA's transition table satisfy `P`. -/
def dfaRefsSat (d : DFA) (P : String → Prop) : Prop :=
  ∀ p ∈ d.transitions, P p.1 ∧ ∀ q ∈ p.2, P q.2

/-! ### `get_epsilon_closure` (`DFA_Builder.py` lines 105-127)

The Python loop pops states off a stack; each popped state's epsilon
successors not yet in the closure are added to both the closure and the
stack.  The stack is modelled head-as-top (Python appends then pops from the
end; consing each pushed element preserves the pop order).  The loop is
driven by explicit fuel; `get_epsilon_closure` supplies
`|seed| + |all transition targets| + 1`, an upper bound on the number of
loop iterations (each iteration pops one entry, and entries are pushed only
when a state outside the closure is added, which happens at most once per
distinct transition target), proven sufficient below. -/

/-- Concatenation of every target list in the NFA's transition table. -/
def allTargets (nfa : NFA) : List String :=
  nfa.transitions.foldr (fun p acc => (p.2.foldr (fun q a2 => q.2 ++ a2) []) ++ acc) []

/-- Inner `for next_state in targets` loop: grow closure, push new states. -/
def addTargets : List String → List String → List String → List String × List String
  | closure, stack, [] => (closure, stack)
  | closure, stack, t :: ts =>
      if t ∈ closure then addTargets closure stack ts
      else addTargets (closure ++ [t]) (t :: stack) ts

/-- Middle `for symbol, targets in nfa.transitions[current_state].items()` loop. -/
def addEpsEntries :
    List String → List String → List (String × List String) → List String × List String
  | closure, stack, [] => (closure, stack)
  | closure, stack, (sym, targets) :: rest =>
      if isEpsilonSymbol sym then
        let p := addTargets closure stack targets
        addEpsEntries p.1 p.2 rest
      else addEpsEntries closure stack rest

/-- Outer `while stack:` loop of `get_epsilon_closure`, with explicit fuel. -/
def ecloseLoop (nfa : NFA) : Nat → List String → List String → List String
  | 0, closure, _ => closure
  | fuel + 1, closure, stack =>
      match stack with
      | [] => closure
      | current_state :: rest =>
          match dlookup nfa.transitions current_state with
          | none => ecloseLoop nfa fuel closure rest
          | some tr =>
              let p := addEpsEntries closure rest tr
              ecloseLoop nfa fuel p.1 p.2

/-- `get_epsilon_closure(nfa, states_set)`: all states reachable from
`states_set` using only epsilon transitions (DFS). -/
def get_epsilon_closure (nfa : NFA) (states_set : List String) : List String :=
  ecloseLoop nfa (states_set.length + (allTargets nfa).length + 1) states_set states_set

/-- `move(nfa, states_set, symbol)` (`DFA_Builder.py` lines 130-143). -/
def move (nfa : NFA) (states_set : List String) (symbol : String) : List String :=
  states_set.foldl (fun result_states state =>
    match dlookup nfa.transitions state with
    | none => result_states
    | some d =>
        match dlookup d symbol with
        | none => result_states
        | some targets => targets.foldl (fun acc target => sadd acc target) result_states) []

/-! ### Acceptance semantics

The repository defines no `accepts` function; these two definitions are the
spec's acceptance semantics (spec §8, glossary), built from the source's own
`get_epsilon_closure`/`move` operators and the DFA's partial transition
table (a missing transition rejects). -/

/-- Lookup a DFA transition: `dfa.transitions.get(s, {}).get(c)`. -/
def dlookup2 (tr : List (String × List (String × String))) (s c : String) : Option String :=
  match dlookup tr s with
  | none => none
  | some d => dlookup d c

/-- Modelled from the spec: run the DFA from state `s` over the word;
a missing transition on a symbol rejects. -/
def dfaGo (dfa : DFA) : String → List String → Bool
  | s, [] => s ∈ dfa.final_states
  | s, c :: rest =>
      match dlookup2 dfa.transitions s c with
      | none => false
      | some t => dfaGo dfa t rest

/-- Modelled from the spec: DFA acceptance from the start state
(an unset start state accepts nothing). -/
def DFA.accepts (dfa : DFA) (w : List String) : Bool :=
  match dfa.start_state with
  | none => false
  | some s => dfaGo dfa s w

/-- The seed subset `{nfa.start_state}` used by `convert_nfa_to_dfa`.
A Python `None` start is modelled by the empty seed: `None` is never a
declared state name, holds no transitions and is never final, so `{None}`
and `{}` behave identically in closure, move, finality and subset identity. -/
def startSeed (nfa : NFA) : List String :=
  match nfa.start_state with
  | some s => [s]
  | none => []

/-- One NFA macro-step on a symbol: `epsilon_closure(move(S, c))`. -/
def nfaStep (nfa : NFA) (S : List String) (c : String) : List String :=
  get_epsilon_closure nfa (move nfa S c)

/-- Modelled from the spec: iterated subset run of the NFA. -/
def nfaGo (nfa : NFA) : List String → List String → Bool
  | S, [] => S.any (fun s => s ∈ nfa.final_states)
  | S, c :: rest => nfaGo nfa (nfaStep nfa S c) rest

/-- Modelled from the spec: NFA acceptance with epsilon-closure semantics. -/
def NFA.accepts (nfa : NFA) (w : List String) : Bool :=
  nfaGo nfa (get_epsilon_closure nfa (startSeed nfa)) w

/-- One epsilon edge: the transition dict of `x` (as found by lookup, the
way the closure loop reads it) has an epsilon-labelled entry containing `y`. -/
def epsAdj (nfa : NFA) (x y : String) : Prop :=
  ∃ tr, dlookup nfa.transitions x = some tr ∧
    ∃ q ∈ tr, isEpsilonSymbol q.1 = true ∧ y ∈ q.2

/-- A state list is closed under epsilon transitions. -/
def epsClosed (nfa : NFA) (C : List String) : Prop :=
  ∀ x ∈ C, ∀ y, epsAdj nfa x y → y ∈ C

/-! ### `convert_nfa_to_dfa` (`DFA_Builder.py` lines 146-225)

Python keys the discovered subsets by `frozenset`; two frozensets are equal
iff they hold the same members.  The embedding keys them by the canonical
sorted deduplicated list (`canon`), whose equality is likewise equivalent to
set equality.  The `while worklist:` loop is driven by explicit fuel;
`convert_nfa_to_dfa` supplies `2 ^ |universe| + 1`, an upper bound on the
iteration count (each iteration pops one subset and subsets are enqueued at
most once each, when first keyed in `states_map`; the distinct keys are
subsets of the universe), proven sufficient below. -/

/-- Python string comparison `a <= b`: lexicographic by code point
(the contrapositive of `<` on the character lists, which agrees with the
`String` linear order; stated reducibly so concrete runs evaluate). -/
def strLe (a b : String) : Bool := !(decide (b.data < a.data))

/-- Insert into a `strLe`-sorted list. -/
def insertSorted (x : String) : List String → List String
  | [] => [x]
  | y :: ys => if strLe x y then x :: y :: ys else y :: insertSorted x ys

/-- Python `sorted(...)` on a list of strings (insertion sort; total order,
and equal strings are identical, so any sort yields this same list). -/
def sortStrings (l : List String) : List String := l.foldr insertSorted []

/-- Canonical form of a finite set of state names (Python `frozenset`
identity): sorted and deduplicated. -/
def canon (l : List String) : List String := sortStrings l.dedup

/-- Alphabet of the NFA: all non-epsilon symbols in its transition table
(`convert_nfa_to_dfa` step 1). -/
def nfaAlphabet (nfa : NFA) : List String :=
  nfa.transitions.foldl (fun alphabet p =>
    p.2.foldl (fun a q => if isEpsilonSymbol q.1 then a else sadd a q.1) alphabet) []

/-- The mutable state of the subset-construction worklist loop. -/
structure ConvState where
  states_map : List (List String × String)
  dfa_state_counter : Nat
  worklist : List (List String)
  dfa : DFA
  deriving Repr

/-- Body of `for char in sorted(list(alphabet))` inside the main loop. -/
def processSymbol (nfa : NFA) (current_set : List String) (current_name : String)
    (st : ConvState) (char : String) : ConvState :=
  let move_result := move nfa current_set char
  let final_destination_set := get_epsilon_closure nfa move_result
  if final_destination_set = [] then st
  else
    let destination_frozen := canon final_destination_set
    match dlookup st.states_map destination_frozen with
    | some dest_name =>
        { st with dfa := st.dfa.add_transition current_name char dest_name }
    | none =>
        let new_name := "S" ++ toString st.dfa_state_counter
        let is_final := final_destination_set.any (fun s => s ∈ nfa.final_states)
        { states_map := st.states_map ++ [(destination_frozen, new_name)]
          dfa_state_counter := st.dfa_state_counter + 1
          worklist := st.worklist ++ [destination_frozen]
          dfa := (st.dfa.add_state new_name is_final).add_transition current_name char new_name }

/-- The `while worklist:` loop of `convert_nfa_to_dfa`, with explicit fuel. -/
def convLoop (nfa : NFA) (sortedAlpha : List String) :
    Nat → List (List String) → ConvState → DFA
  | 0, _, st => st.dfa
  | fuel + 1, processed_sets, st =>
      match st.worklist with
      | [] => st.dfa
      | current_set :: rest =>
          let current_name := (dlookup st.states_map current_set).getD ""
          if current_set ∈ processed_sets then
            convLoop nfa sortedAlpha fuel processed_sets { st with worklist := rest }
          else
            let st' := sortedAlpha.foldl (processSymbol nfa current_set current_name)
              { st with worklist := rest }
            convLoop nfa sortedAlpha fuel (processed_sets ++ [current_set]) st'

/-- Universe of state names the worklist subsets can draw from. -/
def convUniv (nfa : NFA) : List String := canon (startSeed nfa ++ allTargets nfa)

/-- `convert_nfa_to_dfa(nfa)`: subset construction. -/
def convert_nfa_to_dfa (nfa : NFA) : DFA :=
  let start_closure := get_epsilon_closure nfa (startSeed nfa)
  let start_frozen := canon start_closure
  let is_start_final := start_closure.any (fun s => s ∈ nfa.final_states)
  let dfa0 := { DFA.empty with start_state := some "S0" }.add_state "S0" is_start_final
  let st0 : ConvState :=
    { states_map := [(start_frozen, "S0")]
      dfa_state_counter := 1
      worklist := [start_frozen]
      dfa := dfa0 }
  convLoop nfa (sortStrings (nfaAlphabet nfa)) (2 ^ (convUniv nfa).length + 1) [] st0

/-- Structural invariant of the subset-construction loop state: the name
counter tracks the map, names are `S0, S1, …` in discovery order, keys are
canonical subsets of the universe and duplicate-free, the DFA's states are
exactly the issued names, finality of an issued name reflects its subset,
the start name is fixed, and the worklist holds keys of the map. -/
def ConvCore (nfa : NFA) (st : ConvState) : Prop :=
  st.states_map.length = st.dfa_state_counter ∧
  (∀ (i : Nat) (hi : i < st.states_map.length),
    (st.states_map.get ⟨i, hi⟩).2 = "S" ++ toString i) ∧
  (∀ p ∈ st.states_map, p.1 = canon p.1 ∧ p.1 ⊆ convUniv nfa) ∧
  (st.states_map.map Prod.fst).Nodup ∧
  (∀ x, x ∈ st.dfa.states ↔ ∃ p ∈ st.states_map, p.2 = x) ∧
  (∀ p ∈ st.states_map,
    (p.2 ∈ st.dfa.final_states ↔ ∃ s ∈ p.1, s ∈ nfa.final_states)) ∧
  (∀ x ∈ st.dfa.final_states, x ∈ st.dfa.states) ∧
  st.dfa.start_state = some "S0" ∧
  (∀ k ∈ st.worklist, ∃ p ∈ st.states_map, p.1 = k) ∧
  (∀ row ∈ st.dfa.transitions, ∃ p ∈ st.states_map, p.2 = row.1)

/-- The recorded transition semantics for a processed key/name at a symbol:
either the destination subset is empty and no transition was written, or the
destination's canonical key is mapped to a name and the transition points to
that name. -/
def ConvSem (nfa : NFA) (st : ConvState) (k : List String) (nm c : String) : Prop :=
  (get_epsilon_closure nfa (move nfa k c) = [] ∧
    dlookup2 st.dfa.transitions nm c = none) ∨
  (get_epsilon_closure nfa (move nfa k c) ≠ [] ∧
    ∃ nm', dlookup st.states_map
        (canon (get_epsilon_closure nfa (move nfa k c))) = some nm' ∧
      dlookup2 st.dfa.transitions nm c = some nm')

/-- Full invariant of the subset-construction loop: the structural part,
the recorded semantics for every processed key, blank rows for unprocessed
names, and every key either processed or queued. -/
def ConvInv (nfa : NFA) (processed : List (List String)) (st : ConvState) : Prop :=
  ConvCore nfa st ∧
  (∀ p ∈ st.states_map, p.1 ∈ processed →
    ∀ c ∈ sortStrings (nfaAlphabet nfa), ConvSem nfa st p.1 p.2 c) ∧
  (∀ p ∈ st.states_map, p.1 ∉ processed →
    ∀ c, dlookup2 st.dfa.transitions p.2 c = none) ∧
  (∀ p ∈ st.states_map, p.1 ∈ processed ∨ p.1 ∈ st.worklist) ∧
  (∀ k ∈ processed, ∃ p ∈ st.states_map, p.1 = k)

/-! ### `minimize_dfa` (`DFA_Builder.py` lines 252-367)

Python's `dfa.states`, `final_states` and every partition group are sets
whose iteration order is incidental; the embedding carries them as lists, the
list order standing for the set's enumeration order (`list(group)` and
`next(iter(group))` take them in list order).  The refinement `while` loop is
driven by explicit fuel; `minimize_dfa` supplies `|states| + |finals| + 1`,
an upper bound on the number of passes (each pass but the last increases the
number of groups, and the groups are disjoint nonempty subsets of
`states ∪ finals`), proven sufficient below. -/

/-- Alphabet of the DFA: all symbols in its transition table
(`minimize_dfa` step 1; the `sorted(...)` on line 261 is commented out in
the source). -/
def dfaAlphabet (dfa : DFA) : List String :=
  dfa.transitions.foldl (fun alphabet p =>
    p.2.foldl (fun a q => sadd a q.1) alphabet) []

/-- Scan for the first partition containing `t`, numbering from `idx`. -/
def partIdxGo (t : String) : List (List String) → Int → Int
  | [], _ => -1
  | part :: rest, idx => if t ∈ part then idx else partIdxGo t rest (idx + 1)

/-- `get_partition_index(target_state, current_partitions)`
(`DFA_Builder.py` lines 291-297): index of the partition holding the state,
`-1` for a missing transition (`None`) or an ungrouped state. -/
def get_partition_index (target_state : Option String)
    (current_partitions : List (List String)) : Int :=
  match target_state with
  | none => -1
  | some t => partIdxGo t current_partitions 0

/-- The per-symbol comparison of a group member against the group's
reference state (`DFA_Builder.py` lines 300-317). -/
def statesMatch (dfa : DFA) (alphabet : List String)
    (partitions : List (List String)) (first state : String) : Bool :=
  alphabet.all fun char =>
    decide (get_partition_index (dlookup2 dfa.transitions first char) partitions
      = get_partition_index (dlookup2 dfa.transitions state char) partitions)

/-- Split one group against its reference state `first`: members matching the
reference accumulate in `mg` (which starts as `[first]`), the rest in `nmg`. -/
def splitGroupGo (dfa : DFA) (alphabet : List String)
    (partitions : List (List String)) (first : String) :
    List String → List String → List String → List String × List String
  | mg, nmg, [] => (mg, nmg)
  | mg, nmg, state :: rest =>
      if statesMatch dfa alphabet partitions first state then
        splitGroupGo dfa alphabet partitions first (mg ++ [state]) nmg rest
      else
        splitGroupGo dfa alphabet partitions first mg (nmg ++ [state]) rest

/-- The `for group in partitions:` loop of one refinement pass, accumulating
`new_partitions` and `did_split_occur`.  Groups of size at most one are kept;
larger groups are split against their first member, appending the matching
then the non-matching side when the split is real. -/
def refineOnceGo (dfa : DFA) (alphabet : List String)
    (partitions : List (List String)) :
    List (List String) → List (List String) → Bool → List (List String) × Bool
  | [], acc, did => (acc, did)
  | group :: rest, acc, did =>
      match group with
      | [] => refineOnceGo dfa alphabet partitions rest (acc ++ [group]) did
      | [x] => refineOnceGo dfa alphabet partitions rest (acc ++ [[x]]) did
      | first :: grest =>
          let p := splitGroupGo dfa alphabet partitions first [first] [] grest
          if p.2 = [] then refineOnceGo dfa alphabet partitions rest (acc ++ [group]) did
          else refineOnceGo dfa alphabet partitions rest (acc ++ [p.1, p.2]) true

/-- One full refinement pass over the current partition list
(the body of the `while did_split_occur:` loop). -/
def refineOnce (dfa : DFA) (alphabet : List String)
    (partitions : List (List String)) : List (List String) × Bool :=
  refineOnceGo dfa alphabet partitions partitions [] false

/-- The refinement `while` loop, with explicit fuel. -/
def refineLoop (dfa : DFA) (alphabet : List String) :
    Nat → List (List String) → List (List String)
  | 0, partitions => partitions
  | fuel + 1, partitions =>
      let p := refineOnce dfa alphabet partitions
      if p.2 then refineLoop dfa alphabet fuel p.1 else p.1

/-- First reconstruction pass (`DFA_Builder.py` lines 343-354): number the
groups `S0, S1, …`, register finality, locate the start state, and build the
old-state → new-name map. -/
def rebuildStatesGo (dfa : DFA) :
    List (List String) → Nat → DFA → List (String × String) → DFA × List (String × String)
  | [], _, min_dfa, state_name_map => (min_dfa, state_name_map)
  | group :: rest, i, min_dfa, state_name_map =>
      let new_state_name := "S" ++ toString i
      let is_final := group.any (fun state => state ∈ dfa.final_states)
      let m1 := min_dfa.add_state new_state_name is_final
      let startHere : Bool :=
        match dfa.start_state with
        | some s => s ∈ group
        | none => false
      let m2 := if startHere then { m1 with start_state := some new_state_name } else m1
      let map2 := group.foldl (fun m state => dinsert m state new_state_name) state_name_map
      rebuildStatesGo dfa rest (i + 1) m2 map2

/-- Second reconstruction pass (`DFA_Builder.py` lines 356-365): for each
group, copy the representative member's transitions, dropping any whose
target is not in the state map. -/
def rebuildTransGo (dfa : DFA) (state_name_map : List (String × String)) :
    List (List String) → DFA → DFA
  | [], min_dfa => min_dfa
  | group :: rest, min_dfa =>
      let rep := group.headD ""
      let source_name := (dlookup state_name_map rep).getD ""
      let m2 :=
        match dlookup dfa.transitions rep with
        | none => min_dfa
        | some d =>
            d.foldl (fun m q =>
              match dlookup state_name_map q.2 with
              | some target_name => m.add_transition source_name q.1 target_name
              | none => m) min_dfa
      rebuildTransGo dfa state_name_map rest m2

/-- Pairwise disjointness of partition groups. -/
def listsDisjoint (P : List (List String)) : Prop :=
  List.Pairwise (fun g h => ∀ x, x ∈ g → x ∉ h) P

/-- Structural invariant of the refinement loop: groups are nonempty,
duplicate-free, drawn from `univ`, pairwise disjoint, finality-pure, and
cover every declared state. -/
def goodPartition (dfa : DFA) (univ : List String) (P : List (List String)) : Prop :=
  (∀ g ∈ P, g ≠ [] ∧ g.Nodup ∧ g ⊆ univ) ∧ listsDisjoint P ∧
  (∀ g ∈ P, (∀ s ∈ g, s ∈ dfa.final_states) ∨ (∀ s ∈ g, s ∉ dfa.final_states)) ∧
  (∀ s ∈ dfa.states, ∃ g ∈ P, s ∈ g)

/-- Stability: within every group, all members carry the same per-symbol
group signature. -/
def stablePartition (dfa : DFA) (alphabet : List String) (P : List (List String)) : Prop :=
  ∀ g ∈ P, ∀ s ∈ g, ∀ t ∈ g, ∀ c ∈ alphabet,
    get_partition_index (dlookup2 dfa.transitions s c) P =
    get_partition_index (dlookup2 dfa.transitions t c) P

/-- The groups one group contributes to the next pass (mirrors the body of
`refineOnce`). -/
def groupOut (dfa : DFA) (alphabet : List String) (P : List (List String)) :
    List String → List (List String)
  | [] => [[]]
  | [x] => [[x]]
  | first :: grest =>
      let p := splitGroupGo dfa alphabet P first [first] [] grest
      if p.2 = [] then [first :: grest] else [p.1, p.2]

/-- Whether one group splits in this pass. -/
def groupSplits (dfa : DFA) (alphabet : List String) (P : List (List String)) :
    List String → Bool
  | [] => false
  | [_] => false
  | first :: grest =>
      decide ((splitGroupGo dfa alphabet P first [first] [] grest).2 ≠ [])

/-- Well-formedness of a DFA value as the claims assume it: a declared start
state, every transition endpoint declared, and genuine dict structure
(no duplicate keys, as Python dicts guarantee). -/
def dfaWellFormed (d : DFA) : Prop :=
  (∃ s0, d.start_state = some s0 ∧ s0 ∈ d.states) ∧
  (∀ p ∈ d.transitions, p.1 ∈ d.states ∧ ∀ q ∈ p.2, q.2 ∈ d.states) ∧
  (d.transitions.map Prod.fst).Nodup ∧
  (∀ p ∈ d.transitions, (p.2.map Prod.fst).Nodup)

/-- `minimize_dfa(dfa)`: partition-refinement minimization. -/
def minimize_dfa (dfa : DFA) : DFA :=
  let alphabet := dfaAlphabet dfa
  let final_states := dfa.final_states.dedup
  let non_final_states := dfa.states.dedup.filter (fun s => s ∉ final_states)
  let partitions0 :=
    (if non_final_states = [] then [] else [non_final_states])
      ++ (if final_states = [] then [] else [final_states])
  let fuel := dfa.states.dedup.length + dfa.final_states.dedup.length + 1
  let partitions := refineLoop dfa alphabet fuel partitions0
  let p := rebuildStatesGo dfa partitions 0 DFA.empty []
  rebuildTransGo dfa p.2 partitions p.1

/-- The initial two-block partition (`DFA_Builder.py` lines 263-270), named
for reuse in the analysis of `minimize_dfa`. -/
def minPartition0 (dfa : DFA) : List (List String) :=
  (if dfa.states.dedup.filter (fun s => s ∉ dfa.final_states.dedup) = [] then []
   else [dfa.states.dedup.filter (fun s => s ∉ dfa.final_states.dedup)])
    ++ (if dfa.final_states.dedup = [] then [] else [dfa.final_states.dedup])

/-- The converged partition computed inside `minimize_dfa`. -/
def minPartition (dfa : DFA) : List (List String) :=
  refineLoop dfa (dfaAlphabet dfa)
    (dfa.states.dedup.length + dfa.final_states.dedup.length + 1)
    (minPartition0 dfa)

/-- The `state_name_map` built by the first reconstruction pass. -/
def minNameMap (dfa : DFA) : List (String × String) :=
  (rebuildStatesGo dfa (minPartition dfa) 0 DFA.empty []).2

/-! ### JSON document model, `deserialize_nfa_json`, `DFA.to_json`, `BuildDFA`

The document shape of spec §6: a JSON object mapping `"startingState"` to a
string and every other key to a state object.  A parsed JSON object is an
association list of key/value pairs (Python `json.load` yields a dict, which
is insertion ordered with unique keys); `json.dumps`/`json.load` are inverse
on this document model, so `DFA.to_json` produces the document directly.
File-system access (`os.path.exists`, `open`) is out of scope (spec §1):
the deserializer takes the parsed document. -/

/-- JSON values occurring in the document shape. -/
inductive J where
  | jnull : J
  | jbool : Bool → J
  | jstr : String → J
  | jarr : List String → J
  | jobj : List (String × J) → J

/-- Python truthiness of a JSON value, as used by `if is_final:` inside
`add_state` on the raw `state_data.get("isTerminatingState", False)`. -/
def jTruthy : J → Bool
  | J.jnull => false
  | J.jbool b => b
  | J.jstr s => s ≠ ""
  | J.jarr l => !l.isEmpty
  | J.jobj o => !o.isEmpty

/-- `NFA_Deserializer.py` lines 68-74: a transition target is either a single
state-id string or a list of state-id strings.  (Targets of any other JSON
type are outside the document shape and are ignored here; Python would append
the raw value.) -/
def parseTargets (nfa : NFA) (state_name symbol : String) : J → NFA
  | J.jarr ts => ts.foldl (fun n t_state => n.add_transition state_name symbol t_state) nfa
  | J.jstr target => nfa.add_transition state_name symbol target
  | _ => nfa

/-- Process the state entries of the document in order
(`NFA_Deserializer.py` lines 51-74).  A state value that is not an object
makes Python's `state_data.get` raise; modelled as an error. -/
def deserializeStates (nfa : NFA) : List (String × J) → Except String NFA
  | [] => .ok nfa
  | (key, value) :: rest =>
      if key = "startingState" then deserializeStates nfa rest
      else
        match value with
        | J.jobj state_data =>
            let is_final := jTruthy ((dlookup state_data "isTerminatingState").getD (J.jbool false))
            let nfa1 := nfa.add_state key is_final
            let nfa2 := state_data.foldl (fun n q =>
              if q.1 = "isTerminatingState" then n
              else parseTargets n key q.1 q.2) nfa1
            deserializeStates nfa2 rest
        | _ => .error "AttributeError: state value is not an object"

/-- `deserialize_nfa_json` (`NFA_Deserializer.py` lines 31-76) on the parsed
document.  The stored `start_state` is the document's `"startingState"`
value when it is a string (`None`/non-string values are modelled as an unset
start state; no claim depends on their identity). -/
def deserialize_nfa_json (data : List (String × J)) : Except String NFA :=
  match dlookup data "startingState" with
  | none => .error "JSON invalid: Missing 'startingState' key."
  | some sv =>
      let start : Option String :=
        match sv with
        | J.jstr s => some s
        | _ => none
      deserializeStates
        { start_state := start, states := [], final_states := [], transitions := [] } data

/-- The per-state object assembled by `DFA.to_json`
(`DFA_Builder.py` lines 91-97). -/
def stateData (d : DFA) (state : String) : List (String × J) :=
  let base := [("isTerminatingState", J.jbool (state ∈ d.final_states))]
  match dlookup d.transitions state with
  | none => base
  | some tr => tr.foldl (fun acc q => dinsert acc q.1 (J.jstr q.2)) base

/-- `DFA.to_json` (`DFA_Builder.py` lines 80-101): the output document, with
states in sorted-name order. -/
def DFA.to_json (d : DFA) : List (String × J) :=
  let out0 := [("startingState",
    match d.start_state with
    | none => J.jnull
    | some s => J.jstr s)]
  (sortStrings d.states.dedup).foldl
    (fun out state => dinsert out state (J.jobj (stateData d state))) out0

/-- `BuildDFA` (`DFA_Builder.py` lines 11-58): the conversion pipeline.
Printing and graph rendering are presentation-layer effects out of scope
(spec §1); the `except` clause catches any raised error and emits no output
file, modelled by the `Except` error branch.  On success the pipeline's two
emitted artifacts are the DFA document and the minimized-DFA document. -/
def BuildDFA (input_nfa_json : List (String × J)) :
    Except String (List (String × J) × List (String × J)) :=
  match deserialize_nfa_json input_nfa_json with
  | .error e => .error e
  | .ok my_nfa =>
      let my_dfa := convert_nfa_to_dfa my_nfa
      let min_dfa := minimize_dfa my_dfa
      .ok (my_dfa.to_json, min_dfa.to_json)

/-- A symbol occurs (verbatim) in an NFA's transition table. -/
def nfaHasSym (n : NFA) (sym : String) : Prop :=
  ∃ p ∈ n.transitions, ∃ q ∈ p.2, q.1 = sym

/-- A symbol occurs (verbatim) as a transition key of some state object of
the document. -/
def docHasSymbol (data : List (String × J)) (sym : String) : Prop :=
  ∃ kv ∈ data, kv.1 ≠ "startingState" ∧
    ∃ st, kv.2 = J.jobj st ∧ ∃ e ∈ st, e.1 ≠ "isTerminatingState" ∧ e.1 = sym

/-- The effect of `deserialize_nfa_json` processing one state entry of a
document produced by `DFA.to_json d` (register the state with `d`'s finality
flag, then replay its transition row), written against the source DFA for
the round-trip analysis. -/
def desStep (d : DFA) (nfa : NFA) (st : String) : NFA :=
  let nfa1 := nfa.add_state st (st ∈ d.final_states)
  match dlookup d.transitions st with
  | none => nfa1
  | some tr => tr.foldl (fun n q => n.add_transition st q.1 q.2) nfa1

/-! ### Basic lemmas about the dict/set primitives -/

theorem dlookup_dinsert_self {κ α : Type} [DecidableEq κ]
    (d : List (κ × α)) (k : κ) (v : α) : dlookup (dinsert d k v) k = some v := by
  induction d with
  | nil => simp [dinsert, dlookup]
  | cons p rest ih =>
      obtain ⟨k', v'⟩ := p
      by_cases h : k' = k <;> simp [dinsert, dlookup, h, ih]

theorem dlookup_dinsert_ne {κ α : Type} [DecidableEq κ]
    (d : List (κ × α)) (k k' : κ) (v : α) (h : k ≠ k') :
    dlookup (dinsert d k v) k' = dlookup d k' := by
  induction d with
  | nil => simp [dinsert, dlookup, h]
  | cons p rest ih =>
      obtain ⟨k₀, v₀⟩ := p
      by_cases h0 : k₀ = k
      · subst h0; simp [dinsert, dlookup, h]
      · simp only [dinsert, if_neg h0]
        by_cases h1 : k₀ = k' <;> simp [dlookup, h1, ih]

theorem mem_sadd (s : List String) (x y : String) :
    y ∈ sadd s x ↔ y ∈ s ∨ y = x := by
  unfold sadd
  by_cases h : x ∈ s
  · simp only [if_pos h]
    constructor
    · exact fun hy => Or.inl hy
    · rintro (hy | rfl) <;> [exact hy; exact h]
  · simp [if_neg h]

theorem self_mem_sadd (s : List String) (x : String) : x ∈ sadd s x :=
  (mem_sadd s x x).2 (Or.inr rfl)

theorem mem_of_mem_sadd_self (s : List String) (x : String) (h : x ∈ s) :
    sadd s x = s := by simp [sadd, h]

theorem sadd_subset (s : List String) (x : String) : s ⊆ sadd s x := by
  intro y hy; exact (mem_sadd s x y).2 (Or.inl hy)

/-- Keys present in an association list stay present after `dinsert`. -/
theorem dlookup_dinsert_isSome {κ α : Type} [DecidableEq κ]
    (d : List (κ × α)) (k k' : κ) (v : α) (h : (dlookup d k').isSome) :
    (dlookup (dinsert d k v) k').isSome := by
  by_cases hk : k = k'
  · subst hk; simp [dlookup_dinsert_self]
  · rwa [dlookup_dinsert_ne _ _ _ _ hk]

theorem mem_dinsert {κ α : Type} [DecidableEq κ]
    (d : List (κ × α)) (k : κ) (v : α) (p : κ × α) (h : p ∈ dinsert d k v) :
    p ∈ d ∨ p = (k, v) := by
  induction d with
  | nil => simpa [dinsert] using h
  | cons q rest ih =>
      obtain ⟨k', v'⟩ := q
      by_cases hk : k' = k
      · rw [dinsert, if_pos hk] at h
        rcases List.mem_cons.1 h with h1 | h1
        · exact Or.inr h1
        · exact Or.inl (List.mem_cons_of_mem _ h1)
      · rw [dinsert, if_neg hk] at h
        rcases List.mem_cons.1 h with h1 | h1
        · exact Or.inl (h1 ▸ List.mem_cons_self _ _)
        · rcases ih h1 with h' | h'
          · exact Or.inl (List.mem_cons_of_mem _ h')
          · exact Or.inr h'

theorem dlookup_mem {κ α : Type} [DecidableEq κ]
    (d : List (κ × α)) (k : κ) (v : α) (h : dlookup d k = some v) : (k, v) ∈ d := by
  induction d with
  | nil => simp [dlookup] at h
  | cons q rest ih =>
      obtain ⟨k', v'⟩ := q
      by_cases hk : k' = k
      · rw [dlookup, if_pos hk] at h
        cases h
        exact hk ▸ List.mem_cons_self _ _
      · rw [dlookup, if_neg hk] at h
        exact List.mem_cons_of_mem _ (ih h)

theorem NFA.states_applyOps_mono (n : NFA) (ops : List AutOp) :
    n.states ⊆ (n.applyOps ops).states := by
  induction ops generalizing n with
  | nil => exact fun _ h => h
  | cons op rest ih =>
      cases op with
      | addState s f =>
          exact fun x hx => ih (n.add_state s f) (sadd_subset _ _ hx)
      | addTrans a c b => exact fun x hx => ih (n.add_transition a c b) hx

theorem DFA.states_applyOps_mono_dfa (d : DFA) (ops : List AutOp) :
    d.states ⊆ (d.applyOps ops).states := by
  induction ops generalizing d with
  | nil => exact fun _ h => h
  | cons op rest ih =>
      cases op with
      | addState s f =>
          exact fun x hx => ih (d.add_state s f) (sadd_subset _ _ hx)
      | addTrans a c b => exact fun x hx => ih (d.add_transition a c b) hx

theorem NFA.declared_mem_states (n : NFA) (ops : List AutOp) (s : String)
    (h : declaredIn ops s) : s ∈ (n.applyOps ops).states := by
  induction ops generalizing n with
  | nil => obtain ⟨f, hf⟩ := h; simp at hf
  | cons op rest ih =>
      obtain ⟨f, hf⟩ := h
      rcases List.mem_cons.1 hf with heq | hmem
      · subst heq
        exact NFA.states_applyOps_mono _ rest (self_mem_sadd _ _)
      · cases op with
        | addState s' f' => exact ih _ ⟨f, hmem⟩
        | addTrans a c b => exact ih _ ⟨f, hmem⟩

theorem DFA.declared_mem_states_dfa (d : DFA) (ops : List AutOp) (s : String)
    (h : declaredIn ops s) : s ∈ (d.applyOps ops).states := by
  induction ops generalizing d with
  | nil => obtain ⟨f, hf⟩ := h; simp at hf
  | cons op rest ih =>
      obtain ⟨f, hf⟩ := h
      rcases List.mem_cons.1 hf with heq | hmem
      · subst heq
        exact DFA.states_applyOps_mono_dfa _ rest (self_mem_sadd _ _)
      · cases op with
        | addState s' f' => exact ih _ ⟨f, hmem⟩
        | addTrans a c b => exact ih _ ⟨f, hmem⟩

theorem NFA.refsSat_add_state (n : NFA) (P : String → Prop) (s : String) (f : Bool)
    (hn : nfaRefsSat n P) (hs : P s) : nfaRefsSat (n.add_state s f) P := by
  intro p hp
  simp only [NFA.add_state] at hp
  by_cases hk : (dlookup n.transitions s).isSome
  · rw [if_pos hk] at hp; exact hn p hp
  · rw [if_neg hk] at hp
    rcases mem_dinsert _ _ _ _ hp with h | h
    · exact hn p h
    · subst h; exact ⟨hs, by intro q hq; simp at hq⟩

theorem DFA.refsSat_add_state_dfa (d : DFA) (P : String → Prop) (s : String) (f : Bool)
    (hn : dfaRefsSat d P) (hs : P s) : dfaRefsSat (d.add_state s f) P := by
  intro p hp
  simp only [DFA.add_state] at hp
  by_cases hk : (dlookup d.transitions s).isSome
  · rw [if_pos hk] at hp; exact hn p hp
  · rw [if_neg hk] at hp
    rcases mem_dinsert _ _ _ _ hp with h | h
    · exact hn p h
    · subst h; exact ⟨hs, by intro q hq; simp at hq⟩

theorem NFA.refsSat_add_transition (n : NFA) (P : String → Prop) (a c b : String)
    (hn : nfaRefsSat n P) (ha : P a) (hb : P b) :
    nfaRefsSat (n.add_transition a c b) P := by
  intro p hp
  simp only [NFA.add_transition] at hp
  rcases mem_dinsert _ _ _ _ hp with h | h
  · exact hn p h
  · subst h
    refine ⟨ha, ?_⟩
    intro q hq t ht
    rcases mem_dinsert _ _ _ _ hq with h' | h'
    · -- entry of the pre-existing inner dict of `a`
      rcases hd0 : dlookup n.transitions a with _ | d0
      · simp [hd0] at h'
      · have hmem : (a, d0) ∈ n.transitions := dlookup_mem _ _ _ hd0
        have := (hn _ hmem).2 q (by simpa [hd0] using h') t ht
        exact this
    · subst h'
      -- target list: old list possibly extended with `b`
      rcases hd0 : dlookup n.transitions a with _ | d0
      · -- inner dict was empty, so the list was empty or `[b]`
        simp only [hd0, Option.getD_none] at ht
        rcases hl : dlookup ([] : List (String × List String)) c with _ | l
        · simp only [hl, Option.getD_none] at ht
          by_cases hbm : b ∈ ([] : List String)
          · simp at hbm
          · simp only [if_neg hbm, List.mem_append, List.mem_singleton] at ht
            rcases ht with h'' | h''
            · simp at h''
            · exact h'' ▸ hb
        · simp [dlookup] at hl
      · have hmem : (a, d0) ∈ n.transitions := dlookup_mem _ _ _ hd0
        simp only [hd0, Option.getD_some] at ht
        rcases hl : dlookup d0 c with _ | l
        · simp only [hl, Option.getD_none] at ht
          by_cases hbm : b ∈ ([] : List String)
          · simp at hbm
          · simp only [if_neg hbm, List.nil_append, List.mem_singleton] at ht
            exact ht ▸ hb
        · have hmem2 : (c, l) ∈ d0 := dlookup_mem _ _ _ hl
          simp only [hl, Option.getD_some] at ht
          by_cases hbm : b ∈ l
          · rw [if_pos hbm] at ht
            exact (hn _ hmem).2 _ hmem2 t ht
          · rw [if_neg hbm] at ht
            rcases List.mem_append.1 ht with h'' | h''
            · exact (hn _ hmem).2 _ hmem2 t h''
            · exact (List.mem_singleton.1 h'') ▸ hb

theorem DFA.refsSat_add_transition_dfa (d : DFA) (P : String → Prop) (a c b : String)
    (hn : dfaRefsSat d P) (ha : P a) (hb : P b) :
    dfaRefsSat (d.add_transition a c b) P := by
  intro p hp
  simp only [DFA.add_transition] at hp
  rcases mem_dinsert _ _ _ _ hp with h | h
  · exact hn p h
  · subst h
    refine ⟨ha, ?_⟩
    intro q hq
    rcases mem_dinsert _ _ _ _ hq with h' | h'
    · rcases hd0 : dlookup d.transitions a with _ | d0
      · simp [hd0] at h'
      · have hmem : (a, d0) ∈ d.transitions := dlookup_mem _ _ _ hd0
        exact (hn _ hmem).2 q (by simpa [hd0] using h')
    · subst h'; exact hb

theorem NFA.applyOps_refsSat (n : NFA) (ops : List AutOp) (P : String → Prop)
    (h0 : nfaRefsSat n P)
    (hops : ∀ op ∈ ops, (∀ s f, op = .addState s f → P s) ∧
      (∀ a c b, op = .addTrans a c b → P a ∧ P b)) :
    nfaRefsSat (n.applyOps ops) P := by
  induction ops generalizing n with
  | nil => exact h0
  | cons op rest ih =>
      cases op with
      | addState s f =>
          refine ih _ (NFA.refsSat_add_state _ _ _ _ h0 ?_) ?_
          · exact (hops _ (List.mem_cons_self _ _)).1 s f rfl
          · exact fun op' h' => hops _ (List.mem_cons_of_mem _ h')
      | addTrans a c b =>
          have hab := (hops _ (List.mem_cons_self _ _)).2 a c b rfl
          refine ih _ (NFA.refsSat_add_transition _ _ _ _ _ h0 hab.1 hab.2) ?_
          exact fun op' h' => hops _ (List.mem_cons_of_mem _ h')

theorem DFA.applyOps_refsSat_dfa (d : DFA) (ops : List AutOp) (P : String → Prop)
    (h0 : dfaRefsSat d P)
    (hops : ∀ op ∈ ops, (∀ s f, op = .addState s f → P s) ∧
      (∀ a c b, op = .addTrans a c b → P a ∧ P b)) :
    dfaRefsSat (d.applyOps ops) P := by
  induction ops generalizing d with
  | nil => exact h0
  | cons op rest ih =>
      cases op with
      | addState s f =>
          refine ih _ (DFA.refsSat_add_state_dfa _ _ _ _ h0 ?_) ?_
          · exact (hops _ (List.mem_cons_self _ _)).1 s f rfl
          · exact fun op' h' => hops _ (List.mem_cons_of_mem _ h')
      | addTrans a c b =>
          have hab := (hops _ (List.mem_cons_self _ _)).2 a c b rfl
          refine ih _ (DFA.refsSat_add_transition_dfa _ _ _ _ _ h0 hab.1 hab.2) ?_
          exact fun op' h' => hops _ (List.mem_cons_of_mem _ h')

/-- **C5** For every sequence of `add_state`/`add_transition` calls on a fresh
NFA or DFA instance in which every state referenced by a transition is
eventually declared via `add_state`, every source state and every target state
appearing in the resulting transitions table is a member of the instance's
`states` set. -/
theorem c5_no_undeclared_refs (ops : List AutOp) (start : String)
    (h : refsDeclared ops) :
    nfaRefsSat ((NFA.init start).applyOps ops)
      (fun s => s ∈ ((NFA.init start).applyOps ops).states) ∧
    dfaRefsSat (DFA.empty.applyOps ops)
      (fun s => s ∈ (DFA.empty.applyOps ops).states) := by
  constructor
  · refine NFA.applyOps_refsSat _ ops _ (by intro p hp; simp [NFA.init] at hp) ?_
    intro op hop
    constructor
    · rintro s f rfl
      exact NFA.declared_mem_states _ ops s ⟨f, hop⟩
    · rintro a c b rfl
      obtain ⟨ha, hb⟩ := h a c b hop
      exact ⟨NFA.declared_mem_states _ ops a ha, NFA.declared_mem_states _ ops b hb⟩
  · refine DFA.applyOps_refsSat_dfa _ ops _ (by intro p hp; simp [DFA.empty] at hp) ?_
    intro op hop
    constructor
    · rintro s f rfl
      exact DFA.declared_mem_states_dfa _ ops s ⟨f, hop⟩
    · rintro a c b rfl
      obtain ⟨ha, hb⟩ := h a c b hop
      exact ⟨DFA.declared_mem_states_dfa _ ops a ha, DFA.declared_mem_states_dfa _ ops b hb⟩

/-- Witness for C5 at a concrete op sequence with a forward reference
(`add_transition "A" "x" "B"` before `add_state "B"`). -/
theorem c5_no_undeclared_refs_witness :
    refsDeclared [.addState "A" false, .addTrans "A" "x" "B", .addState "B" true] ∧
    nfaRefsSat ((NFA.init "A").applyOps
        [.addState "A" false, .addTrans "A" "x" "B", .addState "B" true])
      (fun s => s ∈ ((NFA.init "A").applyOps
        [.addState "A" false, .addTrans "A" "x" "B", .addState "B" true]).states) := by
  have hd : refsDeclared
      [.addState "A" false, .addTrans "A" "x" "B", .addState "B" true] := by
    intro a c b hmem
    simp only [List.mem_cons, List.not_mem_nil, or_false] at hmem
    rcases hmem with h | h | h
    · exact absurd h (by simp)
    · cases h
      exact ⟨⟨false, by simp⟩, ⟨true, by simp⟩⟩
    · exact absurd h (by simp)
  exact ⟨hd, (c5_no_undeclared_refs _ "A" hd).1⟩

/-- **C10** Finality assigned by `add_state` is sticky, and re-adding a state
never removes it from `states` or clears its recorded transitions — for both
the NFA and the DFA model. -/
theorem c10_add_state_sticky :
    (∀ (a : NFA) (s m : String) (b : Bool),
        s ∈ a.final_states → s ∈ (a.add_state m b).final_states) ∧
    (∀ (a : NFA) (s : String), s ∈ (a.add_state s true).final_states) ∧
    (∀ (a : NFA) (s m : String) (b : Bool),
        s ∈ a.states → s ∈ (a.add_state m b).states) ∧
    (∀ (a : NFA) (m k : String) (b : Bool) (dk : List (String × List String)),
        dlookup a.transitions k = some dk →
        dlookup (a.add_state m b).transitions k = some dk) ∧
    (∀ (a : DFA) (s m : String) (b : Bool),
        s ∈ a.final_states → s ∈ (a.add_state m b).final_states) ∧
    (∀ (a : DFA) (s : String), s ∈ (a.add_state s true).final_states) ∧
    (∀ (a : DFA) (s m : String) (b : Bool),
        s ∈ a.states → s ∈ (a.add_state m b).states) ∧
    (∀ (a : DFA) (m k : String) (b : Bool) (dk : List (String × String)),
        dlookup a.transitions k = some dk →
        dlookup (a.add_state m b).transitions k = some dk) := by
  refine ⟨?_, ?_, ?_, ?_, ?_, ?_, ?_, ?_⟩
  · intro a s m b hs
    simp only [NFA.add_state]
    cases b
    · exact hs
    · exact sadd_subset _ _ hs
  · intro a s
    simp only [NFA.add_state]
    exact self_mem_sadd _ _
  · intro a s m b hs
    exact sadd_subset _ _ hs
  · intro a m k b dk hdk
    simp only [NFA.add_state]
    by_cases hk : (dlookup a.transitions m).isSome
    · rw [if_pos hk]; exact hdk
    · rw [if_neg hk]
      by_cases hmk : m = k
      · subst hmk; rw [hdk] at hk; simp at hk
      · rw [dlookup_dinsert_ne _ _ _ _ hmk]; exact hdk
  · intro a s m b hs
    simp only [DFA.add_state]
    cases b
    · exact hs
    · exact sadd_subset _ _ hs
  · intro a s
    simp only [DFA.add_state]
    exact self_mem_sadd _ _
  · intro a s m b hs
    exact sadd_subset _ _ hs
  · intro a m k b dk hdk
    simp only [DFA.add_state]
    by_cases hk : (dlookup a.transitions m).isSome
    · rw [if_pos hk]; exact hdk
    · rw [if_neg hk]
      by_cases hmk : m = k
      · subst hmk; rw [hdk] at hk; simp at hk
      · rw [dlookup_dinsert_ne _ _ _ _ hmk]; exact hdk

/-- Witness for C10: a state registered final, then re-added non-final,
stays final, stays in `states`, and keeps its transition entry. -/
theorem c10_add_state_sticky_witness :
    ("A" ∈ ((((NFA.init "A").add_state "A" true).add_transition "A" "x" "B"
        |>.add_state "A" false)).final_states) ∧
    ("A" ∈ ((((NFA.init "A").add_state "A" true).add_transition "A" "x" "B"
        |>.add_state "A" false)).states) := by
  have h := c10_add_state_sticky
  refine ⟨h.1 _ "A" "A" false ?_, by decide⟩
  exact h.2.1 (NFA.init "A") "A"

/-- **C6** If the input document lacks the `"startingState"` key,
deserialization fails immediately with the malformed-document error and no
automaton is constructed, and the whole `BuildDFA` pipeline surfaces that
error without emitting a DFA or minimized-DFA document. -/
theorem c6_missing_starting_state_aborts (data : List (String × J))
    (h : dlookup data "startingState" = none) :
    deserialize_nfa_json data = .error "JSON invalid: Missing 'startingState' key." ∧
    BuildDFA data = .error "JSON invalid: Missing 'startingState' key." := by
  constructor
  · simp [deserialize_nfa_json, h]
  · simp [BuildDFA, deserialize_nfa_json, h]

/-- Witness for C6 at a concrete document with states but no
`"startingState"` key. -/
theorem c6_missing_starting_state_aborts_witness :
    dlookup [("S0", J.jobj [("isTerminatingState", J.jbool true)])] "startingState" = none ∧
    BuildDFA [("S0", J.jobj [("isTerminatingState", J.jbool true)])] =
      .error "JSON invalid: Missing 'startingState' key." := by
  refine ⟨rfl, ?_⟩
  exact (c6_missing_starting_state_aborts
    [("S0", J.jobj [("isTerminatingState", J.jbool true)])] rfl).2

/-! ### Epsilon-closure: correctness of the DFS worklist loop -/

theorem addTargets_spec (ts : List String) :
    ∀ closure stack, ∃ diff,
      addTargets closure stack ts = (closure ++ diff, diff.reverse ++ stack) ∧
      diff.Nodup ∧ (∀ d ∈ diff, d ∈ ts ∧ d ∉ closure) ∧
      (∀ t ∈ ts, t ∈ closure ++ diff) := by
  induction ts with
  | nil =>
      intro closure stack
      exact ⟨[], by simp [addTargets], by simp, by simp, by simp⟩
  | cons t ts ih =>
      intro closure stack
      by_cases ht : t ∈ closure
      · obtain ⟨diff, heq, hnd, hmem, hall⟩ := ih closure stack
        refine ⟨diff, by simp [addTargets, ht, heq], hnd, ?_, ?_⟩
        · exact fun d hd => ⟨List.mem_cons_of_mem _ (hmem d hd).1, (hmem d hd).2⟩
        · intro u hu
          rcases List.mem_cons.1 hu with rfl | hu'
          · exact List.mem_append.2 (Or.inl ht)
          · exact hall u hu'
      · obtain ⟨diff, heq, hnd, hmem, hall⟩ := ih (closure ++ [t]) (t :: stack)
        refine ⟨t :: diff, ?_, ?_, ?_, ?_⟩
        · rw [addTargets, if_neg ht, heq]
          simp [List.append_assoc]
        · refine List.nodup_cons.2 ⟨fun hc => ?_, hnd⟩
          exact (hmem t hc).2 (List.mem_append.2 (Or.inr (List.mem_singleton.2 rfl)))
        · intro d hd
          rcases List.mem_cons.1 hd with rfl | hd'
          · exact ⟨List.mem_cons_self _ _, ht⟩
          · obtain ⟨h1, h2⟩ := hmem d hd'
            refine ⟨List.mem_cons_of_mem _ h1, fun hc => h2 (List.mem_append.2 (Or.inl hc))⟩
        · intro u hu
          rcases List.mem_cons.1 hu with rfl | hu'
          · rw [List.append_cons]
            exact List.mem_append.2 (Or.inl (List.mem_append.2 (Or.inr (List.mem_singleton.2 rfl))))
          · have := hall u hu'
            rw [List.append_cons]
            rcases List.mem_append.1 this with h | h
            · exact List.mem_append.2 (Or.inl h)
            · exact List.mem_append.2 (Or.inr h)

theorem addEpsEntries_spec (entries : List (String × List String)) :
    ∀ closure stack, ∃ diff,
      addEpsEntries closure stack entries = (closure ++ diff, diff.reverse ++ stack) ∧
      diff.Nodup ∧
      (∀ d ∈ diff, (∃ q ∈ entries, isEpsilonSymbol q.1 = true ∧ d ∈ q.2) ∧ d ∉ closure) ∧
      (∀ q ∈ entries, isEpsilonSymbol q.1 = true → ∀ t ∈ q.2, t ∈ closure ++ diff) := by
  induction entries with
  | nil =>
      intro closure stack
      exact ⟨[], by simp [addEpsEntries], by simp, by simp, by simp⟩
  | cons q entries ih =>
      intro closure stack
      obtain ⟨sym, targets⟩ := q
      by_cases he : isEpsilonSymbol sym = true
      · obtain ⟨d1, heq1, hnd1, hmem1, hall1⟩ := addTargets_spec targets closure stack
        obtain ⟨d2, heq2, hnd2, hmem2, hall2⟩ := ih (closure ++ d1) (d1.reverse ++ stack)
        refine ⟨d1 ++ d2, ?_, ?_, ?_, ?_⟩
        · rw [addEpsEntries, if_pos he, heq1, heq2]
          simp [List.append_assoc, List.reverse_append]
        · refine List.Nodup.append hnd1 hnd2 ?_
          intro a ha1 ha2
          exact (hmem2 a ha2).2 (List.mem_append.2 (Or.inr ha1))
        · intro d hd
          rcases List.mem_append.1 hd with hd' | hd'
          · exact ⟨⟨(sym, targets), List.mem_cons_self _ _, he, (hmem1 d hd').1⟩,
              (hmem1 d hd').2⟩
          · obtain ⟨⟨q', hq', hq'e, hq'm⟩, hnc⟩ := hmem2 d hd'
            refine ⟨⟨q', List.mem_cons_of_mem _ hq', hq'e, hq'm⟩, fun hc => ?_⟩
            exact hnc (List.mem_append.2 (Or.inl hc))
        · intro q' hq' hq'e t ht
          rcases List.mem_cons.1 hq' with rfl | hq''
          · have := hall1 t ht
            rw [← List.append_assoc]
            rcases List.mem_append.1 this with h | h
            · exact List.mem_append.2 (Or.inl (List.mem_append.2 (Or.inl h)))
            · exact List.mem_append.2 (Or.inl (List.mem_append.2 (Or.inr h)))
          · have := hall2 q' hq'' hq'e t ht
            rw [← List.append_assoc]
            exact this
      · obtain ⟨diff, heq, hnd, hmem, hall⟩ := ih closure stack
        refine ⟨diff, by rw [addEpsEntries, if_neg he]; exact heq, hnd, ?_, ?_⟩
        · intro d hd
          obtain ⟨⟨q', hq', hq'e, hq'm⟩, hnc⟩ := hmem d hd
          exact ⟨⟨q', List.mem_cons_of_mem _ hq', hq'e, hq'm⟩, hnc⟩
        · intro q' hq' hq'e t ht
          rcases List.mem_cons.1 hq' with rfl | hq''
          · exact absurd hq'e he
          · exact hall q' hq'' hq'e t ht

theorem mem_foldr_inner (m : List (String × List String)) (q : String × List String)
    (hq : q ∈ m) (t : String) (ht : t ∈ q.2) :
    t ∈ m.foldr (fun q a2 => q.2 ++ a2) [] := by
  induction m with
  | nil => simp at hq
  | cons q0 rest ih =>
      rw [List.foldr_cons]
      rcases List.mem_cons.1 hq with rfl | hq'
      · exact List.mem_append.2 (Or.inl ht)
      · exact List.mem_append.2 (Or.inr (ih hq'))

theorem mem_foldr_outer (l : List (String × List (String × List String)))
    (p : String × List (String × List String)) (hp : p ∈ l)
    (q : String × List String) (hq : q ∈ p.2) (t : String) (ht : t ∈ q.2) :
    t ∈ l.foldr (fun p acc => (p.2.foldr (fun q a2 => q.2 ++ a2) []) ++ acc) [] := by
  induction l with
  | nil => simp at hp
  | cons r rest ih =>
      rw [List.foldr_cons]
      rcases List.mem_cons.1 hp with rfl | hp'
      · exact List.mem_append.2 (Or.inl (mem_foldr_inner _ q hq t ht))
      · exact List.mem_append.2 (Or.inr (ih hp'))

theorem mem_allTargets (nfa : NFA) (p : String × List (String × List String))
    (hp : p ∈ nfa.transitions) (q : String × List String) (hq : q ∈ p.2)
    (t : String) (ht : t ∈ q.2) : t ∈ allTargets nfa :=
  mem_foldr_outer nfa.transitions p hp q hq t ht

theorem filter_notMem_append_singleton (A : List String) :
    ∀ closure d, A.Nodup → d ∈ A → d ∉ closure →
      (A.filter (fun x => x ∉ closure ++ [d])).length + 1 =
      (A.filter (fun x => x ∉ closure)).length := by
  induction A with
  | nil => intro closure d _ hd; simp at hd
  | cons a A ih =>
      intro closure d hnd hd hdc
      have hndA : A.Nodup := (List.nodup_cons.1 hnd).2
      rcases List.mem_cons.1 hd with rfl | hd'
      · have hda : d ∉ A := (List.nodup_cons.1 hnd).1
        have h1 : (d ∈ closure ++ [d]) := List.mem_append.2 (Or.inr (List.mem_singleton.2 rfl))
        rw [List.filter_cons, List.filter_cons]
        have e1 : (decide (d ∉ closure ++ [d])) = false := by
          simp [h1]
        have e2 : (decide (d ∉ closure)) = true := by simp [hdc]
        rw [e1, e2]
        have : A.filter (fun x => x ∉ closure ++ [d]) = A.filter (fun x => x ∉ closure) := by
          apply List.filter_congr
          intro x hx
          have hxd : x ≠ d := fun hc => hda (hc ▸ hx)
          simp [List.mem_append, hxd]
        rw [this]
        simp
      · have hrec := ih closure d hndA hd' hdc
        rw [List.filter_cons, List.filter_cons]
        by_cases hac : a ∈ closure
        · have e1 : (decide (a ∉ closure ++ [d])) = false := by
            simp [List.mem_append, hac]
          have e2 : (decide (a ∉ closure)) = false := by simp [hac]
          rw [e1, e2]
          simp only [Bool.false_eq_true, if_false]
          exact hrec
        · have had : a ≠ d := fun hc => (List.nodup_cons.1 hnd).1 (hc ▸ hd')
          have e1 : (decide (a ∉ closure ++ [d])) = true := by
            simp [List.mem_append, hac, had]
          have e2 : (decide (a ∉ closure)) = true := by simp [hac]
          rw [e1, e2]
          simp only [if_true, List.length_cons]
          omega

theorem filter_notMem_append (diff : List String) :
    ∀ (A closure : List String), A.Nodup → diff.Nodup →
      (∀ d ∈ diff, d ∈ A ∧ d ∉ closure) →
      (A.filter (fun x => x ∉ closure ++ diff)).length + diff.length ≤
      (A.filter (fun x => x ∉ closure)).length := by
  induction diff with
  | nil =>
      intro A closure _ _ _
      simp
  | cons d diff ih =>
      intro A closure hA hnd hmem
      have hd := hmem d (List.mem_cons_self _ _)
      have h1 := filter_notMem_append_singleton A closure d hA hd.1 hd.2
      have h2 := ih A (closure ++ [d]) hA (List.nodup_cons.1 hnd).2 ?_
      · have heq : closure ++ d :: diff = (closure ++ [d]) ++ diff := by
          rw [List.append_cons]
        rw [heq]
        simp only [List.length_cons]
        omega
      · intro d' hd'
        refine ⟨(hmem d' (List.mem_cons_of_mem _ hd')).1, fun hc => ?_⟩
        rcases List.mem_append.1 hc with hc' | hc'
        · exact (hmem d' (List.mem_cons_of_mem _ hd')).2 hc'
        · exact (List.nodup_cons.1 hnd).1 ((List.mem_singleton.1 hc') ▸ hd')

theorem ecloseLoop_cons_none (nfa : NFA) (fuel : Nat) (closure : List String)
    (current : String) (rest : List String)
    (hlk : dlookup nfa.transitions current = none) :
    ecloseLoop nfa (fuel + 1) closure (current :: rest) =
      ecloseLoop nfa fuel closure rest := by
  rw [ecloseLoop, hlk]

theorem ecloseLoop_cons_some (nfa : NFA) (fuel : Nat) (closure : List String)
    (current : String) (rest : List String) (tr : List (String × List String))
    (hlk : dlookup nfa.transitions current = some tr) :
    ecloseLoop nfa (fuel + 1) closure (current :: rest) =
      ecloseLoop nfa fuel (addEpsEntries closure rest tr).1
        (addEpsEntries closure rest tr).2 := by
  rw [ecloseLoop, hlk]

/-- Invariant-carrying correctness of the closure worklist loop. -/
theorem ecloseLoop_spec (nfa : NFA) (P : String → Prop)
    (hPstep : ∀ x y, P x → epsAdj nfa x y → P y) :
    ∀ (fuel : Nat) (closure stack : List String),
      stack.length + (((allTargets nfa).dedup).filter (fun x => x ∉ closure)).length ≤ fuel →
      stack ⊆ closure →
      (∀ y ∈ closure, P y) →
      (∀ x ∈ closure, x ∉ stack → ∀ y, epsAdj nfa x y → y ∈ closure) →
      closure ⊆ ecloseLoop nfa fuel closure stack ∧
      (∀ y ∈ ecloseLoop nfa fuel closure stack, P y) ∧
      epsClosed nfa (ecloseLoop nfa fuel closure stack) := by
  intro fuel
  induction fuel with
  | zero =>
      intro closure stack hfu hsub hP hfront
      have hst : stack = [] := by
        have : stack.length = 0 := by omega
        exact List.length_eq_zero.1 this
      subst hst
      refine ⟨fun x hx => hx, hP, ?_⟩
      intro x hx y hadj
      exact hfront x hx (by simp) y hadj
  | succ fuel ih =>
      intro closure stack hfu hsub hP hfront
      cases stack with
      | nil =>
          refine ⟨fun x hx => hx, hP, ?_⟩
          intro x hx y hadj
          exact hfront x hx (by simp) y hadj
      | cons current rest =>
          rcases hlk : dlookup nfa.transitions current with _ | tr
          · rw [ecloseLoop_cons_none nfa fuel closure current rest hlk]
            refine ih closure rest ?_ ?_ hP ?_
            · simp only [List.length_cons] at hfu
              omega
            · exact fun x hx => hsub (List.mem_cons_of_mem _ hx)
            · intro x hx hxr y hadj
              by_cases hxc : x = current
              · subst hxc
                obtain ⟨tr, htr, _⟩ := hadj
                rw [hlk] at htr
                cases htr
              · refine hfront x hx ?_ y hadj
                intro hc
                rcases List.mem_cons.1 hc with h | h
                · exact hxc h
                · exact hxr h
          · obtain ⟨diff, heq, hnd, hmem, hall⟩ := addEpsEntries_spec tr closure rest
            rw [ecloseLoop_cons_some nfa fuel closure current rest tr hlk, heq]
            have hdiffA : ∀ d ∈ diff, d ∈ (allTargets nfa).dedup ∧ d ∉ closure := by
              intro d hd
              obtain ⟨⟨q, hq, hqe, hqm⟩, hnc⟩ := hmem d hd
              refine ⟨List.mem_dedup.2 ?_, hnc⟩
              exact mem_allTargets nfa (current, tr) (dlookup_mem _ _ _ hlk) q hq d hqm
            have hcnt := filter_notMem_append diff ((allTargets nfa).dedup) closure
              (List.nodup_dedup _) hnd hdiffA
            refine (ih (closure ++ diff) (diff.reverse ++ rest) ?_ ?_ ?_ ?_).imp
              (fun h1 => fun x hx => h1 (List.mem_append.2 (Or.inl hx))) id
            · rw [List.length_append, List.length_reverse]
              simp only [List.length_cons] at hfu
              omega
            · intro x hx
              rcases List.mem_append.1 hx with hx' | hx'
              · exact List.mem_append.2 (Or.inr (List.mem_reverse.1 hx'))
              · exact List.mem_append.2
                  (Or.inl (hsub (List.mem_cons_of_mem _ hx')))
            · intro y hy
              rcases List.mem_append.1 hy with hy' | hy'
              · exact hP y hy'
              · obtain ⟨⟨q, hq, hqe, hqm⟩, _⟩ := hmem y hy'
                exact hPstep current y (hP current (hsub (List.mem_cons_self _ _)))
                  ⟨tr, hlk, q, hq, hqe, hqm⟩
            · intro x hx hxs y hadj
              rcases List.mem_append.1 hx with hx' | hx'
              · by_cases hxc : x = current
                · subst hxc
                  obtain ⟨tr', htr', q, hq, hqe, hqm⟩ := hadj
                  rw [hlk] at htr'
                  cases htr'
                  exact hall q hq hqe y hqm
                · have hxr : x ∉ rest := fun hc =>
                    hxs (List.mem_append.2 (Or.inr hc))
                  have : x ∉ current :: rest := by
                    intro hc
                    rcases List.mem_cons.1 hc with h | h
                    · exact hxc h
                    · exact hxr h
                  exact List.mem_append.2 (Or.inl (hfront x hx' this y hadj))
              · exact absurd (List.mem_append.2 (Or.inl (List.mem_reverse.2 hx')))
                  hxs

/-- `get_epsilon_closure` contains its seed, is justified by epsilon
reachability, and is epsilon-closed. -/
theorem get_epsilon_closure_spec (nfa : NFA) (S : List String) :
    S ⊆ get_epsilon_closure nfa S ∧
    (∀ y ∈ get_epsilon_closure nfa S,
      ∃ x ∈ S, Relation.ReflTransGen (epsAdj nfa) x y) ∧
    epsClosed nfa (get_epsilon_closure nfa S) := by
  have h := ecloseLoop_spec nfa
    (fun y => ∃ x ∈ S, Relation.ReflTransGen (epsAdj nfa) x y)
    (fun x y hx hadj => by
      obtain ⟨x0, hx0, hr⟩ := hx
      exact ⟨x0, hx0, Relation.ReflTransGen.tail hr hadj⟩)
    (S.length + (allTargets nfa).length + 1) S S
    ?_ (fun x hx => hx)
    (fun y hy => ⟨y, hy, Relation.ReflTransGen.refl⟩)
    (fun x hx hxs => absurd hx hxs)
  · exact ⟨h.1, h.2.1, h.2.2⟩
  · have h1 : (((allTargets nfa).dedup).filter (fun x => x ∉ S)).length ≤
        ((allTargets nfa).dedup).length := List.length_filter_le _ _
    have h2 : ((allTargets nfa).dedup).length ≤ (allTargets nfa).length :=
      List.Sublist.length_le (List.dedup_sublist _)
    omega

/-- Membership characterization: `get_epsilon_closure(nfa, S)` is exactly
what is epsilon-reachable from `S`. -/
theorem mem_get_epsilon_closure (nfa : NFA) (S : List String) (y : String) :
    y ∈ get_epsilon_closure nfa S ↔
      ∃ x ∈ S, Relation.ReflTransGen (epsAdj nfa) x y := by
  obtain ⟨hsub, hreach, hclosed⟩ := get_epsilon_closure_spec nfa S
  constructor
  · exact hreach y
  · rintro ⟨x, hx, hr⟩
    induction hr with
    | refl => exact hsub hx
    | tail _ hadj ihr => exact hclosed _ ihr _ hadj

/-! ### Sorting and canonical subset keys -/

theorem strLe_iff (a b : String) : strLe a b = true ↔ a ≤ b := by
  unfold strLe
  rw [Bool.not_eq_true', decide_eq_false_iff_not]
  constructor
  · intro h
    exact not_lt.1 (fun hba => h (String.lt_iff_toList_lt.1 hba))
  · intro h hba
    exact not_lt.2 h (String.lt_iff_toList_lt.2 hba)

theorem insertSorted_perm (x : String) (l : List String) :
    List.Perm (insertSorted x l) (x :: l) := by
  induction l with
  | nil => rfl
  | cons y ys ih =>
      rw [insertSorted]
      by_cases h : strLe x y = true
      · rw [if_pos h]
      · rw [if_neg h]
        exact (List.Perm.cons y ih).trans (List.Perm.swap x y ys)

theorem sortStrings_perm (l : List String) : List.Perm (sortStrings l) l := by
  induction l with
  | nil => rfl
  | cons x xs ih =>
      exact (insertSorted_perm x (sortStrings xs)).trans (List.Perm.cons x ih)

theorem mem_sortStrings (l : List String) (x : String) :
    x ∈ sortStrings l ↔ x ∈ l :=
  (sortStrings_perm l).mem_iff

theorem insertSorted_sorted (x : String) (l : List String)
    (h : List.Sorted (fun a b : String => a ≤ b) l) :
    List.Sorted (fun a b : String => a ≤ b) (insertSorted x l) := by
  induction l with
  | nil => simp [insertSorted]
  | cons y ys ih =>
      rw [List.sorted_cons] at h
      rw [insertSorted]
      by_cases hxy : strLe x y = true
      · rw [if_pos hxy]
        refine List.sorted_cons.2 ⟨?_, List.sorted_cons.2 ⟨h.1, h.2⟩⟩
        intro b hb
        rcases List.mem_cons.1 hb with rfl | hb'
        · exact (strLe_iff x b).1 hxy
        · exact le_trans ((strLe_iff x y).1 hxy) (h.1 b hb')
      · rw [if_neg hxy]
        have hyx : y ≤ x := by
          rcases le_total x y with h' | h'
          · exact absurd ((strLe_iff x y).2 h') hxy
          · exact h'
        refine List.sorted_cons.2 ⟨?_, ih h.2⟩
        intro b hb
        have hmem := (insertSorted_perm x ys).mem_iff.1 hb
        rcases List.mem_cons.1 hmem with rfl | hb'
        · exact hyx
        · exact h.1 b hb'

theorem sortStrings_sorted (l : List String) :
    List.Sorted (fun a b : String => a ≤ b) (sortStrings l) := by
  induction l with
  | nil => simp [sortStrings]
  | cons x xs ih => exact insertSorted_sorted x (sortStrings xs) ih

theorem canon_nodup (l : List String) : (canon l).Nodup :=
  ((sortStrings_perm l.dedup).nodup_iff).2 (List.nodup_dedup l)

theorem mem_canon (l : List String) (x : String) : x ∈ canon l ↔ x ∈ l :=
  Iff.trans (mem_sortStrings l.dedup x) List.mem_dedup

theorem sorted_lt_of_sorted_le_nodup (m : List String)
    (hs : List.Sorted (fun a b : String => a ≤ b) m) (hn : m.Nodup) :
    List.Sorted (fun a b : String => a < b) m := by
  induction m with
  | nil => exact List.sorted_nil
  | cons a as ih =>
      rw [List.sorted_cons] at hs
      rw [List.nodup_cons] at hn
      refine List.sorted_cons.2 ⟨?_, ih hs.2 hn.2⟩
      intro b hb
      exact lt_of_le_of_ne (hs.1 b hb) (fun hc => hn.1 (hc ▸ hb))

theorem canon_sorted (l : List String) :
    List.Sorted (fun a b : String => a < b) (canon l) :=
  sorted_lt_of_sorted_le_nodup (canon l) (sortStrings_sorted l.dedup) (canon_nodup l)

/-- Two canonical subset keys are equal exactly when they denote the same
set of states (Python `frozenset` equality). -/
theorem canon_eq_canon_iff (l1 l2 : List String) :
    canon l1 = canon l2 ↔ (∀ x, x ∈ l1 ↔ x ∈ l2) := by
  constructor
  · intro h x
    rw [← mem_canon l1 x, ← mem_canon l2 x, h]
  · intro h
    refine List.eq_of_perm_of_sorted ?_ (canon_sorted l1) (canon_sorted l2)
    refine (List.perm_ext_iff_of_nodup (canon_nodup l1) (canon_nodup l2)).2 ?_
    intro x
    rw [mem_canon, mem_canon]
    exact h x

theorem canon_canon (l : List String) : canon (canon l) = canon l :=
  (canon_eq_canon_iff _ _).2 (fun x => mem_canon l x)

theorem addTargets_id (ts : List String) :
    ∀ closure stack, (∀ t ∈ ts, t ∈ closure) →
      addTargets closure stack ts = (closure, stack) := by
  induction ts with
  | nil => intro closure stack _; rfl
  | cons t ts ih =>
      intro closure stack hall
      rw [addTargets, if_pos (hall t (List.mem_cons_self _ _))]
      exact ih closure stack fun u hu => hall u (List.mem_cons_of_mem _ hu)

theorem addEpsEntries_id (entries : List (String × List String)) :
    ∀ closure stack,
      (∀ q ∈ entries, isEpsilonSymbol q.1 = true → ∀ t ∈ q.2, t ∈ closure) →
      addEpsEntries closure stack entries = (closure, stack) := by
  induction entries with
  | nil => intro closure stack _; rfl
  | cons q entries ih =>
      intro closure stack hall
      obtain ⟨sym, targets⟩ := q
      by_cases he : isEpsilonSymbol sym = true
      · rw [addEpsEntries, if_pos he,
          addTargets_id targets closure stack (hall (sym, targets) (List.mem_cons_self _ _) he)]
        exact ih closure stack fun q' hq' => hall q' (List.mem_cons_of_mem _ hq')
      · rw [addEpsEntries, if_neg he]
        exact ih closure stack fun q' hq' => hall q' (List.mem_cons_of_mem _ hq')

theorem ecloseLoop_id (nfa : NFA) :
    ∀ (fuel : Nat) (closure stack : List String),
      stack.length ≤ fuel → stack ⊆ closure → epsClosed nfa closure →
      ecloseLoop nfa fuel closure stack = closure := by
  intro fuel
  induction fuel with
  | zero =>
      intro closure stack hfu _ _
      have : stack = [] := List.length_eq_zero.1 (by omega)
      subst this
      rfl
  | succ fuel ih =>
      intro closure stack hfu hsub hclosed
      cases stack with
      | nil => rfl
      | cons current rest =>
          have hfu' : rest.length ≤ fuel := by
            simp only [List.length_cons] at hfu
            omega
          rcases hlk : dlookup nfa.transitions current with _ | tr
          · rw [ecloseLoop_cons_none nfa fuel closure current rest hlk]
            exact ih closure rest hfu'
              (fun x hx => hsub (List.mem_cons_of_mem _ hx)) hclosed
          · have hid : addEpsEntries closure rest tr = (closure, rest) := by
              refine addEpsEntries_id tr closure rest ?_
              intro q hq hqe t ht
              exact hclosed current (hsub (List.mem_cons_self _ _)) t ⟨tr, hlk, q, hq, hqe, ht⟩
            rw [ecloseLoop_cons_some nfa fuel closure current rest tr hlk, hid]
            exact ih closure rest hfu'
              (fun x hx => hsub (List.mem_cons_of_mem _ hx)) hclosed

/-- On an epsilon-closed input the closure loop is the identity, so the
second application of `get_epsilon_closure` returns its input unchanged. -/
theorem get_epsilon_closure_of_closed (nfa : NFA) (C : List String)
    (hclosed : epsClosed nfa C) : get_epsilon_closure nfa C = C := by
  unfold get_epsilon_closure
  exact ecloseLoop_id nfa _ C C (by omega) (fun x hx => hx) hclosed

/-- **C9** Epsilon-closure is idempotent — literally,
`get_epsilon_closure(nfa, get_epsilon_closure(nfa, S))` equals
`get_epsilon_closure(nfa, S)` — and the closure is the smallest superset of
`S` closed under epsilon transitions. -/
theorem c9_epsilon_closure_idempotent (nfa : NFA) (S : List String) :
    get_epsilon_closure nfa (get_epsilon_closure nfa S) = get_epsilon_closure nfa S ∧
    S ⊆ get_epsilon_closure nfa S ∧
    epsClosed nfa (get_epsilon_closure nfa S) ∧
    (∀ T, S ⊆ T → epsClosed nfa T → get_epsilon_closure nfa S ⊆ T) := by
  obtain ⟨hsub, hreach, hclosed⟩ := get_epsilon_closure_spec nfa S
  refine ⟨get_epsilon_closure_of_closed nfa _ hclosed, hsub, hclosed, ?_⟩
  intro T hST hTclosed y hy
  obtain ⟨x, hx, hr⟩ := hreach y hy
  clear hy
  induction hr with
  | refl => exact hST hx
  | tail _ hadj ihr => exact hTclosed _ ihr _ hadj

/-- Witness for C9 at a concrete NFA with a two-step epsilon chain. -/
theorem c9_epsilon_closure_idempotent_witness :
    get_epsilon_closure
        { start_state := some "A", states := ["A", "B", "C"], final_states := ["C"],
          transitions := [("A", [("", ["B"])]), ("B", [("ε", ["C"])])] }
        (get_epsilon_closure
          { start_state := some "A", states := ["A", "B", "C"], final_states := ["C"],
            transitions := [("A", [("", ["B"])]), ("B", [("ε", ["C"])])] } ["A"]) =
      get_epsilon_closure
        { start_state := some "A", states := ["A", "B", "C"], final_states := ["C"],
          transitions := [("A", [("", ["B"])]), ("B", [("ε", ["C"])])] } ["A"] ∧
    get_epsilon_closure
        { start_state := some "A", states := ["A", "B", "C"], final_states := ["C"],
          transitions := [("A", [("", ["B"])]), ("B", [("ε", ["C"])])] } ["A"] =
      ["A", "B", "C"] :=
  ⟨(c9_epsilon_closure_idempotent _ ["A"]).1, by decide⟩

/-! ### Alphabet characterizations -/

theorem mem_alpha_inner (m : List (String × List String)) (acc : List String) (x : String) :
    x ∈ m.foldl (fun a q => if isEpsilonSymbol q.1 then a else sadd a q.1) acc ↔
      x ∈ acc ∨ ∃ q ∈ m, isEpsilonSymbol q.1 = false ∧ q.1 = x := by
  induction m generalizing acc with
  | nil => simp
  | cons q m ih =>
      rw [List.foldl_cons]
      by_cases he : isEpsilonSymbol q.1 = true
      · rw [if_pos he, ih]
        simp only [List.mem_cons, he]
        constructor
        · rintro (h | ⟨q', hq', hq'e, rfl⟩)
          · exact Or.inl h
          · exact Or.inr ⟨q', Or.inr hq', hq'e, rfl⟩
        · rintro (h | ⟨q', hq'm, hq'e, rfl⟩)
          · exact Or.inl h
          · rcases hq'm with rfl | hq'
            · rw [he] at hq'e
              cases hq'e
            · exact Or.inr ⟨q', hq', hq'e, rfl⟩
      · rw [if_neg he, ih]
        have heb : isEpsilonSymbol q.1 = false := by
          cases h : isEpsilonSymbol q.1
          · rfl
          · exact absurd h he
        constructor
        · rintro (h | ⟨q', hq', hq'e, rfl⟩)
          · rcases (mem_sadd acc q.1 x).1 h with h' | rfl
            · exact Or.inl h'
            · exact Or.inr ⟨q, List.mem_cons_self _ _, heb, rfl⟩
          · exact Or.inr ⟨q', List.mem_cons_of_mem _ hq', hq'e, rfl⟩
        · rintro (h | ⟨q', hq'm, hq'e, rfl⟩)
          · exact Or.inl ((mem_sadd acc q.1 x).2 (Or.inl h))
          · rcases List.mem_cons.1 hq'm with rfl | hq'
            · exact Or.inl ((mem_sadd acc q'.1 q'.1).2 (Or.inr rfl))
            · exact Or.inr ⟨q', hq', hq'e, rfl⟩

theorem mem_nfaAlphabet (nfa : NFA) (x : String) :
    x ∈ nfaAlphabet nfa ↔
      ∃ p ∈ nfa.transitions, ∃ q ∈ p.2, isEpsilonSymbol q.1 = false ∧ q.1 = x := by
  unfold nfaAlphabet
  have hgen : ∀ (l : List (String × List (String × List String))) (acc : List String),
      x ∈ l.foldl (fun alphabet p =>
        p.2.foldl (fun a q => if isEpsilonSymbol q.1 then a else sadd a q.1) alphabet) acc ↔
      x ∈ acc ∨ ∃ p ∈ l, ∃ q ∈ p.2, isEpsilonSymbol q.1 = false ∧ q.1 = x := by
    intro l
    induction l with
    | nil => simp
    | cons p l ih =>
        intro acc
        rw [List.foldl_cons, ih, mem_alpha_inner]
        constructor
        · rintro ((h | ⟨q, hq, hqe, rfl⟩) | ⟨p', hp', q, hq, hqe, rfl⟩)
          · exact Or.inl h
          · exact Or.inr ⟨p, List.mem_cons_self _ _, q, hq, hqe, rfl⟩
          · exact Or.inr ⟨p', List.mem_cons_of_mem _ hp', q, hq, hqe, rfl⟩
        · rintro (h | ⟨p', hp'm, q, hq, hqe, rfl⟩)
          · exact Or.inl (Or.inl h)
          · rcases List.mem_cons.1 hp'm with rfl | hp'
            · exact Or.inl (Or.inr ⟨q, hq, hqe, rfl⟩)
            · exact Or.inr ⟨p', hp', q, hq, hqe, rfl⟩
  rw [hgen]
  simp

/-! ### Deserialization stores transition symbols verbatim -/

theorem nfaHasSym_add_state (n : NFA) (a : String) (f : Bool) (s : String)
    (h : nfaHasSym (n.add_state a f) s) : nfaHasSym n s := by
  obtain ⟨p, hp, q, hq, rfl⟩ := h
  simp only [NFA.add_state] at hp
  by_cases hk : (dlookup n.transitions a).isSome
  · rw [if_pos hk] at hp
    exact ⟨p, hp, q, hq, rfl⟩
  · rw [if_neg hk] at hp
    rcases mem_dinsert _ _ _ _ hp with h' | h'
    · exact ⟨p, h', q, hq, rfl⟩
    · subst h'
      simp at hq

theorem nfaHasSym_add_transition (n : NFA) (a c b : String) (s : String)
    (h : nfaHasSym (n.add_transition a c b) s) : nfaHasSym n s ∨ s = c := by
  obtain ⟨p, hp, q, hq, rfl⟩ := h
  simp only [NFA.add_transition] at hp
  rcases mem_dinsert _ _ _ _ hp with h' | h'
  · exact Or.inl ⟨p, h', q, hq, rfl⟩
  · subst h'
    rcases mem_dinsert _ _ _ _ hq with h'' | h''
    · rcases hd0 : dlookup n.transitions a with _ | d0
      · simp [hd0] at h''
      · exact Or.inl ⟨(a, d0), dlookup_mem _ _ _ hd0, q,
          by simpa [hd0] using h'', rfl⟩
    · subst h''
      exact Or.inr rfl

theorem nfaHasSym_parseTargets (n : NFA) (key sym : String) (v : J) (s : String)
    (h : nfaHasSym (parseTargets n key sym v) s) : nfaHasSym n s ∨ s = sym := by
  cases v with
  | jarr ts =>
      rw [parseTargets] at h
      induction ts generalizing n with
      | nil => exact Or.inl h
      | cons t ts ih =>
          rw [List.foldl_cons] at h
          rcases ih (n.add_transition key sym t) h with h' | h'
          · exact (nfaHasSym_add_transition _ _ _ _ _ h').imp_left id
          · exact Or.inr h'
  | jstr t => exact nfaHasSym_add_transition _ _ _ _ _ h
  | jnull => exact Or.inl h
  | jbool b => exact Or.inl h
  | jobj o => exact Or.inl h

theorem nfaHasSym_stateFold (st : List (String × J)) (key : String) :
    ∀ (n : NFA) (s : String),
      nfaHasSym (st.foldl (fun n q =>
        if q.1 = "isTerminatingState" then n else parseTargets n key q.1 q.2) n) s →
      nfaHasSym n s ∨ ∃ e ∈ st, e.1 ≠ "isTerminatingState" ∧ e.1 = s := by
  induction st with
  | nil => exact fun n s h => Or.inl h
  | cons e st ih =>
      intro n s h
      rw [List.foldl_cons] at h
      by_cases he : e.1 = "isTerminatingState"
      · rw [if_pos he] at h
        rcases ih n s h with h' | ⟨e', he', hne, rfl⟩
        · exact Or.inl h'
        · exact Or.inr ⟨e', List.mem_cons_of_mem _ he', hne, rfl⟩
      · rw [if_neg he] at h
        rcases ih _ s h with h' | ⟨e', he', hne, rfl⟩
        · rcases nfaHasSym_parseTargets _ _ _ _ _ h' with h'' | rfl
          · exact Or.inl h''
          · exact Or.inr ⟨e, List.mem_cons_self _ _, he, rfl⟩
        · exact Or.inr ⟨e', List.mem_cons_of_mem _ he', hne, rfl⟩

theorem deserializeStates_cons_obj (n : NFA) (key : String)
    (st : List (String × J)) (rest : List (String × J)) :
    deserializeStates n ((key, J.jobj st) :: rest) =
      if key = "startingState" then deserializeStates n rest
      else
        deserializeStates
          (st.foldl (fun n q =>
            if q.1 = "isTerminatingState" then n else parseTargets n key q.1 q.2)
            (n.add_state key
              (jTruthy ((dlookup st "isTerminatingState").getD (J.jbool false)))))
          rest := rfl

theorem deserializeStates_cons_nonobj (n : NFA) (key : String) (v : J)
    (rest : List (String × J)) (hv : ∀ st, v ≠ J.jobj st) :
    deserializeStates n ((key, v) :: rest) =
      if key = "startingState" then deserializeStates n rest
      else .error "AttributeError: state value is not an object" := by
  rcases v with _ | b | t | ts | st
  · rfl
  · rfl
  · rfl
  · rfl
  · exact absurd rfl (hv st)

theorem nfaHasSym_deserializeStates (entries : List (String × J)) :
    ∀ (n n' : NFA) (s : String),
      deserializeStates n entries = .ok n' → nfaHasSym n' s →
      nfaHasSym n s ∨
        ∃ kv ∈ entries, kv.1 ≠ "startingState" ∧
          ∃ st, kv.2 = J.jobj st ∧ ∃ e ∈ st, e.1 ≠ "isTerminatingState" ∧ e.1 = s := by
  induction entries with
  | nil =>
      intro n n' s hok hs
      rw [deserializeStates] at hok
      cases hok
      exact Or.inl hs
  | cons kv entries ih =>
      intro n n' s hok hs
      obtain ⟨key, value⟩ := kv
      by_cases hobj : ∃ st, value = J.jobj st
      · obtain ⟨st, rfl⟩ := hobj
        rw [deserializeStates_cons_obj] at hok
        by_cases hsk : key = "startingState"
        · rw [if_pos hsk] at hok
          rcases ih n n' s hok hs with h' | ⟨kv', hkv', hne, st', hst', e, he, hne2, rfl⟩
          · exact Or.inl h'
          · exact Or.inr ⟨kv', List.mem_cons_of_mem _ hkv', hne, st', hst', e, he, hne2, rfl⟩
        · rw [if_neg hsk] at hok
          rcases ih _ n' s hok hs with h' | ⟨kv', hkv', hne, st', hst', e, he, hne2, rfl⟩
          · rcases nfaHasSym_stateFold st key _ s h' with h'' | ⟨e, he, hne2, rfl⟩
            · exact Or.inl (nfaHasSym_add_state _ _ _ _ h'')
            · exact Or.inr ⟨(key, J.jobj st), List.mem_cons_self _ _, hsk, st, rfl,
                e, he, hne2, rfl⟩
          · exact Or.inr ⟨kv', List.mem_cons_of_mem _ hkv', hne, st', hst', e, he, hne2, rfl⟩
      · rw [deserializeStates_cons_nonobj n key value entries
          (fun st hc => hobj ⟨st, hc⟩)] at hok
        by_cases hsk : key = "startingState"
        · rw [if_pos hsk] at hok
          rcases ih n n' s hok hs with h' | ⟨kv', hkv', hne, st', hst', e, he, hne2, rfl⟩
          · exact Or.inl h'
          · exact Or.inr ⟨kv', List.mem_cons_of_mem _ hkv', hne, st', hst', e, he, hne2, rfl⟩
        · rw [if_neg hsk] at hok
          cases hok

/-- Symbols in a deserialized NFA appear verbatim in the document. -/
theorem deserialize_symbols_verbatim (data : List (String × J)) (nfa : NFA)
    (hok : deserialize_nfa_json data = .ok nfa) (s : String)
    (hs : nfaHasSym nfa s) : docHasSymbol data s := by
  unfold deserialize_nfa_json at hok
  rcases hlk : dlookup data "startingState" with _ | sv
  · rw [hlk] at hok
    cases hok
  · rw [hlk] at hok
    rcases nfaHasSym_deserializeStates data _ nfa s hok hs with h | h
    · obtain ⟨p, hp, _⟩ := h
      simp at hp
    · exact h

/-- Counterexample to C3: the parsed NFA stores both the spelling
`"Epsilon"` and the spelling `""` verbatim — no single canonical epsilon
marker is substituted at parse time. -/
theorem c3_counterexample :
    deserialize_nfa_json
        [("startingState", J.jstr "A"),
         ("A", J.jobj [("isTerminatingState", J.jbool false), ("Epsilon", J.jstr "B")]),
         ("B", J.jobj [("isTerminatingState", J.jbool true), ("", J.jstr "A")])] =
      Except.ok
        { start_state := some "A", states := ["A", "B"], final_states := ["B"],
          transitions := [("A", [("Epsilon", ["B"])]), ("B", [("", ["A"])])] } ∧
    isEpsilonSymbol "Epsilon" = true ∧ isEpsilonSymbol "" = true ∧ "Epsilon" ≠ "" := by
  refine ⟨rfl, rfl, rfl, by decide⟩

/-- **C3 (amended)** No epsilon normalization happens at parse time:
`deserialize_nfa_json` stores every transition symbol verbatim (a symbol of
the parsed NFA always occurs literally in the document), and it is the
downstream algorithms that re-test the surface spellings — the epsilon
closure follows exactly the transitions whose stored symbol satisfies the
four-spelling test `isEpsilonSymbol`, and the subset-construction alphabet
holds exactly the stored symbols failing that test. -/
theorem c3_no_parse_time_normalization :
    (∀ (data : List (String × J)) (nfa : NFA),
        deserialize_nfa_json data = .ok nfa →
        ∀ s, nfaHasSym nfa s → docHasSymbol data s) ∧
    (∀ (nfa : NFA) (S : List String) (y : String),
        y ∈ get_epsilon_closure nfa S ↔
          ∃ x ∈ S, Relation.ReflTransGen (epsAdj nfa) x y) ∧
    (∀ (nfa : NFA) (x : String),
        x ∈ nfaAlphabet nfa ↔
          ∃ p ∈ nfa.transitions, ∃ q ∈ p.2, isEpsilonSymbol q.1 = false ∧ q.1 = x) :=
  ⟨fun data nfa hok s hs => deserialize_symbols_verbatim data nfa hok s hs,
   mem_get_epsilon_closure, mem_nfaAlphabet⟩

/-- Witness for the amended C3 at the counterexample document: the spelling
`"Epsilon"` of the parsed NFA occurs verbatim in the document. -/
theorem c3_no_parse_time_normalization_witness :
    docHasSymbol
      [("startingState", J.jstr "A"),
       ("A", J.jobj [("isTerminatingState", J.jbool false), ("Epsilon", J.jstr "B")]),
       ("B", J.jobj [("isTerminatingState", J.jbool true), ("", J.jstr "A")])]
      "Epsilon" := by
  refine c3_no_parse_time_normalization.1
    [("startingState", J.jstr "A"),
     ("A", J.jobj [("isTerminatingState", J.jbool false), ("Epsilon", J.jstr "B")]),
     ("B", J.jobj [("isTerminatingState", J.jbool true), ("", J.jstr "A")])]
    { start_state := some "A", states := ["A", "B"], final_states := ["B"],
      transitions := [("A", [("Epsilon", ["B"])]), ("B", [("", ["A"])])] }
    rfl "Epsilon" ?_
  exact ⟨("A", [("Epsilon", ["B"])]), by simp,
    ("Epsilon", ["B"]), by simp, rfl⟩

/-! ### Injectivity of the `S0, S1, ...` state-name scheme -/

theorem digitChar_inj_lt (a b : Nat) (ha : a < 10) (hb : b < 10)
    (h : Nat.digitChar a = Nat.digitChar b) : a = b := by
  interval_cases a <;> interval_cases b <;> simp_all [Nat.digitChar]

theorem toDigitsCore_eq_digits (fuel : Nat) :
    ∀ (n : Nat) (ds : List Char), 0 < n → n < 10 ^ fuel →
      Nat.toDigitsCore 10 fuel n ds =
        ((Nat.digits 10 n).map Nat.digitChar).reverse ++ ds := by
  induction fuel with
  | zero =>
      intro n ds hn hlt
      simp at hlt
      omega
  | succ fuel ih =>
      intro n ds hn hlt
      rw [Nat.toDigitsCore]
      by_cases hq : n / 10 = 0
      · rw [if_pos hq]
        have hn10 : n < 10 := by omega
        rw [Nat.digits_def' (by norm_num : 1 < 10) hn]
        rw [Nat.mod_eq_of_lt hn10, hq]
        simp
      · rw [if_neg hq]
        have h1 : 0 < n / 10 := Nat.pos_of_ne_zero hq
        have h2 : n / 10 < 10 ^ fuel := by
          rw [pow_succ] at hlt
          exact Nat.div_lt_of_lt_mul (by omega)
        rw [ih (n / 10) _ h1 h2]
        rw [Nat.digits_def' (by norm_num : 1 < 10) hn]
        simp [List.append_assoc]

theorem map_digitChar_inj (l1 : List Nat) :
    ∀ (l2 : List Nat), (∀ d ∈ l1, d < 10) → (∀ d ∈ l2, d < 10) →
      l1.map Nat.digitChar = l2.map Nat.digitChar → l1 = l2 := by
  induction l1 with
  | nil =>
      intro l2 _ _ h
      cases l2 with
      | nil => rfl
      | cons b bs => simp at h
  | cons a as ih =>
      intro l2 h1 h2 h
      cases l2 with
      | nil => simp at h
      | cons b bs =>
          simp only [List.map_cons, List.cons.injEq] at h
          have hab := digitChar_inj_lt a b (h1 a (by simp)) (h2 b (by simp)) h.1
          rw [hab, ih bs (fun d hd => h1 d (by simp [hd])) (fun d hd => h2 d (by simp [hd])) h.2]

theorem reprChars (n : Nat) :
    (Nat.repr n).data =
      if n = 0 then ['0'] else ((Nat.digits 10 n).map Nat.digitChar).reverse := by
  by_cases hn : n = 0
  · subst hn; rfl
  · rw [if_neg hn]
    have hpos : 0 < n := Nat.pos_of_ne_zero hn
    have hlt : n < 10 ^ (n + 1) :=
      lt_of_lt_of_le (Nat.lt_pow_self (by norm_num) n)
        (Nat.pow_le_pow_right (by norm_num) (Nat.le_succ n))
    show (Nat.toDigits 10 n).asString.data = _
    rw [Nat.toDigits, toDigitsCore_eq_digits (n + 1) n [] hpos hlt]
    simp [List.asString]

theorem natRepr_injective (n m : Nat) (h : Nat.repr n = Nat.repr m) : n = m := by
  have hd : (Nat.repr n).data = (Nat.repr m).data := by rw [h]
  rw [reprChars, reprChars] at hd
  by_cases hn : n = 0 <;> by_cases hm : m = 0
  · subst hn; subst hm; rfl
  · exfalso
    rw [if_pos hn, if_neg hm] at hd
    have : (Nat.digits 10 m).map Nat.digitChar = ['0'] := by
      have := congrArg List.reverse hd
      simpa using this.symm
    have hdig : Nat.digits 10 m = [0] := by
      have h0 : ([0] : List Nat).map Nat.digitChar = ['0'] := by decide
      exact map_digitChar_inj _ [0]
        (fun d hd' => Nat.digits_lt_base (by norm_num) hd')
        (by intro d hd'; simp at hd'; omega) (this.trans h0.symm)
    have : m = 0 := by
      have := Nat.ofDigits_digits 10 m
      rw [hdig] at this
      simpa [Nat.ofDigits] using this.symm
    exact hm this
  · exfalso
    rw [if_neg hn, if_pos hm] at hd
    have : (Nat.digits 10 n).map Nat.digitChar = ['0'] := by
      have := congrArg List.reverse hd
      simpa using this
    have hdig : Nat.digits 10 n = [0] := by
      have h0 : ([0] : List Nat).map Nat.digitChar = ['0'] := by decide
      exact map_digitChar_inj _ [0]
        (fun d hd' => Nat.digits_lt_base (by norm_num) hd')
        (by intro d hd'; simp at hd'; omega) (this.trans h0.symm)
    have : n = 0 := by
      have := Nat.ofDigits_digits 10 n
      rw [hdig] at this
      simpa [Nat.ofDigits] using this.symm
    exact hn this
  · rw [if_neg hn, if_neg hm] at hd
    have hrev := congrArg List.reverse hd
    simp only [List.reverse_reverse] at hrev
    have hdig := map_digitChar_inj _ _
      (fun d hd' => Nat.digits_lt_base (by norm_num) hd')
      (fun d hd' => Nat.digits_lt_base (by norm_num) hd') hrev
    have h1 := Nat.ofDigits_digits 10 n
    have h2 := Nat.ofDigits_digits 10 m
    rw [hdig] at h1
    omega

theorem sname_inj (i j : Nat) (h : "S" ++ Nat.repr i = "S" ++ Nat.repr j) : i = j := by
  apply natRepr_injective
  have hdata := congrArg String.data h
  rw [String.data_append, String.data_append] at hdata
  simp only [List.append_cancel_left_eq] at hdata
  have : Nat.repr i = Nat.repr j := by
    have h1 : Nat.repr i = String.mk (Nat.repr i).data := rfl
    have h2 : Nat.repr j = String.mk (Nat.repr j).data := rfl
    rw [h1, h2, hdata]
  exact this

/-- **C4** (refuted — code bug): `minimize_dfa`'s output is *not* independent
of the iteration order of the internally-unordered state set.  The two input
DFAs below are identical as set-automata (same state set — the lists are
permutations — same start, finality and transition table); they differ only
in the enumeration order of `dfa.states`, which is exactly the incidental
order `list(group)` exposes in Python.  `minimize_dfa` numbers the groups
differently (the representative picked from the big group differs), so the
two runs return different minimized automata: start state `S0` versus `S1`,
and transition `S0 -a-> S0` versus `S0 -a-> S2`. -/
theorem c4_minimize_depends_on_set_order :
    (DFA.mk (some "P") ["P", "Q", "R", "F"] ["F"]
        [("P", [("a", "P")]), ("Q", [("a", "P")]), ("R", [("a", "F")])]).states.Perm
      (DFA.mk (some "P") ["R", "P", "Q", "F"] ["F"]
        [("P", [("a", "P")]), ("Q", [("a", "P")]), ("R", [("a", "F")])]).states ∧
    minimize_dfa (DFA.mk (some "P") ["P", "Q", "R", "F"] ["F"]
        [("P", [("a", "P")]), ("Q", [("a", "P")]), ("R", [("a", "F")])]) ≠
      minimize_dfa (DFA.mk (some "P") ["R", "P", "Q", "F"] ["F"]
        [("P", [("a", "P")]), ("Q", [("a", "P")]), ("R", [("a", "F")])]) ∧
    (minimize_dfa (DFA.mk (some "P") ["P", "Q", "R", "F"] ["F"]
        [("P", [("a", "P")]), ("Q", [("a", "P")]), ("R", [("a", "F")])])).start_state =
      some "S0" ∧
    (minimize_dfa (DFA.mk (some "P") ["R", "P", "Q", "F"] ["F"]
        [("P", [("a", "P")]), ("Q", [("a", "P")]), ("R", [("a", "F")])])).start_state =
      some "S1" := by
  refine ⟨?_, ?_, ?_, ?_⟩
  · decide
  · decide
  · decide
  · decide

/-! ### Refinement pass: characterization and invariants -/

theorem splitGroupGo_spec (dfa : DFA) (alphabet : List String)
    (P : List (List String)) (first : String) (l : List String) :
    ∀ mg nmg,
      splitGroupGo dfa alphabet P first mg nmg l =
        (mg ++ l.filter (fun s => statesMatch dfa alphabet P first s),
         nmg ++ l.filter (fun s => !statesMatch dfa alphabet P first s)) := by
  induction l with
  | nil => intro mg nmg; simp [splitGroupGo]
  | cons s l ih =>
      intro mg nmg
      rw [splitGroupGo]
      by_cases h : statesMatch dfa alphabet P first s = true
      · rw [if_pos h, ih]
        simp [List.filter_cons, h, List.append_assoc]
      · have hb : statesMatch dfa alphabet P first s = false := by
          cases hx : statesMatch dfa alphabet P first s
          · rfl
          · exact absurd hx h
        rw [if_neg h, ih]
        simp [List.filter_cons, hb, List.append_assoc]

theorem refineOnceGo_spec (dfa : DFA) (alphabet : List String)
    (P : List (List String)) (gs : List (List String)) :
    ∀ acc did,
      refineOnceGo dfa alphabet P gs acc did =
        (acc ++ (gs.map (groupOut dfa alphabet P)).flatten,
         did || gs.any (groupSplits dfa alphabet P)) := by
  induction gs with
  | nil => intro acc did; simp [refineOnceGo]
  | cons g gs ih =>
      intro acc did
      rcases g with _ | ⟨first, grest⟩
      · rw [refineOnceGo, ih]
        simp [groupOut, groupSplits, List.append_assoc]
      · rcases grest with _ | ⟨s2, grest'⟩
        · rw [refineOnceGo, ih]
          simp [groupOut, groupSplits, List.append_assoc]
        · have hgo : groupOut dfa alphabet P (first :: s2 :: grest') =
              (if (splitGroupGo dfa alphabet P first [first] [] (s2 :: grest')).2 = []
               then [first :: s2 :: grest']
               else [(splitGroupGo dfa alphabet P first [first] [] (s2 :: grest')).1,
                     (splitGroupGo dfa alphabet P first [first] [] (s2 :: grest')).2]) := rfl
          have hgs : groupSplits dfa alphabet P (first :: s2 :: grest') =
              decide ((splitGroupGo dfa alphabet P first [first] [] (s2 :: grest')).2 ≠ []) :=
            rfl
          have hgo2 : refineOnceGo dfa alphabet P ((first :: s2 :: grest') :: gs) acc did =
              (if (splitGroupGo dfa alphabet P first [first] [] (s2 :: grest')).2 = []
               then refineOnceGo dfa alphabet P gs (acc ++ [first :: s2 :: grest']) did
               else refineOnceGo dfa alphabet P gs
                 (acc ++ [(splitGroupGo dfa alphabet P first [first] [] (s2 :: grest')).1,
                          (splitGroupGo dfa alphabet P first [first] [] (s2 :: grest')).2]) true) :=
            rfl
          by_cases hsp :
            (splitGroupGo dfa alphabet P first [first] [] (s2 :: grest')).2 = []
          · rw [hgo2, if_pos hsp, ih]
            rw [List.map_cons, List.flatten_cons, hgo, if_pos hsp, List.any_cons, hgs]
            simp [hsp, List.append_assoc]
          · rw [hgo2, if_neg hsp, ih]
            rw [List.map_cons, List.flatten_cons, hgo, if_neg hsp, List.any_cons, hgs]
            simp [hsp, List.append_assoc]

theorem refineOnce_eq (dfa : DFA) (alphabet : List String) (P : List (List String)) :
    refineOnce dfa alphabet P =
      ((P.map (groupOut dfa alphabet P)).flatten,
       P.any (groupSplits dfa alphabet P)) := by
  rw [refineOnce, refineOnceGo_spec]
  simp

theorem groupOut_of_not_splits (dfa : DFA) (alphabet : List String)
    (P : List (List String)) (g : List String)
    (h : groupSplits dfa alphabet P g = false) :
    groupOut dfa alphabet P g = [g] := by
  rcases g with _ | ⟨first, grest⟩
  · rfl
  · rcases grest with _ | ⟨s2, grest'⟩
    · rfl
    · have hgs : groupSplits dfa alphabet P (first :: s2 :: grest') =
          decide ((splitGroupGo dfa alphabet P first [first] [] (s2 :: grest')).2 ≠ []) :=
        rfl
      rw [hgs] at h
      simp only [decide_not, Bool.not_eq_false', decide_eq_true_eq] at h
      have hgo : groupOut dfa alphabet P (first :: s2 :: grest') =
          (if (splitGroupGo dfa alphabet P first [first] [] (s2 :: grest')).2 = []
           then [first :: s2 :: grest']
           else [(splitGroupGo dfa alphabet P first [first] [] (s2 :: grest')).1,
                 (splitGroupGo dfa alphabet P first [first] [] (s2 :: grest')).2]) := rfl
      rw [hgo, if_pos h]

theorem flatten_groupOut_id (dfa : DFA) (alphabet : List String)
    (P : List (List String)) (gs : List (List String))
    (h : gs.any (groupSplits dfa alphabet P) = false) :
    (gs.map (groupOut dfa alphabet P)).flatten = gs := by
  induction gs with
  | nil => rfl
  | cons g gs ih =>
      rw [List.any_cons, Bool.or_eq_false_iff] at h
      rw [List.map_cons, List.flatten_cons,
        groupOut_of_not_splits dfa alphabet P g h.1, ih h.2]
      rfl

theorem refineOnce_id (dfa : DFA) (alphabet : List String) (P : List (List String))
    (h : P.any (groupSplits dfa alphabet P) = false) :
    refineOnce dfa alphabet P = (P, false) := by
  rw [refineOnce_eq, flatten_groupOut_id dfa alphabet P P h, h]

theorem statesMatch_iff (dfa : DFA) (alphabet : List String)
    (P : List (List String)) (first s : String) :
    statesMatch dfa alphabet P first s = true ↔
      ∀ c ∈ alphabet,
        get_partition_index (dlookup2 dfa.transitions first c) P =
        get_partition_index (dlookup2 dfa.transitions s c) P := by
  unfold statesMatch
  rw [List.all_eq_true]
  constructor
  · intro h c hc
    have := h c hc
    simpa using this
  · intro h c hc
    simpa using h c hc

theorem stable_of_no_split (dfa : DFA) (alphabet : List String)
    (P : List (List String)) (h : P.any (groupSplits dfa alphabet P) = false) :
    stablePartition dfa alphabet P := by
  intro g hg s hs t ht c hc
  have hgs : groupSplits dfa alphabet P g = false := by
    rw [List.any_eq_false] at h
    exact Bool.not_eq_true _ ▸ h g hg
  rcases g with _ | ⟨first, grest⟩
  · simp at hs
  · rcases grest with _ | ⟨s2, grest'⟩
    · have hs' : s = first := by simpa using hs
      have ht' : t = first := by simpa using ht
      rw [hs', ht']
    · have hgs2 : groupSplits dfa alphabet P (first :: s2 :: grest') =
          decide ((splitGroupGo dfa alphabet P first [first] [] (s2 :: grest')).2 ≠ []) :=
        rfl
      rw [hgs2] at hgs
      simp only [decide_not, Bool.not_eq_false', decide_eq_true_eq] at hgs
      rw [splitGroupGo_spec] at hgs
      simp only [List.nil_append] at hgs
      have hall : ∀ x ∈ s2 :: grest', statesMatch dfa alphabet P first x = true := by
        intro x hx
        by_contra hnm
        have hxf : (s2 :: grest').filter
            (fun s => !statesMatch dfa alphabet P first s) ≠ [] := by
          intro hc0
          have : x ∈ (s2 :: grest').filter
              (fun s => !statesMatch dfa alphabet P first s) := by
            rw [List.mem_filter]
            exact ⟨hx, by simp [Bool.not_eq_true] at hnm ⊢; exact hnm⟩
          rw [hc0] at this
          simp at this
        exact hxf hgs
      have hidx : ∀ x ∈ first :: s2 :: grest',
          get_partition_index (dlookup2 dfa.transitions first c) P =
          get_partition_index (dlookup2 dfa.transitions x c) P := by
        intro x hx
        rcases List.mem_cons.1 hx with rfl | hx'
        · rfl
        · exact ((statesMatch_iff dfa alphabet P first x).1 (hall x hx')) c hc
      rw [← hidx s hs, hidx t ht]

theorem groupOut_facts (dfa : DFA) (alphabet : List String)
    (P : List (List String)) (g : List String) (hne : g ≠ []) (hnd : g.Nodup) :
    (∀ g' ∈ groupOut dfa alphabet P g, g' ≠ [] ∧ g'.Nodup ∧ g' ⊆ g) ∧
    (∀ x ∈ g, ∃ g' ∈ groupOut dfa alphabet P g, x ∈ g') ∧
    List.Pairwise (fun g1 g2 => ∀ x, x ∈ g1 → x ∉ g2) (groupOut dfa alphabet P g) := by
  rcases g with _ | ⟨first, grest⟩
  · exact absurd rfl hne
  · rcases grest with _ | ⟨s2, grest'⟩
    · refine ⟨?_, ?_, ?_⟩
      · intro g' hg'
        have : g' = [first] := by simpa [groupOut] using hg'
        subst this
        exact ⟨by simp, by simp, fun x hx => hx⟩
      · intro x hx
        exact ⟨[first], by simp [groupOut], hx⟩
      · simp [groupOut]
    · have hgo : groupOut dfa alphabet P (first :: s2 :: grest') =
          (if (splitGroupGo dfa alphabet P first [first] [] (s2 :: grest')).2 = []
           then [first :: s2 :: grest']
           else [(splitGroupGo dfa alphabet P first [first] [] (s2 :: grest')).1,
                 (splitGroupGo dfa alphabet P first [first] [] (s2 :: grest')).2]) := rfl
      rw [splitGroupGo_spec] at hgo
      simp only [List.nil_append] at hgo
      by_cases hsp : (s2 :: grest').filter
          (fun s => !statesMatch dfa alphabet P first s) = []
      · rw [hgo, if_pos hsp]
        refine ⟨?_, ?_, ?_⟩
        · intro g' hg'
          have : g' = first :: s2 :: grest' := by simpa using hg'
          subst this
          exact ⟨by simp, hnd, fun x hx => hx⟩
        · intro x hx
          exact ⟨first :: s2 :: grest', by simp, hx⟩
        · simp
      · rw [hgo, if_neg hsp]
        have hnd' : (s2 :: grest').Nodup := (List.nodup_cons.1 hnd).2
        have hfirstn : first ∉ s2 :: grest' := (List.nodup_cons.1 hnd).1
        have hmg_sub : first :: (s2 :: grest').filter
            (fun s => statesMatch dfa alphabet P first s) ⊆ first :: s2 :: grest' := by
          intro x hx
          rcases List.mem_cons.1 hx with rfl | hx'
          · exact List.mem_cons_self _ _
          · exact List.mem_cons_of_mem _ (List.mem_of_mem_filter hx')
        have hnmg_sub : (s2 :: grest').filter
            (fun s => !statesMatch dfa alphabet P first s) ⊆ first :: s2 :: grest' :=
          fun x hx => List.mem_cons_of_mem _ (List.mem_of_mem_filter hx)
        refine ⟨?_, ?_, ?_⟩
        · intro g' hg'
          rcases List.mem_cons.1 hg' with rfl | hg''
          · refine ⟨by simp, ?_, hmg_sub⟩
            refine List.nodup_cons.2 ⟨?_, List.Nodup.filter _ hnd'⟩
            intro hc0
            exact hfirstn (List.mem_of_mem_filter hc0)
          · have : g' = (s2 :: grest').filter
                (fun s => !statesMatch dfa alphabet P first s) := by
              simpa using hg''
            subst this
            exact ⟨hsp, List.Nodup.filter _ hnd', hnmg_sub⟩
        · intro x hx
          rcases List.mem_cons.1 hx with rfl | hx'
          · exact ⟨_, List.mem_cons_self _ _, List.mem_cons_self _ _⟩
          · by_cases hm : statesMatch dfa alphabet P first x = true
            · refine ⟨_, List.mem_cons_self _ _, ?_⟩
              exact List.mem_cons_of_mem _ (List.mem_filter.2 ⟨hx', hm⟩)
            · refine ⟨(s2 :: grest').filter
                (fun s => !statesMatch dfa alphabet P first s),
                by simp, ?_⟩
              exact List.mem_filter.2 ⟨hx', by simp [Bool.not_eq_true] at hm ⊢; exact hm⟩
        · refine List.pairwise_cons.2 ⟨?_, by simp⟩
          intro g' hg' x hx
          have hg'' : g' = (s2 :: grest').filter
              (fun s => !statesMatch dfa alphabet P first s) := by simpa using hg'
          subst hg''
          intro hc0
          have hx2 := List.mem_filter.1 hc0
          rcases List.mem_cons.1 hx with rfl | hx'
          · exact hfirstn (List.mem_of_mem_filter hc0)
          · have hx3 := List.mem_filter.1 hx'
            rw [hx3.2] at hx2
            simp at hx2

theorem goodPartition_refineOnce (dfa : DFA) (univ alphabet : List String)
    (P : List (List String)) (hgood : goodPartition dfa univ P) :
    goodPartition dfa univ ((P.map (groupOut dfa alphabet P)).flatten) := by
  obtain ⟨hglob, hdisj, hpure, hcover⟩ := hgood
  have hfacts : ∀ g ∈ P,
      (∀ g' ∈ groupOut dfa alphabet P g, g' ≠ [] ∧ g'.Nodup ∧ g' ⊆ g) ∧
      (∀ x ∈ g, ∃ g' ∈ groupOut dfa alphabet P g, x ∈ g') ∧
      List.Pairwise (fun g1 g2 => ∀ x, x ∈ g1 → x ∉ g2) (groupOut dfa alphabet P g) :=
    fun g hg => groupOut_facts dfa alphabet P g (hglob g hg).1 (hglob g hg).2.1
  refine ⟨?_, ?_, ?_, ?_⟩
  · intro g' hg'
    obtain ⟨sub, hsub, hg'sub⟩ := List.mem_flatten.1 hg'
    obtain ⟨g, hg, rfl⟩ := List.mem_map.1 hsub
    obtain ⟨h1, h2, h3⟩ := (hfacts g hg).1 g' hg'sub
    exact ⟨h1, h2, fun x hx => (hglob g hg).2.2 (h3 hx)⟩
  · rw [listsDisjoint, List.pairwise_flatten]
    refine ⟨?_, ?_⟩
    · intro sub hsub
      obtain ⟨g, hg, rfl⟩ := List.mem_map.1 hsub
      exact (hfacts g hg).2.2
    · rw [List.pairwise_map]
      refine List.Pairwise.imp_of_mem ?_ hdisj
      intro g h hg hh hdisj' g' hg' h' hh' x hx
      intro hc
      have hxg : x ∈ g := ((hfacts g hg).1 g' hg').2.2 hx
      have hxh : x ∈ h := ((hfacts h hh).1 h' hh').2.2 hc
      exact hdisj' x hxg hxh
  · intro g' hg'
    obtain ⟨sub, hsub, hg'sub⟩ := List.mem_flatten.1 hg'
    obtain ⟨g, hg, rfl⟩ := List.mem_map.1 hsub
    have hsubg := ((hfacts g hg).1 g' hg'sub).2.2
    rcases hpure g hg with h | h
    · exact Or.inl (fun s hs => h s (hsubg hs))
    · exact Or.inr (fun s hs => h s (hsubg hs))
  · intro s hs
    obtain ⟨g, hg, hsg⟩ := hcover s hs
    obtain ⟨g', hg', hsg'⟩ := (hfacts g hg).2.1 s hsg
    exact ⟨g', List.mem_flatten.2 ⟨groupOut dfa alphabet P g,
      List.mem_map.2 ⟨g, hg, rfl⟩, hg'⟩, hsg'⟩

theorem groupOut_length_pos (dfa : DFA) (alphabet : List String)
    (P : List (List String)) (g : List String) :
    1 ≤ (groupOut dfa alphabet P g).length ∧
    (groupSplits dfa alphabet P g = true → 2 ≤ (groupOut dfa alphabet P g).length) := by
  rcases g with _ | ⟨first, grest⟩
  · exact ⟨by simp [groupOut], by simp [groupSplits]⟩
  · rcases grest with _ | ⟨s2, grest'⟩
    · exact ⟨by simp [groupOut], by simp [groupSplits]⟩
    · have hgo : groupOut dfa alphabet P (first :: s2 :: grest') =
          (if (splitGroupGo dfa alphabet P first [first] [] (s2 :: grest')).2 = []
           then [first :: s2 :: grest']
           else [(splitGroupGo dfa alphabet P first [first] [] (s2 :: grest')).1,
                 (splitGroupGo dfa alphabet P first [first] [] (s2 :: grest')).2]) := rfl
      have hgs : groupSplits dfa alphabet P (first :: s2 :: grest') =
          decide ((splitGroupGo dfa alphabet P first [first] [] (s2 :: grest')).2 ≠ []) :=
        rfl
      by_cases hsp : (splitGroupGo dfa alphabet P first [first] [] (s2 :: grest')).2 = []
      · rw [hgo, if_pos hsp, hgs]
        simp [hsp]
      · rw [hgo, if_neg hsp, hgs]
        simp [hsp]

theorem length_flatten_groupOut (dfa : DFA) (alphabet : List String)
    (P : List (List String)) (gs : List (List String)) :
    gs.length ≤ ((gs.map (groupOut dfa alphabet P)).flatten).length ∧
    (gs.any (groupSplits dfa alphabet P) = true →
      gs.length + 1 ≤ ((gs.map (groupOut dfa alphabet P)).flatten).length) := by
  induction gs with
  | nil => simp
  | cons g gs ih =>
      rw [List.map_cons, List.flatten_cons, List.length_append, List.length_cons,
        List.any_cons]
      obtain ⟨h1, h2⟩ := groupOut_length_pos dfa alphabet P g
      constructor
      · omega
      · intro hsplit
        rcases Bool.or_eq_true_iff.1 hsplit with hg | hgs
        · have := h2 hg
          omega
        · have := ih.2 hgs
          omega

theorem partition_length_le (P : List (List String)) :
    ∀ (univ : List String),
      (∀ g ∈ P, g ≠ [] ∧ g ⊆ univ) → listsDisjoint P →
      P.length ≤ univ.length := by
  induction P with
  | nil => intro univ _ _; simp
  | cons g P ih =>
      intro univ hglob hdisj
      have hgne := (hglob g (List.mem_cons_self _ _)).1
      obtain ⟨x, hx⟩ := List.exists_mem_of_ne_nil g hgne
      have hxu : x ∈ univ := (hglob g (List.mem_cons_self _ _)).2 hx
      have hdisj' := List.pairwise_cons.1 hdisj
      have hstep : P.length ≤ (univ.filter (fun y => y ∉ g)).length := by
        refine ih (univ.filter (fun y => y ∉ g)) ?_ hdisj'.2
        intro h hh
        refine ⟨(hglob h (List.mem_cons_of_mem _ hh)).1, ?_⟩
        intro t ht
        rw [List.mem_filter]
        refine ⟨(hglob h (List.mem_cons_of_mem _ hh)).2 ht, ?_⟩
        simp only [decide_not, Bool.not_eq_true', decide_eq_false_iff_not]
        intro htg
        exact hdisj'.1 h hh t htg ht
      have hlt : (univ.filter (fun y => y ∉ g)).length < univ.length := by
        refine List.length_filter_lt_length_iff_exists.2 ?_
        exact ⟨x, hxu, by simp [hx]⟩
      simp only [List.length_cons]
      omega

theorem refineLoop_spec (dfa : DFA) (univ alphabet : List String) :
    ∀ (fuel : Nat) (P : List (List String)),
      goodPartition dfa univ P →
      univ.length + 1 ≤ fuel + P.length →
      goodPartition dfa univ (refineLoop dfa alphabet fuel P) ∧
      stablePartition dfa alphabet (refineLoop dfa alphabet fuel P) := by
  intro fuel
  induction fuel with
  | zero =>
      intro P hgood hfu
      exfalso
      have := partition_length_le P univ
        (fun g hg => ⟨(hgood.1 g hg).1, (hgood.1 g hg).2.2⟩) hgood.2.1
      omega
  | succ fuel ih =>
      intro P hgood hfu
      have hred : refineLoop dfa alphabet (fuel + 1) P =
          (if (refineOnce dfa alphabet P).2 then
            refineLoop dfa alphabet fuel (refineOnce dfa alphabet P).1
          else (refineOnce dfa alphabet P).1) := rfl
      by_cases hsplit : P.any (groupSplits dfa alphabet P) = true
      · have hro : refineOnce dfa alphabet P =
            ((P.map (groupOut dfa alphabet P)).flatten, true) := by
          rw [refineOnce_eq, hsplit]
        rw [hred, hro]
        simp only [if_true]
        refine ih ((P.map (groupOut dfa alphabet P)).flatten)
          (goodPartition_refineOnce dfa univ alphabet P hgood) ?_
        have := (length_flatten_groupOut dfa alphabet P P).2 hsplit
        omega
      · have hsplit' : P.any (groupSplits dfa alphabet P) = false :=
          Bool.not_eq_true _ ▸ hsplit
        rw [hred, refineOnce_id dfa alphabet P hsplit']
        simp only [Bool.false_eq_true, if_false]
        exact ⟨hgood, stable_of_no_split dfa alphabet P hsplit'⟩

/-! ### Partition-index lemmas -/

theorem partIdxGo_ge_or_neg (t : String) (P : List (List String)) :
    ∀ idx : Int, partIdxGo t P idx = -1 ∨ idx ≤ partIdxGo t P idx := by
  induction P with
  | nil => intro idx; exact Or.inl rfl
  | cons g P ih =>
      intro idx
      rw [partIdxGo]
      by_cases h : t ∈ g
      · rw [if_pos h]
        exact Or.inr (le_refl idx)
      · rw [if_neg h]
        rcases ih (idx + 1) with h' | h'
        · exact Or.inl h'
        · exact Or.inr (by omega)

theorem partIdxGo_neg_iff (t : String) (P : List (List String)) :
    ∀ idx : Int, 0 ≤ idx →
      (partIdxGo t P idx = -1 ↔ ∀ g ∈ P, t ∉ g) := by
  induction P with
  | nil => intro idx _; simp [partIdxGo]
  | cons g P ih =>
      intro idx hidx
      rw [partIdxGo]
      by_cases h : t ∈ g
      · rw [if_pos h]
        constructor
        · intro hc; omega
        · intro hc
          exact absurd h (hc g (List.mem_cons_self _ _))
      · rw [if_neg h]
        rw [ih (idx + 1) (by omega)]
        constructor
        · intro hc g' hg'
          rcases List.mem_cons.1 hg' with rfl | hg''
          · exact h
          · exact hc g' hg''
        · intro hc g' hg'
          exact hc g' (List.mem_cons_of_mem _ hg')

theorem partIdxGo_same_group (P : List (List String)) :
    ∀ (idx : Int), 0 ≤ idx → listsDisjoint P →
      ∀ u v : String, partIdxGo u P idx = partIdxGo v P idx →
      ∀ g ∈ P, (u ∈ g ↔ v ∈ g) := by
  induction P with
  | nil => simp
  | cons g0 P ih =>
      intro idx hidx hdisj u v h g hg
      have hdisj' := List.pairwise_cons.1 hdisj
      rw [partIdxGo, partIdxGo] at h
      by_cases hu : u ∈ g0 <;> by_cases hv : v ∈ g0
      · rcases List.mem_cons.1 hg with rfl | hg'
        · exact iff_of_true hu hv
        · exact iff_of_false (fun hc => hdisj'.1 g hg' u hu hc)
            (fun hc => hdisj'.1 g hg' v hv hc)
      · exfalso
        rw [if_pos hu, if_neg hv] at h
        rcases partIdxGo_ge_or_neg v P (idx + 1) with h' | h'
        · rw [h'] at h; omega
        · omega
      · exfalso
        rw [if_neg hu, if_pos hv] at h
        rcases partIdxGo_ge_or_neg u P (idx + 1) with h' | h'
        · rw [h'] at h; omega
        · omega
      · rw [if_neg hu, if_neg hv] at h
        rcases List.mem_cons.1 hg with rfl | hg'
        · exact iff_of_false hu hv
        · exact ih (idx + 1) (by omega) hdisj'.2 u v h g hg'

theorem get_partition_index_same (P : List (List String)) (hdisj : listsDisjoint P)
    (u v : String)
    (h : get_partition_index (some u) P = get_partition_index (some v) P) :
    ∀ g ∈ P, (u ∈ g ↔ v ∈ g) :=
  partIdxGo_same_group P 0 (by omega) hdisj u v h

theorem get_partition_index_neg_iff (t : String) (P : List (List String)) :
    get_partition_index (some t) P = -1 ↔ ∀ g ∈ P, t ∉ g :=
  partIdxGo_neg_iff t P 0 (by omega)

/-! ### Rebuilding the minimized DFA: characterization -/

theorem dlookup_foldl_dinsert (g : List String) (nm : String) :
    ∀ (mp : List (String × String)) (s : String),
      dlookup (g.foldl (fun m state => dinsert m state nm) mp) s =
        if s ∈ g then some nm else dlookup mp s := by
  induction g with
  | nil => intro mp s; simp
  | cons x g ih =>
      intro mp s
      rw [List.foldl_cons, ih]
      by_cases hsg : s ∈ g
      · rw [if_pos hsg, if_pos (List.mem_cons_of_mem _ hsg)]
      · rw [if_neg hsg]
        by_cases hsx : s = x
        · subst hsx
          rw [if_pos (List.mem_cons_self _ _), dlookup_dinsert_self]
        · rw [if_neg (fun hc => by
            rcases List.mem_cons.1 hc with h | h
            · exact hsx h
            · exact hsg h)]
          exact dlookup_dinsert_ne _ _ _ _ (fun hc => hsx hc.symm)

theorem rebuildStatesGo_cons (dfa : DFA) (g : List String) (gs : List (List String))
    (i : Nat) (m : DFA) (acc : List (String × String)) :
    rebuildStatesGo dfa (g :: gs) i m acc =
      rebuildStatesGo dfa gs (i + 1)
        (if (match dfa.start_state with
             | some s => decide (s ∈ g)
             | none => false) = true
         then { m.add_state ("S" ++ toString i)
                  (g.any (fun state => state ∈ dfa.final_states)) with
                start_state := some ("S" ++ toString i) }
         else m.add_state ("S" ++ toString i)
                (g.any (fun state => state ∈ dfa.final_states)))
        (g.foldl (fun mm state => dinsert mm state ("S" ++ toString i)) acc) := by
  rw [rebuildStatesGo]

theorem rebuildStatesGo_map_notmem (dfa : DFA) (gs : List (List String)) :
    ∀ (i : Nat) (m : DFA) (acc : List (String × String)) (s : String),
      (∀ g ∈ gs, s ∉ g) →
      dlookup (rebuildStatesGo dfa gs i m acc).2 s = dlookup acc s := by
  induction gs with
  | nil => intro i m acc s _; rfl
  | cons g gs ih =>
      intro i m acc s hs
      rw [rebuildStatesGo_cons, ih _ _ _ s (fun g' hg' => hs g' (List.mem_cons_of_mem _ hg')),
        dlookup_foldl_dinsert, if_neg (hs g (List.mem_cons_self _ _))]

theorem rebuildStatesGo_map_mem (dfa : DFA) (gs : List (List String)) :
    ∀ (i : Nat) (m : DFA) (acc : List (String × String)) (j : Nat) (hj : j < gs.length)
      (s : String), s ∈ gs.get ⟨j, hj⟩ →
      (∀ (k : Nat) (hk : k < gs.length), k ≠ j → s ∉ gs.get ⟨k, hk⟩) →
      dlookup (rebuildStatesGo dfa gs i m acc).2 s = some ("S" ++ toString (i + j)) := by
  induction gs with
  | nil => intro i m acc j hj; simp at hj
  | cons g gs ih =>
      intro i m acc j hj s hsj huniq
      rcases j with _ | j'
      · have hs : s ∈ g := hsj
        have hnot : ∀ g' ∈ gs, s ∉ g' := by
          intro g' hg'
          obtain ⟨k, hk, rfl⟩ := List.mem_iff_get.1 hg'
          exact huniq (k + 1) (by simpa using Nat.succ_lt_succ k.isLt) (by omega)
        rw [rebuildStatesGo_cons,
          rebuildStatesGo_map_notmem dfa gs _ _ _ s hnot,
          dlookup_foldl_dinsert, if_pos hs, Nat.add_zero]
      · have hj' : j' < gs.length := by simpa using Nat.lt_of_succ_lt_succ hj
        have hsj' : s ∈ gs.get ⟨j', hj'⟩ := hsj
        have huniq' : ∀ (k : Nat) (hk : k < gs.length), k ≠ j' →
            s ∉ gs.get ⟨k, hk⟩ := by
          intro k hk hkj
          exact huniq (k + 1) (by simpa using Nat.succ_lt_succ hk) (by omega)
        rw [rebuildStatesGo_cons, ih (i + 1) _ _ j' hj' s hsj' huniq']
        have : i + 1 + j' = i + (j' + 1) := by omega
        rw [this]

theorem startHere_iff (dfa : DFA) (g : List String) :
    ((match dfa.start_state with
      | some s => decide (s ∈ g)
      | none => false) = true) ↔ ∃ s0, dfa.start_state = some s0 ∧ s0 ∈ g := by
  rcases h : dfa.start_state with _ | s0
  · simp
  · simp

theorem rebuildStatesGo_m2_states (dfa : DFA) (g : List String) (m : DFA) (i : Nat) :
    (if (match dfa.start_state with
         | some s => decide (s ∈ g)
         | none => false) = true
     then { m.add_state ("S" ++ toString i)
              (g.any (fun state => state ∈ dfa.final_states)) with
            start_state := some ("S" ++ toString i) }
     else m.add_state ("S" ++ toString i)
            (g.any (fun state => state ∈ dfa.final_states))).states =
      sadd m.states ("S" ++ toString i) := by
  by_cases h : (match dfa.start_state with
      | some s => decide (s ∈ g)
      | none => false) = true
  · rw [if_pos h]; rfl
  · rw [if_neg h]; rfl

theorem rebuildStatesGo_m2_finals (dfa : DFA) (g : List String) (m : DFA) (i : Nat) :
    (if (match dfa.start_state with
         | some s => decide (s ∈ g)
         | none => false) = true
     then { m.add_state ("S" ++ toString i)
              (g.any (fun state => state ∈ dfa.final_states)) with
            start_state := some ("S" ++ toString i) }
     else m.add_state ("S" ++ toString i)
            (g.any (fun state => state ∈ dfa.final_states))).final_states =
      (if g.any (fun state => state ∈ dfa.final_states) then
        sadd m.final_states ("S" ++ toString i) else m.final_states) := by
  by_cases h : (match dfa.start_state with
      | some s => decide (s ∈ g)
      | none => false) = true
  · rw [if_pos h]; rfl
  · rw [if_neg h]; rfl

theorem rebuildStatesGo_m2_transitions (dfa : DFA) (g : List String) (m : DFA) (i : Nat) :
    (if (match dfa.start_state with
         | some s => decide (s ∈ g)
         | none => false) = true
     then { m.add_state ("S" ++ toString i)
              (g.any (fun state => state ∈ dfa.final_states)) with
            start_state := some ("S" ++ toString i) }
     else m.add_state ("S" ++ toString i)
            (g.any (fun state => state ∈ dfa.final_states))).transitions =
      (m.add_state ("S" ++ toString i)
        (g.any (fun state => state ∈ dfa.final_states))).transitions := by
  by_cases h : (match dfa.start_state with
      | some s => decide (s ∈ g)
      | none => false) = true
  · rw [if_pos h]
  · rw [if_neg h]

theorem rebuildStatesGo_states (dfa : DFA) (gs : List (List String)) :
    ∀ (i : Nat) (m : DFA) (acc : List (String × String)) (x : String),
      x ∈ (rebuildStatesGo dfa gs i m acc).1.states ↔
        x ∈ m.states ∨ ∃ j, j < gs.length ∧ x = "S" ++ toString (i + j) := by
  induction gs with
  | nil => intro i m acc x; simp [rebuildStatesGo]
  | cons g gs ih =>
      intro i m acc x
      rw [rebuildStatesGo_cons, ih]
      rw [rebuildStatesGo_m2_states, mem_sadd]
      constructor
      · rintro ((h | rfl) | ⟨j, hj, rfl⟩)
        · exact Or.inl h
        · exact Or.inr ⟨0, by simp, by rw [Nat.add_zero]⟩
        · refine Or.inr ⟨j + 1, by simpa using Nat.succ_lt_succ hj, ?_⟩
          rw [(by omega : i + (j + 1) = i + 1 + j)]
      · rintro (h | ⟨j, hj, rfl⟩)
        · exact Or.inl (Or.inl h)
        · rcases j with _ | j'
          · exact Or.inl (Or.inr (by rw [Nat.add_zero]))
          · refine Or.inr ⟨j', by simp only [List.length_cons] at hj; omega, ?_⟩
            rw [(by omega : i + 1 + j' = i + (j' + 1))]

theorem rebuildStatesGo_finals (dfa : DFA) (gs : List (List String)) :
    ∀ (i : Nat) (m : DFA) (acc : List (String × String)) (x : String),
      x ∈ (rebuildStatesGo dfa gs i m acc).1.final_states ↔
        x ∈ m.final_states ∨ ∃ j, ∃ hj : j < gs.length, x = "S" ++ toString (i + j) ∧
          (gs.get ⟨j, hj⟩).any (fun state => state ∈ dfa.final_states) = true := by
  induction gs with
  | nil => intro i m acc x; simp [rebuildStatesGo]
  | cons g gs ih =>
      intro i m acc x
      rw [rebuildStatesGo_cons, ih, rebuildStatesGo_m2_finals]
      by_cases hf : g.any (fun state => state ∈ dfa.final_states) = true
      · rw [if_pos hf]
        rw [mem_sadd]
        constructor
        · rintro ((h | rfl) | ⟨j, hj, rfl, hany⟩)
          · exact Or.inl h
          · exact Or.inr ⟨0, by simp, by rw [Nat.add_zero], hf⟩
          · refine Or.inr ⟨j + 1, by simpa using Nat.succ_lt_succ hj, ?_, hany⟩
            rw [(by omega : i + (j + 1) = i + 1 + j)]
        · rintro (h | ⟨j, hj, rfl, hany⟩)
          · exact Or.inl (Or.inl h)
          · rcases j with _ | j'
            · exact Or.inl (Or.inr (by rw [Nat.add_zero]))
            · refine Or.inr ⟨j', by simp only [List.length_cons] at hj; omega, ?_, hany⟩
              rw [(by omega : i + 1 + j' = i + (j' + 1))]
      · rw [if_neg hf]
        constructor
        · rintro (h | ⟨j, hj, rfl, hany⟩)
          · exact Or.inl h
          · refine Or.inr ⟨j + 1, by simpa using Nat.succ_lt_succ hj, ?_, hany⟩
            rw [(by omega : i + (j + 1) = i + 1 + j)]
        · rintro (h | ⟨j, hj, rfl, hany⟩)
          · exact Or.inl h
          · rcases j with _ | j'
            · rw [Nat.add_zero] at *
              exact absurd hany hf
            · refine Or.inr ⟨j', by simp only [List.length_cons] at hj; omega, ?_, hany⟩
              rw [(by omega : i + 1 + j' = i + (j' + 1))]

theorem DFA.add_state_transitions_cases (m : DFA) (nm : String) (f : Bool) (x : String) :
    dlookup (m.add_state nm f).transitions x = dlookup m.transitions x ∨
    (x = nm ∧ dlookup m.transitions x = none ∧
      dlookup (m.add_state nm f).transitions x = some []) := by
  simp only [DFA.add_state]
  by_cases hk : (dlookup m.transitions nm).isSome
  · rw [if_pos hk]
    exact Or.inl rfl
  · rw [if_neg hk]
    by_cases hx : nm = x
    · subst hx
      refine Or.inr ⟨rfl, ?_, dlookup_dinsert_self _ _ _⟩
      rcases h : dlookup m.transitions nm with _ | v
      · rfl
      · rw [h] at hk; simp at hk
    · exact Or.inl (dlookup_dinsert_ne _ _ _ _ hx)

theorem rebuildStatesGo_transitions_notname (dfa : DFA) (gs : List (List String)) :
    ∀ (i : Nat) (m : DFA) (acc : List (String × String)) (x : String),
      (∀ j, j < gs.length → x ≠ "S" ++ toString (i + j)) →
      dlookup (rebuildStatesGo dfa gs i m acc).1.transitions x =
        dlookup m.transitions x := by
  induction gs with
  | nil => intro i m acc x _; rfl
  | cons g gs ih =>
      intro i m acc x hx
      rw [rebuildStatesGo_cons, ih _ _ _ x ?_]
      · rw [rebuildStatesGo_m2_transitions]
        rcases DFA.add_state_transitions_cases m ("S" ++ toString i)
            (g.any (fun state => state ∈ dfa.final_states)) x with h | ⟨hxn, _, _⟩
        · exact h
        · exact absurd hxn (by
            have := hx 0 (by simp)
            rwa [Nat.add_zero] at this)
      · intro j hj
        have := hx (j + 1) (by simp only [List.length_cons]; omega)
        rwa [(by omega : i + (j + 1) = i + 1 + j)] at this

theorem toString_nat_eq (n : Nat) : toString n = Nat.repr n := rfl

theorem sname_ne (a b : Nat) (h : a ≠ b) :
    ("S" ++ toString a : String) ≠ "S" ++ toString b := by
  intro hc
  rw [toString_nat_eq, toString_nat_eq] at hc
  exact h (sname_inj a b hc)

theorem rebuildStatesGo_transitions_name (dfa : DFA) (gs : List (List String)) :
    ∀ (i : Nat) (m : DFA) (acc : List (String × String)) (j : Nat), j < gs.length →
      dlookup (rebuildStatesGo dfa gs i m acc).1.transitions ("S" ++ toString (i + j)) =
        dlookup m.transitions ("S" ++ toString (i + j)) ∨
      dlookup (rebuildStatesGo dfa gs i m acc).1.transitions ("S" ++ toString (i + j)) =
        some [] := by
  induction gs with
  | nil => intro i m acc j hj; simp at hj
  | cons g gs ih =>
      intro i m acc j hj
      rw [rebuildStatesGo_cons]
      rcases j with _ | j'
      · rw [rebuildStatesGo_transitions_notname dfa gs (i + 1) _ _
          ("S" ++ toString (i + 0))
          (fun j' hj' hc => sname_ne (i + 0) (i + 1 + j') (by omega) hc)]
        rw [rebuildStatesGo_m2_transitions]
        rcases DFA.add_state_transitions_cases m ("S" ++ toString i)
            (g.any (fun state => state ∈ dfa.final_states)) ("S" ++ toString (i + 0))
          with h | ⟨_, _, h3⟩
        · exact Or.inl h
        · exact Or.inr h3
      · have hj'' : j' < gs.length := by
          simp only [List.length_cons] at hj
          omega
        have harith : i + (j' + 1) = i + 1 + j' := by omega
        rw [harith]
        rcases ih (i + 1) _ _ j' hj'' with h | h
        · rw [h, rebuildStatesGo_m2_transitions]
          rcases DFA.add_state_transitions_cases m ("S" ++ toString i)
              (g.any (fun state => state ∈ dfa.final_states))
              ("S" ++ toString (i + 1 + j')) with h' | ⟨hxn, _, _⟩
          · exact Or.inl h'
          · exact absurd hxn.symm (sname_ne i (i + 1 + j') (by omega))
        · exact Or.inr h

theorem rebuildStatesGo_m2_start (dfa : DFA) (g : List String) (m : DFA) (i : Nat) :
    (if (match dfa.start_state with
         | some s => decide (s ∈ g)
         | none => false) = true
     then { m.add_state ("S" ++ toString i)
              (g.any (fun state => state ∈ dfa.final_states)) with
            start_state := some ("S" ++ toString i) }
     else m.add_state ("S" ++ toString i)
            (g.any (fun state => state ∈ dfa.final_states))).start_state =
      (if (match dfa.start_state with
           | some s => decide (s ∈ g)
           | none => false) = true
       then some ("S" ++ toString i) else m.start_state) := by
  by_cases h : (match dfa.start_state with
      | some s => decide (s ∈ g)
      | none => false) = true
  · rw [if_pos h, if_pos h]
  · rw [if_neg h, if_neg h]
    rfl

theorem rebuildStatesGo_start_notin (dfa : DFA) (gs : List (List String)) :
    ∀ (i : Nat) (m : DFA) (acc : List (String × String)),
      (∀ g ∈ gs, ¬∃ s0, dfa.start_state = some s0 ∧ s0 ∈ g) →
      (rebuildStatesGo dfa gs i m acc).1.start_state = m.start_state := by
  induction gs with
  | nil => intro i m acc _; rfl
  | cons g gs ih =>
      intro i m acc hng
      have hneg : ¬((match dfa.start_state with
          | some s => decide (s ∈ g)
          | none => false) = true) := by
        intro hc
        exact hng g (List.mem_cons_self _ _) ((startHere_iff dfa g).1 hc)
      rw [rebuildStatesGo_cons, ih _ _ _ (fun g' hg' => hng g' (List.mem_cons_of_mem _ hg'))]
      rw [rebuildStatesGo_m2_start, if_neg hneg]

theorem rebuildStatesGo_start_in (dfa : DFA) (gs : List (List String)) :
    ∀ (i : Nat) (m : DFA) (acc : List (String × String)) (j : Nat) (hj : j < gs.length),
      (∃ s0, dfa.start_state = some s0 ∧ s0 ∈ gs.get ⟨j, hj⟩) →
      (∀ (k : Nat) (hk : k < gs.length), k ≠ j →
        ¬∃ s0, dfa.start_state = some s0 ∧ s0 ∈ gs.get ⟨k, hk⟩) →
      (rebuildStatesGo dfa gs i m acc).1.start_state =
        some ("S" ++ toString (i + j)) := by
  induction gs with
  | nil => intro i m acc j hj; simp at hj
  | cons g gs ih =>
      intro i m acc j hj hin huniq
      rcases j with _ | j'
      · have hnr : ∀ g' ∈ gs, ¬∃ s0, dfa.start_state = some s0 ∧ s0 ∈ g' := by
          intro g' hg'
          obtain ⟨k, hk, rfl⟩ := List.mem_iff_get.1 hg'
          exact huniq (k + 1) (by simp only [List.length_cons]; omega) (by omega)
        rw [rebuildStatesGo_cons, rebuildStatesGo_start_notin dfa gs _ _ _ hnr,
          rebuildStatesGo_m2_start, if_pos ((startHere_iff dfa g).2 hin), Nat.add_zero]
      · have hj'' : j' < gs.length := by
          simp only [List.length_cons] at hj
          omega
        have huniq' : ∀ (k : Nat) (hk : k < gs.length), k ≠ j' →
            ¬∃ s0, dfa.start_state = some s0 ∧ s0 ∈ gs.get ⟨k, hk⟩ := by
          intro k hk hkj
          exact huniq (k + 1) (by simp only [List.length_cons]; omega) (by omega)
        rw [rebuildStatesGo_cons, ih (i + 1) _ _ j' hj'' hin huniq',
          (by omega : i + 1 + j' = i + (j' + 1))]

theorem DFA.add_transition_lookup_self (m : DFA) (a c b : String) :
    dlookup (m.add_transition a c b).transitions a =
      some (dinsert ((dlookup m.transitions a).getD []) c b) := by
  simp only [DFA.add_transition]
  exact dlookup_dinsert_self _ _ _

theorem DFA.add_transition_lookup_ne (m : DFA) (a c b x : String) (h : a ≠ x) :
    dlookup (m.add_transition a c b).transitions x = dlookup m.transitions x := by
  simp only [DFA.add_transition]
  exact dlookup_dinsert_ne _ _ _ _ h

theorem DFA.add_transition_fields (m : DFA) (a c b : String) :
    (m.add_transition a c b).states = m.states ∧
    (m.add_transition a c b).final_states = m.final_states ∧
    (m.add_transition a c b).start_state = m.start_state :=
  ⟨rfl, rfl, rfl⟩

theorem transFold_proj (mp : List (String × String)) (source : String)
    (entries : List (String × String)) :
    ∀ (m : DFA), (dlookup m.transitions source).isSome = true →
      dlookup ((entries.foldl (fun acc q =>
          match dlookup mp q.2 with
          | some tn => acc.add_transition source q.1 tn
          | none => acc) m).transitions) source =
        some (entries.foldl (fun d q =>
          match dlookup mp q.2 with
          | some tn => dinsert d q.1 tn
          | none => d) ((dlookup m.transitions source).getD [])) ∧
      (∀ x, x ≠ source →
        dlookup ((entries.foldl (fun acc q =>
            match dlookup mp q.2 with
            | some tn => acc.add_transition source q.1 tn
            | none => acc) m).transitions) x = dlookup m.transitions x) ∧
      ((entries.foldl (fun acc q =>
          match dlookup mp q.2 with
          | some tn => acc.add_transition source q.1 tn
          | none => acc) m)).states = m.states ∧
      ((entries.foldl (fun acc q =>
          match dlookup mp q.2 with
          | some tn => acc.add_transition source q.1 tn
          | none => acc) m)).final_states = m.final_states ∧
      ((entries.foldl (fun acc q =>
          match dlookup mp q.2 with
          | some tn => acc.add_transition source q.1 tn
          | none => acc) m)).start_state = m.start_state := by
  induction entries with
  | nil =>
      intro m hsome
      refine ⟨?_, fun x _ => rfl, rfl, rfl, rfl⟩
      rcases h : dlookup m.transitions source with _ | v
      · rw [h] at hsome; simp at hsome
      · rw [List.foldl_nil, List.foldl_nil, h]
        rfl
  | cons q rest ih =>
      intro m hsome
      rw [List.foldl_cons, List.foldl_cons]
      rcases hq : dlookup mp q.2 with _ | tn
      · simp only [hq]
        exact ih m hsome
      · simp only [hq]
        have hself := DFA.add_transition_lookup_self m source q.1 tn
        have hsome' : (dlookup (m.add_transition source q.1 tn).transitions source).isSome =
            true := by rw [hself]; rfl
        obtain ⟨h1, h2, h3, h4, h5⟩ := ih (m.add_transition source q.1 tn) hsome'
        refine ⟨?_, ?_, ?_, ?_, ?_⟩
        · rw [h1, hself]
          simp only [Option.getD_some]
        · intro x hx
          rw [h2 x hx, DFA.add_transition_lookup_ne m source q.1 tn x (fun hc => hx hc.symm)]
        · rw [h3]
          rfl
        · rw [h4]
          rfl
        · rw [h5]
          rfl

theorem dictFold_skip (mp : List (String × String)) (entries : List (String × String)) :
    ∀ (d : List (String × String)) (c : String), c ∉ entries.map Prod.fst →
      dlookup (entries.foldl (fun d q =>
        match dlookup mp q.2 with
        | some tn => dinsert d q.1 tn
        | none => d) d) c = dlookup d c := by
  induction entries with
  | nil => intro d c _; rfl
  | cons q rest ih =>
      intro d c hc
      rw [List.foldl_cons]
      have hqc : q.1 ≠ c := fun h => hc (by rw [List.map_cons]; exact h ▸ List.mem_cons_self _ _)
      have hcr : c ∉ rest.map Prod.fst := fun h => hc (by rw [List.map_cons]; exact List.mem_cons_of_mem _ h)
      rcases hq : dlookup mp q.2 with _ | tn
      · exact ih d c hcr
      · rw [ih _ c hcr, dlookup_dinsert_ne _ _ _ _ hqc]

theorem dictFold_lookup (mp : List (String × String)) (entries : List (String × String)) :
    ∀ (d : List (String × String)) (c : String), (entries.map Prod.fst).Nodup →
      dlookup (entries.foldl (fun d q =>
        match dlookup mp q.2 with
        | some tn => dinsert d q.1 tn
        | none => d) d) c =
      (match dlookup entries c with
       | some t =>
          (match dlookup mp t with
           | some tn => some tn
           | none => dlookup d c)
       | none => dlookup d c) := by
  induction entries with
  | nil => intro d c _; rfl
  | cons q rest ih =>
      intro d c hnd
      rw [List.map_cons, List.nodup_cons] at hnd
      rw [List.foldl_cons]
      obtain ⟨k, t⟩ := q
      by_cases hkc : k = c
      · subst hkc
        have hlk : dlookup ((k, t) :: rest) k = some t := by
          rw [dlookup, if_pos rfl]
        rcases hq : dlookup mp t with _ | tn
        · simp only [hq, hlk]
          rw [dictFold_skip mp rest d k hnd.1]
        · simp only [hq, hlk]
          rw [dictFold_skip mp rest _ k hnd.1, dlookup_dinsert_self]
      · have hlk : dlookup ((k, t) :: rest) c = dlookup rest c := by
          rw [dlookup, if_neg hkc]
        rcases hq : dlookup mp t with _ | tn
        · simp only [hq, hlk]
          exact ih d c hnd.2
        · simp only [hq, hlk]
          rw [ih _ c hnd.2, dlookup_dinsert_ne _ _ _ _ hkc]

theorem transFold_others (mp : List (String × String)) (source : String)
    (entries : List (String × String)) :
    ∀ (m : DFA) (x : String), x ≠ source →
      dlookup ((entries.foldl (fun acc q =>
          match dlookup mp q.2 with
          | some tn => acc.add_transition source q.1 tn
          | none => acc) m).transitions) x = dlookup m.transitions x := by
  induction entries with
  | nil => intro m x _; rfl
  | cons q rest ih =>
      intro m x hx
      rw [List.foldl_cons]
      rcases hq : dlookup mp q.2 with _ | tn
      · simp only [hq]
        exact ih m x hx
      · simp only [hq]
        rw [ih _ x hx, DFA.add_transition_lookup_ne m source q.1 tn x (fun hc => hx hc.symm)]

theorem transFold_fields (mp : List (String × String)) (source : String)
    (entries : List (String × String)) :
    ∀ (m : DFA),
      ((entries.foldl (fun acc q =>
          match dlookup mp q.2 with
          | some tn => acc.add_transition source q.1 tn
          | none => acc) m)).states = m.states ∧
      ((entries.foldl (fun acc q =>
          match dlookup mp q.2 with
          | some tn => acc.add_transition source q.1 tn
          | none => acc) m)).final_states = m.final_states ∧
      ((entries.foldl (fun acc q =>
          match dlookup mp q.2 with
          | some tn => acc.add_transition source q.1 tn
          | none => acc) m)).start_state = m.start_state := by
  induction entries with
  | nil => intro m; exact ⟨rfl, rfl, rfl⟩
  | cons q rest ih =>
      intro m
      rw [List.foldl_cons]
      rcases hq : dlookup mp q.2 with _ | tn
      · simp only [hq]
        exact ih m
      · simp only [hq]
        obtain ⟨h1, h2, h3⟩ := ih (m.add_transition source q.1 tn)
        exact ⟨h1.trans rfl, h2.trans rfl, h3.trans rfl⟩

theorem rebuildTransGo_cons (dfa : DFA) (mp : List (String × String))
    (g : List String) (gs : List (List String)) (m : DFA) :
    rebuildTransGo dfa mp (g :: gs) m =
      rebuildTransGo dfa mp gs
        (match dlookup dfa.transitions (g.headD "") with
         | none => m
         | some d =>
             d.foldl (fun mm q =>
               match dlookup mp q.2 with
               | some target_name =>
                   mm.add_transition ((dlookup mp (g.headD "")).getD "") q.1 target_name
               | none => mm) m) := by
  rw [rebuildTransGo]

theorem rebuildTransGo_fields (dfa : DFA) (mp : List (String × String))
    (gs : List (List String)) :
    ∀ (m : DFA),
      (rebuildTransGo dfa mp gs m).states = m.states ∧
      (rebuildTransGo dfa mp gs m).final_states = m.final_states ∧
      (rebuildTransGo dfa mp gs m).start_state = m.start_state := by
  induction gs with
  | nil => intro m; exact ⟨rfl, rfl, rfl⟩
  | cons g gs ih =>
      intro m
      rw [rebuildTransGo_cons]
      rcases hd : dlookup dfa.transitions (g.headD "") with _ | d
      · simp only [hd]
        exact ih m
      · simp only [hd]
        obtain ⟨h1, h2, h3⟩ := ih _
        obtain ⟨f1, f2, f3⟩ := transFold_fields mp ((dlookup mp (g.headD "")).getD "") d m
        exact ⟨h1.trans f1, h2.trans f2, h3.trans f3⟩

theorem rebuildTransGo_lookup_notsource (dfa : DFA) (mp : List (String × String))
    (gs : List (List String)) :
    ∀ (m : DFA) (x : String),
      (∀ g ∈ gs, ((dlookup mp (g.headD "")).getD "") ≠ x) →
      dlookup (rebuildTransGo dfa mp gs m).transitions x = dlookup m.transitions x := by
  induction gs with
  | nil => intro m x _; rfl
  | cons g gs ih =>
      intro m x hx
      rw [rebuildTransGo_cons]
      rcases hd : dlookup dfa.transitions (g.headD "") with _ | d
      · simp only [hd]
        exact ih m x (fun g' hg' => hx g' (List.mem_cons_of_mem _ hg'))
      · simp only [hd]
        rw [ih _ x (fun g' hg' => hx g' (List.mem_cons_of_mem _ hg'))]
        exact transFold_others mp _ d m x
          (fun hc => hx g (List.mem_cons_self _ _) hc.symm)

theorem rebuildTransGo_lookup_source (dfa : DFA) (mp : List (String × String))
    (gs : List (List String)) :
    ∀ (m : DFA) (j : Nat) (hj : j < gs.length),
      (gs.map (fun g => (dlookup mp (g.headD "")).getD "")).Nodup →
      (dlookup m.transitions
        ((dlookup mp ((gs.get ⟨j, hj⟩).headD "")).getD "")).isSome = true →
      dlookup (rebuildTransGo dfa mp gs m).transitions
          ((dlookup mp ((gs.get ⟨j, hj⟩).headD "")).getD "") =
        (match dlookup dfa.transitions ((gs.get ⟨j, hj⟩).headD "") with
         | none =>
            dlookup m.transitions ((dlookup mp ((gs.get ⟨j, hj⟩).headD "")).getD "")
         | some d =>
            some (d.foldl (fun dd q =>
              match dlookup mp q.2 with
              | some tn => dinsert dd q.1 tn
              | none => dd)
              ((dlookup m.transitions
                ((dlookup mp ((gs.get ⟨j, hj⟩).headD "")).getD "")).getD []))) := by
  induction gs with
  | nil => intro m j hj; simp at hj
  | cons g gs ih =>
      intro m j hj hnd hsome
      rw [List.map_cons, List.nodup_cons] at hnd
      rcases j with _ | j'
      · have hget : ((g :: gs).get ⟨0, hj⟩) = g := rfl
        rw [hget]
        have hget2 : (dlookup m.transitions
            ((dlookup mp (g.headD "")).getD "")).isSome = true := hsome
        have hsrc : ∀ g' ∈ gs, ((dlookup mp (g'.headD "")).getD "") ≠
            ((dlookup mp (g.headD "")).getD "") := by
          intro g' hg' hc
          exact hnd.1 (hc ▸ List.mem_map.2 ⟨g', hg', rfl⟩)
        rw [rebuildTransGo_cons]
        rcases hd : dlookup dfa.transitions (g.headD "") with _ | d
        · simp only [hd]
          exact rebuildTransGo_lookup_notsource dfa mp gs m _ hsrc
        · simp only [hd]
          rw [rebuildTransGo_lookup_notsource dfa mp gs _ _ hsrc]
          exact (transFold_proj mp _ d m hget2).1
      · have hj'' : j' < gs.length := by
          simp only [List.length_cons] at hj
          omega
        have hget : ((g :: gs).get ⟨j' + 1, hj⟩) = gs.get ⟨j', hj''⟩ := rfl
        rw [hget] at hsome ⊢
        rw [rebuildTransGo_cons]
        have hxne : ((dlookup mp ((gs.get ⟨j', hj''⟩).headD "")).getD "") ≠
            ((dlookup mp (g.headD "")).getD "") := by
          intro hc
          exact hnd.1 (hc ▸ List.mem_map.2 ⟨gs.get ⟨j', hj''⟩, List.get_mem gs j' hj'', rfl⟩)
        rcases hd : dlookup dfa.transitions (g.headD "") with _ | d
        · simp only [hd]
          exact ih m j' hj'' hnd.2 hsome
        · simp only [hd]
          have hpres := transFold_others mp ((dlookup mp (g.headD "")).getD "") d m
            ((dlookup mp ((gs.get ⟨j', hj''⟩).headD "")).getD "") hxne
          have hsome' : (dlookup ((d.foldl (fun mm q =>
              match dlookup mp q.2 with
              | some target_name =>
                  mm.add_transition ((dlookup mp (g.headD "")).getD "") q.1 target_name
              | none => mm) m)).transitions
              ((dlookup mp ((gs.get ⟨j', hj''⟩).headD "")).getD "")).isSome = true := by
            rw [hpres]
            exact hsome
          have := ih _ j' hj'' hnd.2 hsome'
          rw [this, hpres]

theorem mem_dfaAlphabet (dfa : DFA) (x : String) :
    x ∈ dfaAlphabet dfa ↔
      ∃ p ∈ dfa.transitions, ∃ q ∈ p.2, q.1 = x := by
  unfold dfaAlphabet
  have hgen : ∀ (l : List (String × List (String × String))) (acc : List String),
      x ∈ l.foldl (fun alphabet p =>
        p.2.foldl (fun a q => sadd a q.1) alphabet) acc ↔
      x ∈ acc ∨ ∃ p ∈ l, ∃ q ∈ p.2, q.1 = x := by
    intro l
    induction l with
    | nil => simp
    | cons p l ih =>
        intro acc
        rw [List.foldl_cons, ih]
        have hinner : ∀ (m : List (String × String)) (acc2 : List String),
            x ∈ m.foldl (fun a q => sadd a q.1) acc2 ↔
            x ∈ acc2 ∨ ∃ q ∈ m, q.1 = x := by
          intro m
          induction m with
          | nil => simp
          | cons q m ihm =>
              intro acc2
              rw [List.foldl_cons, ihm]
              constructor
              · rintro (h | ⟨q', hq', rfl⟩)
                · rcases (mem_sadd acc2 q.1 x).1 h with h' | rfl
                  · exact Or.inl h'
                  · exact Or.inr ⟨q, List.mem_cons_self _ _, rfl⟩
                · exact Or.inr ⟨q', List.mem_cons_of_mem _ hq', rfl⟩
              · rintro (h | ⟨q', hq', rfl⟩)
                · exact Or.inl ((mem_sadd acc2 q.1 x).2 (Or.inl h))
                · rcases List.mem_cons.1 hq' with rfl | hq''
                  · exact Or.inl ((mem_sadd acc2 q'.1 q'.1).2 (Or.inr rfl))
                  · exact Or.inr ⟨q', hq'', rfl⟩
        rw [hinner]
        constructor
        · rintro ((h | ⟨q, hq, rfl⟩) | ⟨p', hp', q, hq, rfl⟩)
          · exact Or.inl h
          · exact Or.inr ⟨p, List.mem_cons_self _ _, q, hq, rfl⟩
          · exact Or.inr ⟨p', List.mem_cons_of_mem _ hp', q, hq, rfl⟩
        · rintro (h | ⟨p', hp', q, hq, rfl⟩)
          · exact Or.inl (Or.inl h)
          · rcases List.mem_cons.1 hp' with rfl | hp''
            · exact Or.inl (Or.inr ⟨q, hq, rfl⟩)
            · exact Or.inr ⟨p', hp'', q, hq, rfl⟩
  rw [hgen]
  simp

theorem headD_mem (g : List String) (hne : g ≠ []) : g.headD "" ∈ g := by
  rcases g with _ | ⟨x, g⟩
  · exact absurd rfl hne
  · exact List.mem_cons_self _ _

theorem disjoint_unique_idx (P : List (List String)) (hdisj : listsDisjoint P)
    (s : String) (j : Nat) (hj : j < P.length) (hs : s ∈ P.get ⟨j, hj⟩) :
    ∀ (k : Nat) (hk : k < P.length), k ≠ j → s ∉ P.get ⟨k, hk⟩ := by
  intro k hk hkj hc
  rw [listsDisjoint, List.pairwise_iff_get] at hdisj
  rcases Nat.lt_or_ge k j with h | h
  · exact hdisj ⟨k, hk⟩ ⟨j, hj⟩ h s hc hs
  · have : j < k := by omega
    exact hdisj ⟨j, hj⟩ ⟨k, hk⟩ this s hs hc

theorem covered_group_idx (P : List (List String)) (s : String)
    (h : ∃ g ∈ P, s ∈ g) : ∃ (j : Nat) (hj : j < P.length), s ∈ P.get ⟨j, hj⟩ := by
  obtain ⟨g, hg, hsg⟩ := h
  obtain ⟨⟨j, hj⟩, rfl⟩ := List.mem_iff_get.1 hg
  exact ⟨j, hj, hsg⟩

theorem minimize_dfa_eq (dfa : DFA) :
    minimize_dfa dfa =
      rebuildTransGo dfa (minNameMap dfa) (minPartition dfa)
        (rebuildStatesGo dfa (minPartition dfa) 0 DFA.empty []).1 := rfl

theorem DFA.add_state_transitions_self_isSome (m : DFA) (nm : String) (f : Bool) :
    (dlookup (m.add_state nm f).transitions nm).isSome = true := by
  simp only [DFA.add_state]
  by_cases hk : (dlookup m.transitions nm).isSome
  · rw [if_pos hk]; exact hk
  · rw [if_neg hk, dlookup_dinsert_self]; rfl

theorem DFA.add_state_transitions_isSome (m : DFA) (nm : String) (f : Bool) (x : String)
    (h : (dlookup m.transitions x).isSome = true) :
    (dlookup (m.add_state nm f).transitions x).isSome = true := by
  rcases DFA.add_state_transitions_cases m nm f x with hc | ⟨_, _, hc⟩ <;> rw [hc]
  · exact h
  · rfl

theorem rebuildStatesGo_transitions_isSome_mono (dfa : DFA) (gs : List (List String)) :
    ∀ (i : Nat) (m : DFA) (acc : List (String × String)) (x : String),
      (dlookup m.transitions x).isSome = true →
      (dlookup (rebuildStatesGo dfa gs i m acc).1.transitions x).isSome = true := by
  induction gs with
  | nil => intro i m acc x h; exact h
  | cons g gs ih =>
      intro i m acc x h
      rw [rebuildStatesGo_cons]
      apply ih
      rw [rebuildStatesGo_m2_transitions]
      exact DFA.add_state_transitions_isSome m _ _ x h

theorem rebuildStatesGo_transitions_name_isSome (dfa : DFA) (gs : List (List String)) :
    ∀ (i : Nat) (m : DFA) (acc : List (String × String)) (j : Nat), j < gs.length →
      (dlookup (rebuildStatesGo dfa gs i m acc).1.transitions
        ("S" ++ toString (i + j))).isSome = true := by
  induction gs with
  | nil => intro i m acc j hj; simp at hj
  | cons g gs ih =>
      intro i m acc j hj
      rw [rebuildStatesGo_cons]
      rcases j with _ | j'
      · apply rebuildStatesGo_transitions_isSome_mono
        rw [rebuildStatesGo_m2_transitions]
        have h0 : ("S" ++ toString (i + 0) : String) = "S" ++ toString i := by
          rw [Nat.add_zero]
        rw [h0]
        exact DFA.add_state_transitions_self_isSome m _ _
      · rw [(by omega : i + (j' + 1) = (i + 1) + j')]
        exact ih (i + 1) _ _ j' (by simp only [List.length_cons] at hj; omega)

theorem rebuildStatesGo_transitions_name_some (dfa : DFA) (gs : List (List String))
    (j : Nat) (hj : j < gs.length) :
    dlookup (rebuildStatesGo dfa gs 0 DFA.empty []).1.transitions
      ("S" ++ toString j) = some [] := by
  have hsome := rebuildStatesGo_transitions_name_isSome dfa gs 0 DFA.empty [] j hj
  have hz : ("S" ++ toString (0 + j) : String) = "S" ++ toString j := by
    rw [Nat.zero_add]
  rw [hz] at hsome
  rcases rebuildStatesGo_transitions_name dfa gs 0 DFA.empty [] j hj with h | h
  · rw [hz] at h
    rw [h] at hsome
    simp [dlookup, DFA.empty] at hsome
  · rw [hz] at h
    exact h

theorem minPartition0_good (dfa : DFA) :
    goodPartition dfa (dfa.states.dedup ++ dfa.final_states.dedup) (minPartition0 dfa) := by
  have hFnd : dfa.final_states.dedup.Nodup := List.nodup_dedup _
  have hNFnd : (dfa.states.dedup.filter (fun s => s ∉ dfa.final_states.dedup)).Nodup :=
    (List.nodup_dedup _).filter _
  have hdis : ∀ x ∈ dfa.states.dedup.filter (fun s => s ∉ dfa.final_states.dedup),
      x ∉ dfa.final_states.dedup := by
    intro x hx
    exact of_decide_eq_true (List.mem_filter.1 hx).2
  have hmem : ∀ g ∈ minPartition0 dfa,
      (g = dfa.states.dedup.filter (fun s => s ∉ dfa.final_states.dedup) ∧ g ≠ []) ∨
      (g = dfa.final_states.dedup ∧ g ≠ []) := by
    intro g hg
    unfold minPartition0 at hg
    rcases List.mem_append.1 hg with h | h
    · by_cases hnf : dfa.states.dedup.filter (fun s => s ∉ dfa.final_states.dedup) = []
      · rw [if_pos hnf] at h; simp at h
      · rw [if_neg hnf] at h
        have hgeq := List.mem_singleton.1 h
        exact Or.inl ⟨hgeq, hgeq ▸ hnf⟩
    · by_cases hf : dfa.final_states.dedup = []
      · rw [if_pos hf] at h; simp at h
      · rw [if_neg hf] at h
        have hgeq := List.mem_singleton.1 h
        exact Or.inr ⟨hgeq, hgeq ▸ hf⟩
  refine ⟨?_, ?_, ?_, ?_⟩
  · intro g hg
    rcases hmem g hg with ⟨rfl, hne⟩ | ⟨rfl, hne⟩
    · exact ⟨hne, hNFnd, fun x hx => List.mem_append_left _ (List.mem_of_mem_filter hx)⟩
    · exact ⟨hne, hFnd, fun x hx => List.mem_append_right _ hx⟩
  · unfold minPartition0 listsDisjoint
    by_cases hnf : dfa.states.dedup.filter (fun s => s ∉ dfa.final_states.dedup) = [] <;>
      by_cases hf : dfa.final_states.dedup = []
    · rw [if_pos hnf, if_pos hf]; simp
    · rw [if_pos hnf, if_neg hf, List.nil_append]
      exact List.pairwise_singleton _ _
    · rw [if_neg hnf, if_pos hf, List.append_nil]
      exact List.pairwise_singleton _ _
    · rw [if_neg hnf, if_neg hf, List.singleton_append]
      refine List.Pairwise.cons ?_ (List.pairwise_singleton _ _)
      intro h hh x hx
      rw [List.mem_singleton] at hh
      subst hh
      exact hdis x hx
  · intro g hg
    rcases hmem g hg with ⟨rfl, _⟩ | ⟨rfl, _⟩
    · right
      intro s hs hc
      exact hdis s hs (List.mem_dedup.2 hc)
    · left
      intro s hs
      exact List.mem_dedup.1 hs
  · intro s hs
    by_cases hsf : s ∈ dfa.final_states
    · refine ⟨dfa.final_states.dedup, ?_, List.mem_dedup.2 hsf⟩
      unfold minPartition0
      have hfne : dfa.final_states.dedup ≠ [] := by
        intro hc
        have hmem2 := List.mem_dedup.2 hsf
        rw [hc] at hmem2
        simp at hmem2
      refine List.mem_append_right _ ?_
      rw [if_neg hfne]
      exact List.mem_singleton.2 rfl
    · have hmemnf : s ∈ dfa.states.dedup.filter (fun s => s ∉ dfa.final_states.dedup) := by
        refine List.mem_filter.2 ⟨List.mem_dedup.2 hs, ?_⟩
        exact decide_eq_true (fun hc => hsf (List.mem_dedup.1 hc))
      refine ⟨_, ?_, hmemnf⟩
      unfold minPartition0
      have hne : dfa.states.dedup.filter (fun s => s ∉ dfa.final_states.dedup) ≠ [] := by
        intro hc
        rw [hc] at hmemnf
        simp at hmemnf
      refine List.mem_append_left _ ?_
      rw [if_neg hne]
      exact List.mem_singleton.2 rfl

theorem minPartition_good_stable (dfa : DFA) :
    goodPartition dfa (dfa.states.dedup ++ dfa.final_states.dedup) (minPartition dfa) ∧
    stablePartition dfa (dfaAlphabet dfa) (minPartition dfa) := by
  unfold minPartition
  exact refineLoop_spec dfa (dfa.states.dedup ++ dfa.final_states.dedup) (dfaAlphabet dfa)
    (dfa.states.dedup.length + dfa.final_states.dedup.length + 1) (minPartition0 dfa)
    (minPartition0_good dfa) (by rw [List.length_append]; omega)

theorem sname_eq (a b : Nat) (h : ("S" ++ toString a : String) = "S" ++ toString b) :
    a = b := by
  by_contra hne
  exact sname_ne a b hne h

theorem minNameMap_lookup (dfa : DFA) (j : Nat) (hj : j < (minPartition dfa).length)
    (s : String) (hs : s ∈ (minPartition dfa).get ⟨j, hj⟩) :
    dlookup (minNameMap dfa) s = some ("S" ++ toString j) := by
  have hdisj := (minPartition_good_stable dfa).1.2.1
  unfold minNameMap
  have h := rebuildStatesGo_map_mem dfa (minPartition dfa) 0 DFA.empty [] j hj s hs
    (fun k hk hkj => disjoint_unique_idx (minPartition dfa) hdisj s j hj hs k hk hkj)
  rw [Nat.zero_add] at h
  exact h

theorem minSources_nodup (dfa : DFA) :
    ((minPartition dfa).map
      (fun g => (dlookup (minNameMap dfa) (g.headD "")).getD "")).Nodup := by
  have hgood := (minPartition_good_stable dfa).1
  have hval : ∀ (k : Nat) (hk : k < (minPartition dfa).length),
      (dlookup (minNameMap dfa) (((minPartition dfa).get ⟨k, hk⟩).headD "")).getD ""
        = "S" ++ toString k := by
    intro k hk
    have hne := (hgood.1 _ (List.get_mem (minPartition dfa) k hk)).1
    rw [minNameMap_lookup dfa k hk _ (headD_mem _ hne)]
    rfl
  have heq : (minPartition dfa).map
      (fun g => (dlookup (minNameMap dfa) (g.headD "")).getD "")
      = (List.range (minPartition dfa).length).map (fun k => "S" ++ toString k) := by
    apply List.ext_getElem
    · simp
    · intro i h1 h2
      simp only [List.getElem_map, List.getElem_range]
      have hi : i < (minPartition dfa).length := by simpa using h1
      exact hval i hi
  rw [heq]
  exact (List.nodup_range _).map (fun a b hab => sname_eq a b hab)

theorem minimize_finals_iff (dfa : DFA) (j : Nat) (hj : j < (minPartition dfa).length) :
    ("S" ++ toString j) ∈ (minimize_dfa dfa).final_states ↔
      ((minPartition dfa).get ⟨j, hj⟩).any (fun state => state ∈ dfa.final_states) = true := by
  rw [minimize_dfa_eq,
    (rebuildTransGo_fields dfa (minNameMap dfa) (minPartition dfa) _).2.1,
    rebuildStatesGo_finals]
  constructor
  · rintro (h | ⟨k, hk, hname, hany⟩)
    · simp [DFA.empty] at h
    · rw [Nat.zero_add] at hname
      have hjk : j = k := sname_eq j k hname
      subst hjk
      exact hany
  · intro h
    exact Or.inr ⟨j, hj, by rw [Nat.zero_add], h⟩

theorem minimize_start (dfa : DFA) (s0 : String) (hs0 : dfa.start_state = some s0)
    (j : Nat) (hj : j < (minPartition dfa).length)
    (hmem : s0 ∈ (minPartition dfa).get ⟨j, hj⟩) :
    (minimize_dfa dfa).start_state = some ("S" ++ toString j) := by
  have hdisj := (minPartition_good_stable dfa).1.2.1
  rw [minimize_dfa_eq,
    (rebuildTransGo_fields dfa (minNameMap dfa) (minPartition dfa) _).2.2]
  have h := rebuildStatesGo_start_in dfa (minPartition dfa) 0 DFA.empty [] j hj
    ⟨s0, hs0, hmem⟩ ?_
  · rw [Nat.zero_add] at h
    exact h
  · rintro k hk hkj ⟨s0', hs0', hmem'⟩
    rw [hs0] at hs0'
    have hss : s0 = s0' := by injection hs0'
    exact disjoint_unique_idx (minPartition dfa) hdisj s0 j hj hmem k hk hkj (hss ▸ hmem')

theorem minimize_trans (dfa : DFA) (hwf : dfaWellFormed dfa) (j : Nat)
    (hj : j < (minPartition dfa).length) (c : String) :
    dlookup2 (minimize_dfa dfa).transitions ("S" ++ toString j) c =
      (dlookup2 dfa.transitions (((minPartition dfa).get ⟨j, hj⟩).headD "") c).bind
        (fun t => dlookup (minNameMap dfa) t) := by
  have hgood := (minPartition_good_stable dfa).1
  have hne := (hgood.1 _ (List.get_mem (minPartition dfa) j hj)).1
  have hrep : (dlookup (minNameMap dfa) (((minPartition dfa).get ⟨j, hj⟩).headD "")).getD ""
      = "S" ++ toString j := by
    rw [minNameMap_lookup dfa j hj _ (headD_mem _ hne)]
    rfl
  have hmin0 : dlookup
      (rebuildStatesGo dfa (minPartition dfa) 0 DFA.empty []).1.transitions
      ("S" ++ toString j) = some [] :=
    rebuildStatesGo_transitions_name_some dfa _ j hj
  have hsome : (dlookup
      (rebuildStatesGo dfa (minPartition dfa) 0 DFA.empty []).1.transitions
      ((dlookup (minNameMap dfa)
        (((minPartition dfa).get ⟨j, hj⟩).headD "")).getD "")).isSome = true := by
    rw [hrep, hmin0]
    rfl
  have hmain := rebuildTransGo_lookup_source dfa (minNameMap dfa) (minPartition dfa)
    (rebuildStatesGo dfa (minPartition dfa) 0 DFA.empty []).1 j hj
    (minSources_nodup dfa) hsome
  rw [hrep] at hmain
  rcases hd : dlookup dfa.transitions (((minPartition dfa).get ⟨j, hj⟩).headD "")
    with _ | d
  · have hR : dlookup2 dfa.transitions (((minPartition dfa).get ⟨j, hj⟩).headD "") c
        = none := by
      unfold dlookup2
      rw [hd]
    have hL : dlookup (minimize_dfa dfa).transitions ("S" ++ toString j)
        = some ([] : List (String × String)) := by
      rw [minimize_dfa_eq, hmain, hd, hmin0]
    have hL2 : dlookup2 (minimize_dfa dfa).transitions ("S" ++ toString j) c = none := by
      unfold dlookup2
      rw [hL]
      rfl
    rw [hL2, hR]
    rfl
  · have hknd : (d.map Prod.fst).Nodup :=
      hwf.2.2.2 _ (dlookup_mem _ _ _ hd)
    have hR : dlookup2 dfa.transitions (((minPartition dfa).get ⟨j, hj⟩).headD "") c
        = dlookup d c := by
      unfold dlookup2
      rw [hd]
    have hL : dlookup (minimize_dfa dfa).transitions ("S" ++ toString j)
        = some (d.foldl (fun dd q =>
            match dlookup (minNameMap dfa) q.2 with
            | some tn => dinsert dd q.1 tn
            | none => dd) []) := by
      rw [minimize_dfa_eq, hmain, hd, hmin0]
      rfl
    have hL2 : dlookup2 (minimize_dfa dfa).transitions ("S" ++ toString j) c
        = dlookup (d.foldl (fun dd q =>
            match dlookup (minNameMap dfa) q.2 with
            | some tn => dinsert dd q.1 tn
            | none => dd) []) c := by
      unfold dlookup2
      rw [hL]
    rw [hL2, hR, dictFold_lookup (minNameMap dfa) d [] c hknd]
    rcases hc : dlookup d c with _ | t
    · rfl
    · show (match dlookup (minNameMap dfa) t with
            | some tn => some tn
            | none => dlookup ([] : List (String × String)) c)
          = (some t).bind fun t => dlookup (minNameMap dfa) t
      rcases hmt : dlookup (minNameMap dfa) t with _ | tn
      · exact hmt.symm
      · exact hmt.symm

theorem dlookup2_some_facts (dfa : DFA) (hwf : dfaWellFormed dfa) (s c t : String)
    (h : dlookup2 dfa.transitions s c = some t) :
    c ∈ dfaAlphabet dfa ∧ t ∈ dfa.states := by
  unfold dlookup2 at h
  rcases hd : dlookup dfa.transitions s with _ | d
  · rw [hd] at h
    exact Option.noConfusion h
  · rw [hd] at h
    have h' : dlookup d c = some t := h
    have hmem := dlookup_mem _ _ _ hd
    have hcmem := dlookup_mem _ _ _ h'
    exact ⟨(mem_dfaAlphabet dfa c).2 ⟨(s, d), hmem, (c, t), hcmem, rfl⟩,
      (hwf.2.1 _ hmem).2 _ hcmem⟩

theorem minimize_bisim (dfa : DFA) (hwf : dfaWellFormed dfa) :
    ∀ (w : List String) (j : Nat) (hj : j < (minPartition dfa).length) (s : String),
      s ∈ (minPartition dfa).get ⟨j, hj⟩ →
      dfaGo dfa s w = dfaGo (minimize_dfa dfa) ("S" ++ toString j) w := by
  obtain ⟨hgood, hstable⟩ := minPartition_good_stable dfa
  intro w
  induction w with
  | nil =>
      intro j hj s hs
      show decide (s ∈ dfa.final_states)
        = decide (("S" ++ toString j) ∈ (minimize_dfa dfa).final_states)
      rw [decide_eq_decide, minimize_finals_iff dfa j hj]
      rcases hgood.2.2.1 _ (List.get_mem (minPartition dfa) j hj) with hall | hnonf
      · constructor
        · intro _
          exact List.any_eq_true.2 ⟨s, hs, decide_eq_true (hall s hs)⟩
        · intro _
          exact hall s hs
      · constructor
        · intro hsf
          exact absurd hsf (hnonf s hs)
        · intro hany
          obtain ⟨x, hx, hxf⟩ := List.any_eq_true.1 hany
          exact absurd (of_decide_eq_true hxf) (hnonf x hx)
  | cons c rest ih =>
      intro j hj s hs
      have hgetmem := List.get_mem (minPartition dfa) j hj
      have hne := (hgood.1 _ hgetmem).1
      have hrepmem := headD_mem _ hne
      have hLdef : dfaGo dfa s (c :: rest) =
          match dlookup2 dfa.transitions s c with
          | none => false
          | some t => dfaGo dfa t rest := rfl
      have hRdef : dfaGo (minimize_dfa dfa) ("S" ++ toString j) (c :: rest) =
          match dlookup2 (minimize_dfa dfa).transitions ("S" ++ toString j) c with
          | none => false
          | some t => dfaGo (minimize_dfa dfa) t rest := rfl
      rw [hLdef, hRdef, minimize_trans dfa hwf j hj c]
      rcases hsc : dlookup2 dfa.transitions s c with _ | t
      · have hrepnone :
            dlookup2 dfa.transitions (((minPartition dfa).get ⟨j, hj⟩).headD "") c
              = none := by
          rcases hrc : dlookup2 dfa.transitions
              (((minPartition dfa).get ⟨j, hj⟩).headD "") c with _ | u
          · rfl
          · exfalso
            obtain ⟨hcalpha, hustates⟩ := dlookup2_some_facts dfa hwf _ c u hrc
            have hstab := hstable _ hgetmem s hs _ hrepmem c hcalpha
            rw [hsc, hrc] at hstab
            have hneg : get_partition_index (some u) (minPartition dfa) = -1 := hstab.symm
            obtain ⟨g, hgP, hug⟩ := hgood.2.2.2 u hustates
            exact (get_partition_index_neg_iff u (minPartition dfa)).1 hneg g hgP hug
        rw [hrepnone]
        rfl
      · obtain ⟨hcalpha, htstates⟩ := dlookup2_some_facts dfa hwf s c t hsc
        have hstab := hstable _ hgetmem s hs _ hrepmem c hcalpha
        rw [hsc] at hstab
        obtain ⟨k, hk, htk⟩ := covered_group_idx (minPartition dfa) t
          (hgood.2.2.2 t htstates)
        rcases hrc : dlookup2 dfa.transitions
            (((minPartition dfa).get ⟨j, hj⟩).headD "") c with _ | t'
        · exfalso
          rw [hrc] at hstab
          have hneg : get_partition_index (some t) (minPartition dfa) = -1 := hstab
          exact (get_partition_index_neg_iff t (minPartition dfa)).1 hneg _
            (List.get_mem _ k hk) htk
        · rw [hrc] at hstab
          have hiff := get_partition_index_same (minPartition dfa) hgood.2.1 t t' hstab
          have ht'k : t' ∈ (minPartition dfa).get ⟨k, hk⟩ :=
            (hiff _ (List.get_mem _ k hk)).1 htk
          have hmp : dlookup (minNameMap dfa) t' = some ("S" ++ toString k) :=
            minNameMap_lookup dfa k hk t' ht'k
          show dfaGo dfa t rest =
            match (some t').bind (fun t => dlookup (minNameMap dfa) t) with
            | none => false
            | some tn => dfaGo (minimize_dfa dfa) tn rest
          rw [show (some t').bind (fun t => dlookup (minNameMap dfa) t)
            = dlookup (minNameMap dfa) t' from rfl, hmp]
          exact ih k hk t htk

/-- **C2**: for every well-formed DFA (declared start state, every transition
endpoint declared, duplicate-free transition tables — the shape every DFA
produced by `convert_nfa_to_dfa` has), the automaton returned by
`minimize_dfa` (`DFA_Builder.py` lines 252-367) accepts exactly the same
input strings as its input, a missing transition rejecting in both. -/
theorem c2_minimize_preserves_language (dfa : DFA) (hwf : dfaWellFormed dfa)
    (w : List String) : (minimize_dfa dfa).accepts w = dfa.accepts w := by
  obtain ⟨s0, hs0, hs0mem⟩ := hwf.1
  have hgood := (minPartition_good_stable dfa).1
  obtain ⟨j, hj, hsj⟩ := covered_group_idx (minPartition dfa) s0
    (hgood.2.2.2 s0 hs0mem)
  have hstart := minimize_start dfa s0 hs0 j hj hsj
  unfold DFA.accepts
  rw [hstart, hs0]
  exact (minimize_bisim dfa hwf w j hj s0 hsj).symm

theorem c2_minimize_preserves_language_witness :
    (minimize_dfa
      { start_state := some "A"
        states := ["A", "B"]
        final_states := ["B"]
        transitions := [("A", [("a", "B")]), ("B", [("a", "B")])] }).accepts ["a"]
      = DFA.accepts
      { start_state := some "A"
        states := ["A", "B"]
        final_states := ["B"]
        transitions := [("A", [("a", "B")]), ("B", [("a", "B")])] } ["a"] :=
  c2_minimize_preserves_language _
    ⟨⟨"A", rfl, by decide⟩, by decide, by decide, by decide⟩ ["a"]

theorem sadd_nodup (s : List String) (x : String) (h : s.Nodup) : (sadd s x).Nodup := by
  unfold sadd
  by_cases hx : x ∈ s
  · rw [if_pos hx]
    exact h
  · rw [if_neg hx]
    exact List.Nodup.append h (List.nodup_singleton x)
      (fun a ha hb => hx ((List.mem_singleton.1 hb) ▸ ha))

theorem rebuildStatesGo_states_nodup (dfa : DFA) (gs : List (List String)) :
    ∀ (i : Nat) (m : DFA) (acc : List (String × String)), m.states.Nodup →
      (rebuildStatesGo dfa gs i m acc).1.states.Nodup := by
  induction gs with
  | nil => intro i m acc h; exact h
  | cons g gs ih =>
      intro i m acc h
      rw [rebuildStatesGo_cons]
      apply ih
      rw [rebuildStatesGo_m2_states]
      exact sadd_nodup m.states _ h

theorem flatten_nodup_of_disjoint :
    ∀ P : List (List String), (∀ g ∈ P, g.Nodup) → listsDisjoint P →
      P.flatten.Nodup := by
  intro P
  induction P with
  | nil => intro _ _; simp
  | cons g P ih =>
      intro hnd hdisj
      rw [List.flatten_cons]
      refine List.Nodup.append (hnd g (List.mem_cons_self _ _))
        (ih (fun g' hg' => hnd g' (List.mem_cons_of_mem _ hg'))
          (List.Pairwise.sublist (List.sublist_cons_self _ _) hdisj)) ?_
      intro a ha hb
      obtain ⟨g', hg', hag'⟩ := List.mem_flatten.1 hb
      exact (List.pairwise_cons.1 hdisj).1 g' hg' a ha hag'

theorem length_flatten_singletons :
    ∀ P : List (List String), (∀ g ∈ P, ∃ x, g = [x]) →
      P.flatten.length = P.length := by
  intro P
  induction P with
  | nil => intro _; rfl
  | cons g P ih =>
      intro h
      obtain ⟨x, rfl⟩ := h g (List.mem_cons_self _ _)
      rw [List.flatten_cons, List.length_append, List.length_cons,
        ih (fun g' hg' => h g' (List.mem_cons_of_mem _ hg'))]
      simp only [List.length_cons, List.length_nil]
      omega

theorem minPartition_singletons (dfa : DFA) (hwf : dfaWellFormed dfa)
    (hfs : dfa.final_states ⊆ dfa.states)
    (hmin : ∀ s ∈ dfa.states, ∀ t ∈ dfa.states, s ≠ t →
      ∃ w : List String, dfaGo dfa s w ≠ dfaGo dfa t w) :
    ∀ g ∈ minPartition dfa, ∃ x, x ∈ dfa.states ∧ g = [x] := by
  intro g hg
  have hgood := (minPartition_good_stable dfa).1
  obtain ⟨hne, hnd, hsub⟩ := hgood.1 g hg
  have hmem : ∀ x ∈ g, x ∈ dfa.states := by
    intro x hx
    rcases List.mem_append.1 (hsub hx) with h | h
    · exact List.mem_dedup.1 h
    · exact hfs (List.mem_dedup.1 h)
  obtain ⟨⟨j, hj⟩, hgg⟩ := List.mem_iff_get.1 hg
  have hall : ∀ x ∈ g, ∀ y ∈ g, x = y := by
    intro x hx y hy
    by_contra hxy
    obtain ⟨w, hw⟩ := hmin x (hmem x hx) y (hmem y hy) hxy
    apply hw
    rw [minimize_bisim dfa hwf w j hj x (hgg ▸ hx),
      minimize_bisim dfa hwf w j hj y (hgg ▸ hy)]
  rcases g with _ | ⟨x, rest⟩
  · exact absurd rfl hne
  · refine ⟨x, hmem x (List.mem_cons_self _ _), ?_⟩
    rcases rest with _ | ⟨y, rest'⟩
    · rfl
    · exfalso
      have hxy : x = y := hall x (List.mem_cons_self _ _) y
        (List.mem_cons_of_mem _ (List.mem_cons_self _ _))
      exact (List.nodup_cons.1 hnd).1 (hxy ▸ List.mem_cons_self y rest')

theorem minimize_states_mem (dfa : DFA) (x : String) :
    x ∈ (minimize_dfa dfa).states ↔
      ∃ j, j < (minPartition dfa).length ∧ x = "S" ++ toString j := by
  rw [minimize_dfa_eq,
    (rebuildTransGo_fields dfa (minNameMap dfa) (minPartition dfa) _).1,
    rebuildStatesGo_states]
  constructor
  · rintro (h | ⟨j, hj, hx⟩)
    · simp [DFA.empty] at h
    · rw [Nat.zero_add] at hx
      exact ⟨j, hj, hx⟩
  · rintro ⟨j, hj, hx⟩
    refine Or.inr ⟨j, hj, ?_⟩
    rw [Nat.zero_add]
    exact hx

theorem minimize_states_length (dfa : DFA) :
    (minimize_dfa dfa).states.length = (minPartition dfa).length := by
  have hnd : (minimize_dfa dfa).states.Nodup := by
    rw [minimize_dfa_eq,
      (rebuildTransGo_fields dfa (minNameMap dfa) (minPartition dfa) _).1]
    exact rebuildStatesGo_states_nodup dfa _ 0 DFA.empty []
      (by simp [DFA.empty])
  have hperm : (minimize_dfa dfa).states.Perm
      ((List.range (minPartition dfa).length).map (fun j => "S" ++ toString j)) := by
    refine (List.perm_ext_iff_of_nodup hnd
      ((List.nodup_range _).map (fun a b hab => sname_eq a b hab))).2 ?_
    intro x
    rw [minimize_states_mem]
    simp only [List.mem_map, List.mem_range]
    constructor
    · rintro ⟨j, hj, rfl⟩
      exact ⟨j, hj, rfl⟩
    · rintro ⟨j, hj, rfl⟩
      exact ⟨j, hj, rfl⟩
  rw [hperm.length_eq, List.length_map, List.length_range]

theorem minPartition_length (dfa : DFA) (hwf : dfaWellFormed dfa)
    (hfs : dfa.final_states ⊆ dfa.states) (hndstates : dfa.states.Nodup)
    (hmin : ∀ s ∈ dfa.states, ∀ t ∈ dfa.states, s ≠ t →
      ∃ w : List String, dfaGo dfa s w ≠ dfaGo dfa t w) :
    (minPartition dfa).length = dfa.states.length := by
  have hsingle := minPartition_singletons dfa hwf hfs hmin
  have hgood := (minPartition_good_stable dfa).1
  have hfl_nd : (minPartition dfa).flatten.Nodup :=
    flatten_nodup_of_disjoint _ (fun g hg => (hgood.1 g hg).2.1) hgood.2.1
  have hfl_mem : ∀ x, x ∈ (minPartition dfa).flatten ↔ x ∈ dfa.states := by
    intro x
    rw [List.mem_flatten]
    constructor
    · rintro ⟨g, hg, hxg⟩
      obtain ⟨y, hy, rfl⟩ := hsingle g hg
      rw [List.mem_singleton] at hxg
      exact hxg ▸ hy
    · intro hx
      exact hgood.2.2.2 x hx
  have hperm : (minPartition dfa).flatten.Perm dfa.states :=
    (List.perm_ext_iff_of_nodup hfl_nd hndstates).2 hfl_mem
  rw [← length_flatten_singletons (minPartition dfa)
    (fun g hg => (hsingle g hg).imp (fun x hx => hx.2))]
  exact hperm.length_eq

theorem state_group (dfa : DFA) (hwf : dfaWellFormed dfa)
    (hfs : dfa.final_states ⊆ dfa.states)
    (hmin : ∀ s ∈ dfa.states, ∀ t ∈ dfa.states, s ≠ t →
      ∃ w : List String, dfaGo dfa s w ≠ dfaGo dfa t w)
    (s : String) (hs : s ∈ dfa.states) :
    ∃ (j : Nat) (hj : j < (minPartition dfa).length),
      (minPartition dfa).get ⟨j, hj⟩ = [s] ∧
      dlookup (minNameMap dfa) s = some ("S" ++ toString j) := by
  have hgood := (minPartition_good_stable dfa).1
  obtain ⟨g, hg, hsg⟩ := hgood.2.2.2 s hs
  obtain ⟨x, hxs, rfl⟩ := minPartition_singletons dfa hwf hfs hmin g hg
  rw [List.mem_singleton] at hsg
  subst hsg
  obtain ⟨⟨j, hj⟩, hgg⟩ := List.mem_iff_get.1 hg
  exact ⟨j, hj, hgg, minNameMap_lookup dfa j hj s (hgg ▸ List.mem_singleton.2 rfl)⟩

/-- **C7**: `minimize_dfa` (`DFA_Builder.py` lines 252-367) is idempotent on
minimal inputs.  A DFA is already minimal when its distinct states are
pairwise distinguishable by some word; the other hypotheses (declared start,
declared transition endpoints, duplicate-free dict keys, finals registered as
states, duplicate-free state set) are intrinsic to every DFA object built
through the Python `add_state`/`add_transition` API.  The state-renaming map
`s ↦ state_name_map[s]` is then a bijection from the input's states onto the
output's states under which the state count, the start state, per-state
finality, and the entire transition table correspond — the output is
isomorphic to the input. -/
theorem c7_minimize_idempotent_on_minimal (dfa : DFA)
    (hwf : dfaWellFormed dfa)
    (hfs : dfa.final_states ⊆ dfa.states)
    (hndstates : dfa.states.Nodup)
    (hmin : ∀ s ∈ dfa.states, ∀ t ∈ dfa.states, s ≠ t →
      ∃ w : List String, dfaGo dfa s w ≠ dfaGo dfa t w) :
    (minimize_dfa dfa).states.length = dfa.states.length ∧
    (∀ s ∈ dfa.states,
      (dlookup (minNameMap dfa) s).getD "" ∈ (minimize_dfa dfa).states) ∧
    (∀ s ∈ dfa.states, ∀ t ∈ dfa.states,
      (dlookup (minNameMap dfa) s).getD "" = (dlookup (minNameMap dfa) t).getD "" →
      s = t) ∧
    (∀ x ∈ (minimize_dfa dfa).states, ∃ s ∈ dfa.states,
      (dlookup (minNameMap dfa) s).getD "" = x) ∧
    (minimize_dfa dfa).start_state
      = dfa.start_state.map (fun s => (dlookup (minNameMap dfa) s).getD "") ∧
    (∀ s ∈ dfa.states,
      ((dlookup (minNameMap dfa) s).getD "" ∈ (minimize_dfa dfa).final_states ↔
        s ∈ dfa.final_states)) ∧
    (∀ s ∈ dfa.states, ∀ c,
      dlookup2 (minimize_dfa dfa).transitions ((dlookup (minNameMap dfa) s).getD "") c
        = (dlookup2 dfa.transitions s c).map
            (fun t => (dlookup (minNameMap dfa) t).getD "")) := by
  have hsg := state_group dfa hwf hfs hmin
  refine ⟨?_, ?_, ?_, ?_, ?_, ?_, ?_⟩
  · rw [minimize_states_length]
    exact minPartition_length dfa hwf hfs hndstates hmin
  · intro s hs
    obtain ⟨j, hj, _, hmp⟩ := hsg s hs
    rw [hmp]
    exact (minimize_states_mem dfa _).2 ⟨j, hj, rfl⟩
  · intro s hs t ht hst
    obtain ⟨j, hj, hgj, hmpj⟩ := hsg s hs
    obtain ⟨k, hk, hgk, hmpk⟩ := hsg t ht
    rw [hmpj, hmpk] at hst
    have hjk : j = k := sname_eq j k hst
    subst hjk
    have hsing : ([s] : List String) = [t] := by
      rw [← hgj, ← hgk]
    exact List.singleton_injective hsing
  · intro x hx
    obtain ⟨j, hj, rfl⟩ := (minimize_states_mem dfa x).1 hx
    have hgetmem := List.get_mem (minPartition dfa) j hj
    obtain ⟨y, hy, hgy⟩ := minPartition_singletons dfa hwf hfs hmin _ hgetmem
    refine ⟨y, hy, ?_⟩
    rw [minNameMap_lookup dfa j hj y (hgy ▸ List.mem_singleton.2 rfl)]
    rfl
  · obtain ⟨s0, hs0, hs0mem⟩ := hwf.1
    obtain ⟨j, hj, hgj, hmpj⟩ := hsg s0 hs0mem
    rw [minimize_start dfa s0 hs0 j hj (hgj ▸ List.mem_singleton.2 rfl), hs0]
    show some ("S" ++ toString j) = some ((dlookup (minNameMap dfa) s0).getD "")
    rw [hmpj]
    rfl
  · intro s hs
    obtain ⟨j, hj, hgj, hmpj⟩ := hsg s hs
    rw [hmpj]
    show ("S" ++ toString j) ∈ (minimize_dfa dfa).final_states ↔ s ∈ dfa.final_states
    rw [minimize_finals_iff dfa j hj, hgj]
    simp
  · intro s hs c
    obtain ⟨j, hj, hgj, hmpj⟩ := hsg s hs
    rw [hmpj]
    show dlookup2 (minimize_dfa dfa).transitions ("S" ++ toString j) c
      = (dlookup2 dfa.transitions s c).map
          (fun t => (dlookup (minNameMap dfa) t).getD "")
    rw [minimize_trans dfa hwf j hj c, hgj]
    show (dlookup2 dfa.transitions s c).bind (fun t => dlookup (minNameMap dfa) t)
      = (dlookup2 dfa.transitions s c).map
          (fun t => (dlookup (minNameMap dfa) t).getD "")
    rcases hsc : dlookup2 dfa.transitions s c with _ | t
    · rfl
    · have htmem := (dlookup2_some_facts dfa hwf s c t hsc).2
      obtain ⟨k, hk, _, hmpt⟩ := hsg t htmem
      show dlookup (minNameMap dfa) t = some ((dlookup (minNameMap dfa) t).getD "")
      rw [hmpt]
      rfl

theorem c7_minimize_idempotent_on_minimal_witness :
    (minimize_dfa
      { start_state := some "A"
        states := ["A", "B"]
        final_states := ["B"]
        transitions := [("A", [("a", "B")]), ("B", [("a", "B")])] }).states.length = 2 :=
  ((c7_minimize_idempotent_on_minimal
      { start_state := some "A"
        states := ["A", "B"]
        final_states := ["B"]
        transitions := [("A", [("a", "B")]), ("B", [("a", "B")])] }
      ⟨⟨"A", rfl, by decide⟩, by decide, by decide, by decide⟩
      (by
        intro a ha
        have ha2 : a = "B" := by simpa using ha
        subst ha2
        decide)
      (by decide)
      (by
        intro s hs t ht hst
        have hs2 : s = "A" ∨ s = "B" := by simpa using hs
        have ht2 : t = "A" ∨ t = "B" := by simpa using ht
        rcases hs2 with rfl | rfl <;> rcases ht2 with rfl | rfl
        · exact absurd rfl hst
        · exact ⟨[], by decide⟩
        · exact ⟨[], by decide⟩
        · exact absurd rfl hst)).1).trans (by decide)

theorem dlookup_append_m {κ α : Type} [DecidableEq κ] (l1 l2 : List (κ × α)) (k : κ) :
    dlookup (l1 ++ l2) k =
      match dlookup l1 k with
      | some v => some v
      | none => dlookup l2 k := by
  induction l1 with
  | nil => rfl
  | cons q rest ih =>
      obtain ⟨k', v'⟩ := q
      rw [List.cons_append]
      show (if k' = k then some v' else dlookup (rest ++ l2) k)
        = match (if k' = k then some v' else dlookup rest k) with
          | some v => some v
          | none => dlookup l2 k
      by_cases hk : k' = k
      · rw [if_pos hk, if_pos hk]
      · rw [if_neg hk, if_neg hk]
        exact ih

theorem dinsert_append_of_none {κ α : Type} [DecidableEq κ]
    (d : List (κ × α)) (k : κ) (v : α) (h : dlookup d k = none) :
    dinsert d k v = d ++ [(k, v)] := by
  induction d with
  | nil => rfl
  | cons q rest ih =>
      obtain ⟨k', v'⟩ := q
      rw [dlookup] at h
      by_cases hk : k' = k
      · rw [if_pos hk] at h
        exact Option.noConfusion h
      · rw [if_neg hk] at h
        rw [dinsert, if_neg hk, List.cons_append, ih h]

theorem dlookup_map_values {κ α β : Type} [DecidableEq κ]
    (tr : List (κ × α)) (f : α → β) (c : κ) :
    dlookup (tr.map (fun q => (q.1, f q.2))) c = (dlookup tr c).map f := by
  induction tr with
  | nil => rfl
  | cons q rest ih =>
      obtain ⟨k', v'⟩ := q
      rw [List.map_cons]
      show (if k' = c then some (f v')
          else dlookup (rest.map (fun q => (q.1, f q.2))) c)
        = (if k' = c then some v' else dlookup rest c).map f
      by_cases hk : k' = c
      · rw [if_pos hk, if_pos hk]
        rfl
      · rw [if_neg hk, if_neg hk]
        exact ih

theorem foldl_dinsert_gen {ι α : Type} (kf : ι → String) (vf : ι → α) :
    ∀ (l : List ι) (out : List (String × α)),
      (l.map kf).Nodup → (∀ x ∈ l, dlookup out (kf x) = none) →
      l.foldl (fun o x => dinsert o (kf x) (vf x)) out
        = out ++ l.map (fun x => (kf x, vf x)) := by
  intro l
  induction l with
  | nil => intro out _ _; simp
  | cons p rest ih =>
      intro out hnd hfresh
      rw [List.map_cons, List.nodup_cons] at hnd
      have hfresh' : ∀ x ∈ rest, dlookup (out ++ [(kf p, vf p)]) (kf x) = none := by
        intro q hq
        rw [dlookup_append_m, hfresh q (List.mem_cons_of_mem _ hq)]
        have hne : kf p ≠ kf q := fun hc => hnd.1 (hc ▸ List.mem_map.2 ⟨q, hq, rfl⟩)
        show dlookup [(kf p, vf p)] (kf q) = none
        rw [dlookup, if_neg hne]
        rfl
      rw [List.foldl_cons, dinsert_append_of_none out (kf p) (vf p)
        (hfresh p (List.mem_cons_self _ _)), ih (out ++ [(kf p, vf p)]) hnd.2 hfresh',
        List.append_assoc]
      rfl

theorem to_json_eq (d : DFA) (h1 : "startingState" ∉ d.states) :
    DFA.to_json d =
      ("startingState",
        match d.start_state with
        | none => J.jnull
        | some s => J.jstr s) ::
      (sortStrings d.states.dedup).map (fun st => (st, J.jobj (stateData d st))) := by
  unfold DFA.to_json
  refine foldl_dinsert_gen (fun st => st) (fun st => J.jobj (stateData d st))
    (sortStrings d.states.dedup) _ ?_ ?_
  · have : (sortStrings d.states.dedup).map (fun st => st)
        = sortStrings d.states.dedup := List.map_id' _
    rw [this]
    exact canon_nodup d.states
  · intro k hk
    have hkstates : k ∈ d.states :=
      List.mem_dedup.1 ((mem_sortStrings _ _).1 hk)
    have hne : ("startingState" : String) ≠ k := fun hc => h1 (hc ▸ hkstates)
    show dlookup [("startingState",
      match d.start_state with
      | none => J.jnull
      | some s => J.jstr s)] k = none
    rw [dlookup, if_neg hne]
    rfl

theorem stateData_none (d : DFA) (st : String)
    (hd : dlookup d.transitions st = none) :
    stateData d st = [("isTerminatingState", J.jbool (st ∈ d.final_states))] := by
  unfold stateData
  rw [hd]

theorem stateData_some (d : DFA) (st : String) (tr : List (String × String))
    (hd : dlookup d.transitions st = some tr)
    (hnd : (tr.map Prod.fst).Nodup)
    (hits : ∀ q ∈ tr, q.1 ≠ "isTerminatingState") :
    stateData d st = ("isTerminatingState", J.jbool (st ∈ d.final_states)) ::
      tr.map (fun q => (q.1, J.jstr q.2)) := by
  unfold stateData
  rw [hd]
  refine foldl_dinsert_gen Prod.fst (fun q => J.jstr q.2) tr _ hnd ?_
  intro q hq
  show dlookup [("isTerminatingState", J.jbool (st ∈ d.final_states))] q.1 = none
  have hne : ("isTerminatingState" : String) ≠ q.1 := fun hc => hits q hq hc.symm
  rw [dlookup, if_neg hne]
  rfl

theorem desStep_none (d : DFA) (nfa : NFA) (st : String)
    (hd : dlookup d.transitions st = none) :
    desStep d nfa st = nfa.add_state st (st ∈ d.final_states) := by
  unfold desStep
  rw [hd]

theorem desStep_some (d : DFA) (nfa : NFA) (st : String) (tr : List (String × String))
    (hd : dlookup d.transitions st = some tr) :
    desStep d nfa st = tr.foldl (fun n q => n.add_transition st q.1 q.2)
      (nfa.add_state st (st ∈ d.final_states)) := by
  unfold desStep
  rw [hd]

theorem stateFold_map_eq (st : String) :
    ∀ (tr : List (String × String)) (n : NFA),
      (∀ q ∈ tr, q.1 ≠ "isTerminatingState") →
      (tr.map (fun q => (q.1, J.jstr q.2))).foldl
          (fun n q => if q.1 = "isTerminatingState" then n
            else parseTargets n st q.1 q.2) n
        = tr.foldl (fun n q => n.add_transition st q.1 q.2) n := by
  intro tr
  induction tr with
  | nil => intro n _; rfl
  | cons q rest ih =>
      intro n hits
      rw [List.map_cons, List.foldl_cons, List.foldl_cons,
        if_neg (hits q (List.mem_cons_self _ _))]
      exact ih _ (fun q' hq' => hits q' (List.mem_cons_of_mem _ hq'))

theorem deserializeStates_state_entry (d : DFA) (nfa : NFA) (st : String)
    (rest : List (String × J))
    (hst : st ≠ "startingState")
    (hok : ∀ tr, dlookup d.transitions st = some tr →
      (tr.map Prod.fst).Nodup ∧ ∀ q ∈ tr, q.1 ≠ "isTerminatingState") :
    deserializeStates nfa ((st, J.jobj (stateData d st)) :: rest)
      = deserializeStates (desStep d nfa st) rest := by
  rw [deserializeStates_cons_obj, if_neg hst]
  rcases hd : dlookup d.transitions st with _ | tr
  · rw [stateData_none d st hd, desStep_none d nfa st hd]
    rfl
  · rw [stateData_some d st tr hd (hok tr hd).1 (hok tr hd).2,
      desStep_some d nfa st tr hd]
    show deserializeStates
      ((tr.map (fun q => (q.1, J.jstr q.2))).foldl
        (fun n q => if q.1 = "isTerminatingState" then n
          else parseTargets n st q.1 q.2)
        (nfa.add_state st (st ∈ d.final_states))) rest
      = deserializeStates (tr.foldl (fun n q => n.add_transition st q.1 q.2)
          (nfa.add_state st (st ∈ d.final_states))) rest
    rw [stateFold_map_eq st tr _ (hok tr hd).2]

theorem deserializeStates_run (d : DFA) :
    ∀ (sts : List String) (nfa : NFA),
      (∀ st ∈ sts, st ≠ "startingState") →
      (∀ st ∈ sts, ∀ tr, dlookup d.transitions st = some tr →
        (tr.map Prod.fst).Nodup ∧ ∀ q ∈ tr, q.1 ≠ "isTerminatingState") →
      deserializeStates nfa (sts.map (fun st => (st, J.jobj (stateData d st))))
        = .ok (sts.foldl (desStep d) nfa) := by
  intro sts
  induction sts with
  | nil => intro nfa _ _; rfl
  | cons st sts ih =>
      intro nfa hss hok
      rw [List.map_cons,
        deserializeStates_state_entry d nfa st _ (hss st (List.mem_cons_self _ _))
          (hok st (List.mem_cons_self _ _)),
        List.foldl_cons]
      exact ih (desStep d nfa st)
        (fun st' hst' => hss st' (List.mem_cons_of_mem _ hst'))
        (fun st' hst' => hok st' (List.mem_cons_of_mem _ hst'))

theorem transFoldNFA_fields (st : String) :
    ∀ (tr : List (String × String)) (n : NFA),
      (tr.foldl (fun n q => n.add_transition st q.1 q.2) n).states = n.states ∧
      (tr.foldl (fun n q => n.add_transition st q.1 q.2) n).final_states
        = n.final_states ∧
      (tr.foldl (fun n q => n.add_transition st q.1 q.2) n).start_state
        = n.start_state := by
  intro tr
  induction tr with
  | nil => intro n; exact ⟨rfl, rfl, rfl⟩
  | cons q rest ih =>
      intro n
      rw [List.foldl_cons]
      exact ih (n.add_transition st q.1 q.2)

theorem desStep_fields (d : DFA) (nfa : NFA) (st : String) :
    (desStep d nfa st).states = sadd nfa.states st ∧
    (desStep d nfa st).final_states
      = (nfa.add_state st (st ∈ d.final_states)).final_states ∧
    (desStep d nfa st).start_state = nfa.start_state := by
  unfold desStep
  rcases hd : dlookup d.transitions st with _ | tr
  · exact ⟨rfl, rfl, rfl⟩
  · obtain ⟨h1, h2, h3⟩ := transFoldNFA_fields st tr
      (nfa.add_state st (st ∈ d.final_states))
    exact ⟨h1, h2, h3⟩

theorem NFA.add_state_finals_mem (n : NFA) (st : String) (b : Bool) (x : String) :
    x ∈ (n.add_state st b).final_states ↔
      x ∈ n.final_states ∨ (x = st ∧ b = true) := by
  unfold NFA.add_state
  cases b
  · simp
  · show x ∈ (if true = true then sadd n.final_states st else n.final_states) ↔ _
    rw [if_pos rfl, mem_sadd]
    constructor
    · rintro (h | rfl)
      · exact Or.inl h
      · exact Or.inr ⟨rfl, rfl⟩
    · rintro (h | ⟨rfl, _⟩)
      · exact Or.inl h
      · exact Or.inr rfl

theorem desRun_states (d : DFA) :
    ∀ (sts : List String) (nfa : NFA) (x : String),
      x ∈ (sts.foldl (desStep d) nfa).states ↔ x ∈ nfa.states ∨ x ∈ sts := by
  intro sts
  induction sts with
  | nil => intro nfa x; simp
  | cons st sts ih =>
      intro nfa x
      rw [List.foldl_cons, ih, (desStep_fields d nfa st).1, mem_sadd]
      constructor
      · rintro ((h | rfl) | h)
        · exact Or.inl h
        · exact Or.inr (List.mem_cons_self _ _)
        · exact Or.inr (List.mem_cons_of_mem _ h)
      · rintro (h | h)
        · exact Or.inl (Or.inl h)
        · rcases List.mem_cons.1 h with rfl | h'
          · exact Or.inl (Or.inr rfl)
          · exact Or.inr h'

theorem desRun_finals (d : DFA) :
    ∀ (sts : List String) (nfa : NFA) (x : String),
      x ∈ (sts.foldl (desStep d) nfa).final_states ↔
        x ∈ nfa.final_states ∨ (x ∈ sts ∧ x ∈ d.final_states) := by
  intro sts
  induction sts with
  | nil => intro nfa x; simp
  | cons st sts ih =>
      intro nfa x
      rw [List.foldl_cons, ih, (desStep_fields d nfa st).2.1,
        NFA.add_state_finals_mem]
      constructor
      · rintro ((h | ⟨rfl, hb⟩) | ⟨h1, h2⟩)
        · exact Or.inl h
        · exact Or.inr ⟨List.mem_cons_self _ _, of_decide_eq_true hb⟩
        · exact Or.inr ⟨List.mem_cons_of_mem _ h1, h2⟩
      · rintro (h | ⟨h1, h2⟩)
        · exact Or.inl (Or.inl h)
        · rcases List.mem_cons.1 h1 with rfl | h'
          · exact Or.inl (Or.inr ⟨rfl, decide_eq_true h2⟩)
          · exact Or.inr ⟨h', h2⟩

theorem desRun_start (d : DFA) :
    ∀ (sts : List String) (nfa : NFA),
      (sts.foldl (desStep d) nfa).start_state = nfa.start_state := by
  intro sts
  induction sts with
  | nil => intro nfa; rfl
  | cons st sts ih =>
      intro nfa
      rw [List.foldl_cons, ih, (desStep_fields d nfa st).2.2]

theorem NFA.add_transition_lookup_other (n : NFA) (st sym tgt x : String)
    (hx : x ≠ st) :
    dlookup (n.add_transition st sym tgt).transitions x = dlookup n.transitions x := by
  simp only [NFA.add_transition]
  exact dlookup_dinsert_ne _ _ _ _ (fun hc => hx hc.symm)

theorem transFoldNFA_lookup_other (st : String) :
    ∀ (tr : List (String × String)) (n : NFA) (x : String), x ≠ st →
      dlookup ((tr.foldl (fun n q => n.add_transition st q.1 q.2) n)).transitions x
        = dlookup n.transitions x := by
  intro tr
  induction tr with
  | nil => intro n x _; rfl
  | cons q rest ih =>
      intro n x hx
      rw [List.foldl_cons, ih _ x hx, NFA.add_transition_lookup_other n st q.1 q.2 x hx]

theorem transFoldNFA_lookup_self (st : String) :
    ∀ (tr : List (String × String)) (n : NFA) (acc : List (String × List String)),
      dlookup n.transitions st = some acc →
      (tr.map Prod.fst).Nodup →
      (∀ q ∈ tr, dlookup acc q.1 = none) →
      dlookup ((tr.foldl (fun n q => n.add_transition st q.1 q.2) n)).transitions st
        = some (acc ++ tr.map (fun q => (q.1, [q.2]))) := by
  intro tr
  induction tr with
  | nil =>
      intro n acc hacc _ _
      rw [List.map_nil, List.append_nil]
      exact hacc
  | cons q rest ih =>
      intro n acc hacc hnd hfresh
      rw [List.map_cons, List.nodup_cons] at hnd
      rw [List.foldl_cons]
      have hstep : dlookup (n.add_transition st q.1 q.2).transitions st
          = some (acc ++ [(q.1, [q.2])]) := by
        simp only [NFA.add_transition]
        rw [dlookup_dinsert_self, hacc]
        simp only [Option.getD_some]
        rw [hfresh q (List.mem_cons_self _ _)]
        simp only [Option.getD_none]
        rw [if_neg (List.not_mem_nil q.2), List.nil_append,
          dinsert_append_of_none acc q.1 [q.2] (hfresh q (List.mem_cons_self _ _))]
      have hfresh' : ∀ q' ∈ rest, dlookup (acc ++ [(q.1, [q.2])]) q'.1 = none := by
        intro q' hq'
        rw [dlookup_append_m, hfresh q' (List.mem_cons_of_mem _ hq')]
        have hne : q.1 ≠ q'.1 := fun hc => hnd.1 (hc ▸ List.mem_map.2 ⟨q', hq', rfl⟩)
        show dlookup [(q.1, [q.2])] q'.1 = none
        rw [dlookup, if_neg hne]
        rfl
      rw [ih (n.add_transition st q.1 q.2) (acc ++ [(q.1, [q.2])]) hstep hnd.2 hfresh',
        List.append_assoc]
      rfl

theorem desStep_lookup_self (d : DFA) (nfa : NFA) (st : String)
    (h0 : dlookup nfa.transitions st = none)
    (hnd : ∀ tr, dlookup d.transitions st = some tr → (tr.map Prod.fst).Nodup) :
    dlookup (desStep d nfa st).transitions st
      = some (match dlookup d.transitions st with
              | none => []
              | some tr => tr.map (fun q => (q.1, [q.2]))) := by
  have hadd : dlookup (nfa.add_state st (st ∈ d.final_states)).transitions st
      = some [] := by
    simp only [NFA.add_state]
    rw [h0]
    show dlookup
      (if (none : Option (List (String × List String))).isSome = true
       then nfa.transitions else dinsert nfa.transitions st []) st = some []
    rw [if_neg (fun hc => Bool.noConfusion hc), dlookup_dinsert_self]
  rcases hd : dlookup d.transitions st with _ | tr
  · rw [desStep_none d nfa st hd]
    exact hadd
  · rw [desStep_some d nfa st tr hd]
    have := transFoldNFA_lookup_self st tr (nfa.add_state st (st ∈ d.final_states)) []
      hadd (hnd tr hd) (fun q _ => rfl)
    rw [List.nil_append] at this
    exact this

theorem desStep_lookup_other (d : DFA) (nfa : NFA) (st x : String) (hx : x ≠ st) :
    dlookup (desStep d nfa st).transitions x = dlookup nfa.transitions x := by
  have haddst : dlookup (nfa.add_state st (st ∈ d.final_states)).transitions x
      = dlookup nfa.transitions x := by
    simp only [NFA.add_state]
    by_cases hs : (dlookup nfa.transitions st).isSome
    · rw [if_pos hs]
    · rw [if_neg hs]
      exact dlookup_dinsert_ne _ _ _ _ (fun hc => hx hc.symm)
  rcases hd : dlookup d.transitions st with _ | tr
  · rw [desStep_none d nfa st hd]
    exact haddst
  · rw [desStep_some d nfa st tr hd, transFoldNFA_lookup_other st tr _ x hx]
    exact haddst

theorem desRun_lookup_notin (d : DFA) :
    ∀ (sts : List String) (nfa : NFA) (x : String), x ∉ sts →
      dlookup ((sts.foldl (desStep d) nfa).transitions) x
        = dlookup nfa.transitions x := by
  intro sts
  induction sts with
  | nil => intro nfa x _; rfl
  | cons st sts ih =>
      intro nfa x hx
      rw [List.foldl_cons, ih _ x (fun hc => hx (List.mem_cons_of_mem _ hc)),
        desStep_lookup_other d nfa st x (fun hc => hx (hc ▸ List.mem_cons_self _ _))]

theorem desRun_lookup_in (d : DFA) :
    ∀ (sts : List String) (nfa : NFA) (x : String), sts.Nodup → x ∈ sts →
      dlookup nfa.transitions x = none →
      (∀ tr, dlookup d.transitions x = some tr → (tr.map Prod.fst).Nodup) →
      dlookup ((sts.foldl (desStep d) nfa).transitions) x
        = some (match dlookup d.transitions x with
                | none => []
                | some tr => tr.map (fun q => (q.1, [q.2]))) := by
  intro sts
  induction sts with
  | nil => intro nfa x _ hx; simp at hx
  | cons st sts ih =>
      intro nfa x hnd hx h0 hdnd
      rw [List.foldl_cons]
      rcases List.mem_cons.1 hx with rfl | hx'
      · rw [desRun_lookup_notin d sts _ x (List.nodup_cons.1 hnd).1,
          desStep_lookup_self d nfa x h0 hdnd]
      · have hne : x ≠ st :=
          fun hc => (List.nodup_cons.1 hnd).1 (hc ▸ hx')
        exact ih (desStep d nfa st) x (List.nodup_cons.1 hnd).2 hx'
          (by rw [desStep_lookup_other d nfa st x hne, h0]) hdnd

theorem deserialize_nfa_json_cons_start (sj : J) (entries : List (String × J)) :
    deserialize_nfa_json (("startingState", sj) :: entries)
      = deserializeStates
          { start_state :=
              match sj with
              | J.jstr s => some s
              | _ => none
            states := []
            final_states := []
            transitions := [] }
          (("startingState", sj) :: entries) := by
  unfold deserialize_nfa_json
  rw [show dlookup (("startingState", sj) :: entries) "startingState" = some sj from
    by rw [dlookup, if_pos rfl]]

theorem deserialize_to_json (d : DFA)
    (h1 : "startingState" ∉ d.states)
    (hok : ∀ p ∈ d.transitions, (p.2.map Prod.fst).Nodup ∧
      ∀ q ∈ p.2, q.1 ≠ "isTerminatingState") :
    deserialize_nfa_json (DFA.to_json d)
      = .ok ((sortStrings d.states.dedup).foldl (desStep d)
          { start_state := d.start_state
            states := []
            final_states := []
            transitions := [] }) := by
  have hsts : ∀ st ∈ sortStrings d.states.dedup, st ≠ "startingState" :=
    fun st hst hc => h1 (hc ▸ List.mem_dedup.1 ((mem_sortStrings _ _).1 hst))
  have hrow : ∀ st ∈ sortStrings d.states.dedup, ∀ tr,
      dlookup d.transitions st = some tr →
      (tr.map Prod.fst).Nodup ∧ ∀ q ∈ tr, q.1 ≠ "isTerminatingState" :=
    fun st _ tr htr => hok (st, tr) (dlookup_mem _ _ _ htr)
  have hnotobj : ∀ st, (match d.start_state with
      | none => J.jnull
      | some s => J.jstr s) ≠ J.jobj st := by
    intro st
    rcases d.start_state with _ | s0
    · exact fun hc => J.noConfusion hc
    · exact fun hc => J.noConfusion hc
  have hstart : (match (match d.start_state with
      | none => J.jnull
      | some s => J.jstr s) with
      | J.jstr s => some s
      | _ => none) = d.start_state := by
    rcases d.start_state with _ | s0 <;> rfl
  rw [to_json_eq d h1, deserialize_nfa_json_cons_start,
    deserializeStates_cons_nonobj _ "startingState" _ _ hnotobj, if_pos rfl, hstart,
    deserializeStates_run d (sortStrings d.states.dedup) _ hsts hrow]

/-- Counterexample to C8 as stated ("for every DFA"): a DFA whose single
state is named `"startingState"` does not survive the round trip.
`DFA.to_json` writes the state object over the `"startingState"` metadata key
(`output[state] = state_data`, `DFA_Builder.py` line 98), so the re-parsed
automaton has no states at all and an unset start state. -/
theorem c8_counterexample :
    DFA.to_json
      { start_state := some "startingState"
        states := ["startingState"]
        final_states := []
        transitions := [] }
      = [("startingState", J.jobj [("isTerminatingState", J.jbool false)])] ∧
    deserialize_nfa_json
        [("startingState", J.jobj [("isTerminatingState", J.jbool false)])]
      = Except.ok
        { start_state := none
          states := []
          final_states := []
          transitions := ([] : List (String × List (String × List String))) } ∧
    ¬(("startingState" ∈ ([] : List String)) ↔
        ("startingState" ∈ (["startingState"] : List String))) ∧
    (none : Option String) ≠ some "startingState" :=
  ⟨rfl, rfl, by decide, by decide⟩

/-- **C8 (amended)** The round trip `deserialize_nfa_json ∘ DFA.to_json` is
exact only away from the serializer's two reserved key names and for
registered sources: for every DFA whose states avoid the name
`"startingState"`, whose transition symbols avoid `"isTerminatingState"`,
whose transition sources are declared states, whose final states are declared
(always true for DFAs built through `add_state`), and whose dict key lists
are duplicate-free (intrinsic to Python dicts), re-deserializing the emitted
document succeeds and yields an automaton with the identical state set,
identical finality, the same start state, and each single-target transition
reappearing as the corresponding singleton-target transition. -/
theorem c8_round_trip (d : DFA)
    (h1 : "startingState" ∉ d.states)
    (h2 : ∀ p ∈ d.transitions, ∀ q ∈ p.2, q.1 ≠ "isTerminatingState")
    (h3 : ∀ p ∈ d.transitions, p.1 ∈ d.states)
    (h4 : d.final_states ⊆ d.states)
    (h5 : ∀ p ∈ d.transitions, (p.2.map Prod.fst).Nodup) :
    ∃ nfa : NFA, deserialize_nfa_json (DFA.to_json d) = .ok nfa ∧
      (∀ x, x ∈ nfa.states ↔ x ∈ d.states) ∧
      (∀ x, x ∈ nfa.final_states ↔ x ∈ d.final_states) ∧
      nfa.start_state = d.start_state ∧
      (∀ s c, (dlookup nfa.transitions s).bind (fun row => dlookup row c)
        = (dlookup2 d.transitions s c).map (fun t => [t])) := by
  have hmemsort : ∀ x, x ∈ sortStrings d.states.dedup ↔ x ∈ d.states := by
    intro x
    rw [mem_sortStrings, List.mem_dedup]
  refine ⟨(sortStrings d.states.dedup).foldl (desStep d)
      { start_state := d.start_state
        states := []
        final_states := []
        transitions := [] },
    deserialize_to_json d h1
      (fun p hp => ⟨h5 p hp, h2 p hp⟩), ?_, ?_, desRun_start d _ _, ?_⟩
  · intro x
    rw [desRun_states]
    show x ∈ ([] : List String) ∨ x ∈ sortStrings d.states.dedup ↔ x ∈ d.states
    rw [hmemsort]
    simp
  · intro x
    rw [desRun_finals]
    show x ∈ ([] : List String) ∨
      (x ∈ sortStrings d.states.dedup ∧ x ∈ d.final_states) ↔ x ∈ d.final_states
    constructor
    · rintro (h | ⟨_, h⟩)
      · simp at h
      · exact h
    · intro h
      exact Or.inr ⟨(hmemsort x).2 (h4 h), h⟩
  · intro s c
    by_cases hs : s ∈ d.states
    · rw [desRun_lookup_in d (sortStrings d.states.dedup)
        { start_state := d.start_state
          states := []
          final_states := []
          transitions := [] } s (canon_nodup d.states)
        ((hmemsort s).2 hs) rfl
        (fun tr htr => h5 (s, tr) (dlookup_mem _ _ _ htr))]
      rcases hrow : dlookup d.transitions s with _ | tr
      · have hR : dlookup2 d.transitions s c = none := by
          unfold dlookup2
          rw [hrow]
        rw [hR]
        rfl
      · show dlookup (tr.map (fun q => (q.1, [q.2]))) c
          = (dlookup2 d.transitions s c).map (fun t => [t])
        rw [dlookup_map_values tr (fun t => [t]) c]
        have hR : dlookup2 d.transitions s c = dlookup tr c := by
          unfold dlookup2
          rw [hrow]
        rw [hR]
    · rw [desRun_lookup_notin d (sortStrings d.states.dedup) _ s
        (fun hc => hs ((hmemsort s).1 hc))]
      have hrow : dlookup d.transitions s = none := by
        rcases hr : dlookup d.transitions s with _ | tr
        · rfl
        · exact absurd (h3 (s, tr) (dlookup_mem _ _ _ hr)) hs
      have hR : dlookup2 d.transitions s c = none := by
        unfold dlookup2
        rw [hrow]
      rw [hR]
      rfl

theorem c8_round_trip_witness :
    ∃ nfa : NFA,
      deserialize_nfa_json (DFA.to_json
        { start_state := some "A"
          states := ["A", "B"]
          final_states := ["B"]
          transitions := [("A", [("a", "B")]), ("B", [("a", "B")])] }) = .ok nfa ∧
      nfa.start_state = some "A" :=
  (c8_round_trip
      { start_state := some "A"
        states := ["A", "B"]
        final_states := ["B"]
        transitions := [("A", [("a", "B")]), ("B", [("a", "B")])] }
      (by decide) (by decide) (by decide)
      (by
        intro a ha
        have ha2 : a = "B" := by simpa using ha
        subst ha2
        decide)
      (by decide)).imp
    (fun nfa h => ⟨h.1, h.2.2.2.1⟩)

theorem mem_foldl_sadd (y : String) :
    ∀ (ts acc : List String),
      y ∈ ts.foldl (fun a t => sadd a t) acc ↔ y ∈ acc ∨ y ∈ ts := by
  intro ts
  induction ts with
  | nil => intro acc; simp
  | cons t ts ih =>
      intro acc
      rw [List.foldl_cons, ih, mem_sadd]
      constructor
      · rintro ((h | rfl) | h)
        · exact Or.inl h
        · exact Or.inr (List.mem_cons_self _ _)
        · exact Or.inr (List.mem_cons_of_mem _ h)
      · rintro (h | h)
        · exact Or.inl (Or.inl h)
        · rcases List.mem_cons.1 h with rfl | h'
          · exact Or.inl (Or.inr rfl)
          · exact Or.inr h'

theorem mem_move (nfa : NFA) (c y : String) :
    ∀ (S : List String),
      y ∈ move nfa S c ↔
        ∃ s ∈ S, ∃ d, dlookup nfa.transitions s = some d ∧
          ∃ ts, dlookup d c = some ts ∧ y ∈ ts := by
  have hgen : ∀ (l : List String) (acc : List String),
      y ∈ l.foldl (fun result_states state =>
        match dlookup nfa.transitions state with
        | none => result_states
        | some d =>
            match dlookup d c with
            | none => result_states
            | some targets =>
                targets.foldl (fun a target => sadd a target) result_states) acc ↔
      y ∈ acc ∨ ∃ s ∈ l, ∃ d, dlookup nfa.transitions s = some d ∧
        ∃ ts, dlookup d c = some ts ∧ y ∈ ts := by
    intro l
    induction l with
    | nil => simp
    | cons s l ih =>
        intro acc
        rw [List.foldl_cons, ih]
        have hstep : y ∈ (match dlookup nfa.transitions s with
            | none => acc
            | some d =>
                match dlookup d c with
                | none => acc
                | some targets =>
                    targets.foldl (fun a target => sadd a target) acc) ↔
            y ∈ acc ∨ ∃ d, dlookup nfa.transitions s = some d ∧
              ∃ ts, dlookup d c = some ts ∧ y ∈ ts := by
          rcases h1 : dlookup nfa.transitions s with _ | d
          · show y ∈ acc ↔ _
            constructor
            · exact fun h => Or.inl h
            · rintro (h | ⟨d, hd, _⟩)
              · exact h
              · exact Option.noConfusion hd
          · show y ∈ (match dlookup d c with
                | none => acc
                | some targets =>
                    targets.foldl (fun a target => sadd a target) acc) ↔ _
            rcases h2 : dlookup d c with _ | ts
            · show y ∈ acc ↔ _
              constructor
              · exact fun h => Or.inl h
              · rintro (h | ⟨d', hd', ts, hts, _⟩)
                · exact h
                · cases hd'
                  rw [h2] at hts
                  exact Option.noConfusion hts
            · show y ∈ ts.foldl (fun a target => sadd a target) acc ↔ _
              rw [mem_foldl_sadd]
              constructor
              · rintro (h | h)
                · exact Or.inl h
                · exact Or.inr ⟨d, rfl, ts, h2, h⟩
              · rintro (h | ⟨d', hd', ts', hts', hy⟩)
                · exact Or.inl h
                · cases hd'
                  rw [h2] at hts'
                  cases hts'
                  exact Or.inr hy
        constructor
        · rintro (h | ⟨s', hs', hp⟩)
          · rcases hstep.1 h with h' | ⟨d, hd, hts⟩
            · exact Or.inl h'
            · exact Or.inr ⟨s, List.mem_cons_self _ _, d, hd, hts⟩
          · exact Or.inr ⟨s', List.mem_cons_of_mem _ hs', hp⟩
        · rintro (h | ⟨s', hs', hp⟩)
          · exact Or.inl (hstep.2 (Or.inl h))
          · rcases List.mem_cons.1 hs' with rfl | hs''
            · exact Or.inl (hstep.2 (Or.inr hp))
            · exact Or.inr ⟨s', hs'', hp⟩
  intro S
  unfold move
  rw [hgen]
  simp

theorem move_congr (nfa : NFA) (S S' : List String) (c : String)
    (h : ∀ x, x ∈ S ↔ x ∈ S') :
    ∀ y, y ∈ move nfa S c ↔ y ∈ move nfa S' c := by
  intro y
  rw [mem_move, mem_move]
  constructor
  · rintro ⟨s, hs, hp⟩
    exact ⟨s, (h s).1 hs, hp⟩
  · rintro ⟨s, hs, hp⟩
    exact ⟨s, (h s).2 hs, hp⟩

theorem eclose_congr (nfa : NFA) (S S' : List String)
    (h : ∀ x, x ∈ S ↔ x ∈ S') :
    ∀ y, y ∈ get_epsilon_closure nfa S ↔ y ∈ get_epsilon_closure nfa S' := by
  intro y
  rw [mem_get_epsilon_closure, mem_get_epsilon_closure]
  constructor
  · rintro ⟨x, hx, hr⟩
    exact ⟨x, (h x).1 hx, hr⟩
  · rintro ⟨x, hx, hr⟩
    exact ⟨x, (h x).2 hx, hr⟩

theorem nfaGo_congr (nfa : NFA) :
    ∀ (w : List String) (S S' : List String),
      (∀ x, x ∈ S ↔ x ∈ S') → nfaGo nfa S w = nfaGo nfa S' w := by
  intro w
  induction w with
  | nil =>
      intro S S' h
      show S.any (fun s => s ∈ nfa.final_states)
        = S'.any (fun s => s ∈ nfa.final_states)
      rcases ha : S'.any (fun s => s ∈ nfa.final_states) with _ | _
      · rw [List.any_eq_false] at ha ⊢
        intro x hx
        exact ha x ((h x).1 hx)
      · rw [List.any_eq_true] at ha ⊢
        obtain ⟨x, hx, hxf⟩ := ha
        exact ⟨x, (h x).2 hx, hxf⟩
  | cons c rest ih =>
      intro S S' h
      show nfaGo nfa (nfaStep nfa S c) rest = nfaGo nfa (nfaStep nfa S' c) rest
      exact ih _ _ (fun y => eclose_congr nfa _ _ (move_congr nfa S S' c h) y)

theorem move_nil (nfa : NFA) (c : String) : move nfa [] c = [] := rfl

theorem eclose_nil (nfa : NFA) : get_epsilon_closure nfa [] = [] :=
  get_epsilon_closure_of_closed nfa [] (fun x hx => absurd hx (List.not_mem_nil x))

theorem nfaGo_nil (nfa : NFA) : ∀ (w : List String), nfaGo nfa [] w = false := by
  intro w
  induction w with
  | nil => rfl
  | cons c rest ih =>
      show nfaGo nfa (nfaStep nfa [] c) rest = false
      unfold nfaStep
      rw [move_nil, eclose_nil]
      exact ih

theorem epsAdj_target_mem_allTargets (nfa : NFA) (x y : String) (h : epsAdj nfa x y) :
    y ∈ allTargets nfa := by
  obtain ⟨tr, htr, q, hq, _, hy⟩ := h
  exact mem_allTargets nfa (x, tr) (dlookup_mem _ _ _ htr) q hq y hy

theorem move_subset_allTargets (nfa : NFA) (S : List String) (c y : String)
    (h : y ∈ move nfa S c) : y ∈ allTargets nfa := by
  obtain ⟨s, _, d, hd, ts, hts, hy⟩ := (mem_move nfa c y S).1 h
  exact mem_allTargets nfa (s, d) (dlookup_mem _ _ _ hd) (c, ts)
    (dlookup_mem _ _ _ hts) y hy

theorem reach_cases (nfa : NFA) (x y : String)
    (h : Relation.ReflTransGen (epsAdj nfa) x y) : y = x ∨ y ∈ allTargets nfa := by
  induction h with
  | refl => exact Or.inl rfl
  | tail _ hadj _ => exact Or.inr (epsAdj_target_mem_allTargets nfa _ _ hadj)

theorem eclose_move_subset_convUniv (nfa : NFA) (S : List String) (c y : String)
    (h : y ∈ get_epsilon_closure nfa (move nfa S c)) : y ∈ convUniv nfa := by
  obtain ⟨x, hx, hr⟩ := (mem_get_epsilon_closure nfa _ y).1 h
  rcases reach_cases nfa x y hr with rfl | hy
  · exact (mem_canon _ _).2
      (List.mem_append_right _ (move_subset_allTargets nfa S c y hx))
  · exact (mem_canon _ _).2 (List.mem_append_right _ hy)

theorem start_closure_subset_convUniv (nfa : NFA) (y : String)
    (h : y ∈ get_epsilon_closure nfa (startSeed nfa)) : y ∈ convUniv nfa := by
  obtain ⟨x, hx, hr⟩ := (mem_get_epsilon_closure nfa _ y).1 h
  rcases reach_cases nfa x y hr with rfl | hy
  · exact (mem_canon _ _).2 (List.mem_append_left _ hx)
  · exact (mem_canon _ _).2 (List.mem_append_right _ hy)

theorem canonical_keys_length_le (U : List String) (hU : U.Nodup)
    (keys : List (List String)) (hnd : keys.Nodup)
    (hks : ∀ k ∈ keys, k = canon k ∧ k ⊆ U) :
    keys.length ≤ 2 ^ U.length := by
  classical
  have hinj : ∀ k1 ∈ keys, ∀ k2 ∈ keys, k1.toFinset = k2.toFinset → k1 = k2 := by
    intro k1 h1 k2 h2 hf
    have hmemiff : ∀ x, x ∈ k1 ↔ x ∈ k2 := by
      intro x
      rw [← List.mem_toFinset, ← List.mem_toFinset, hf]
    calc k1 = canon k1 := (hks k1 h1).1
    _ = canon k2 := (canon_eq_canon_iff _ _).2 hmemiff
    _ = k2 := ((hks k2 h2).1).symm
  have hmapnd : (keys.map List.toFinset).Nodup := hnd.map_on hinj
  have h1 : (keys.map List.toFinset).length ≤ (U.toFinset.powerset).card := by
    rw [← List.toFinset_card_of_nodup hmapnd]
    apply Finset.card_le_card
    intro f hf
    obtain ⟨k, hk, rfl⟩ := List.mem_map.1 (List.mem_toFinset.1 hf)
    rw [Finset.mem_powerset]
    intro x hx
    exact List.mem_toFinset.2 ((hks k hk).2 (List.mem_toFinset.1 hx))
  rw [List.length_map] at h1
  calc keys.length ≤ (U.toFinset.powerset).card := h1
  _ = 2 ^ U.toFinset.card := Finset.card_powerset _
  _ = 2 ^ U.length := by rw [List.toFinset_card_of_nodup hU]

theorem dlookup_isSome_of_mem_fst {κ α : Type} [DecidableEq κ] :
    ∀ (M : List (κ × α)) (k : κ), k ∈ M.map Prod.fst →
      (dlookup M k).isSome = true := by
  intro M
  induction M with
  | nil => intro k hk; simp at hk
  | cons p rest ih =>
      intro k hk
      obtain ⟨k', v'⟩ := p
      by_cases h : k' = k
      · rw [dlookup, if_pos h]
        rfl
      · rw [dlookup, if_neg h]
        rcases List.mem_cons.1 hk with hk' | hk'
        · exact absurd hk'.symm h
        · exact ih k hk'

theorem dlookup_append_some {κ α : Type} [DecidableEq κ]
    (M ext : List (κ × α)) (k : κ) (v : α) (h : dlookup M k = some v) :
    dlookup (M ++ ext) k = some v := by
  rw [dlookup_append_m, h]

theorem DFA.add_state_start (m : DFA) (nm : String) (b : Bool) :
    (m.add_state nm b).start_state = m.start_state := rfl

theorem DFA.add_state_states (m : DFA) (nm : String) (b : Bool) :
    (m.add_state nm b).states = sadd m.states nm := rfl

theorem DFA.add_state_finals_mem_dfa (m : DFA) (nm : String) (b : Bool) (x : String) :
    x ∈ (m.add_state nm b).final_states ↔
      x ∈ m.final_states ∨ (x = nm ∧ b = true) := by
  unfold DFA.add_state
  cases b
  · simp
  · show x ∈ (if true = true then sadd m.final_states nm else m.final_states) ↔ _
    rw [if_pos rfl, mem_sadd]
    constructor
    · rintro (h | rfl)
      · exact Or.inl h
      · exact Or.inr ⟨rfl, rfl⟩
    · rintro (h | ⟨rfl, _⟩)
      · exact Or.inl h
      · exact Or.inr rfl

theorem core_entry_name (st : ConvState)
    (hlen : st.states_map.length = st.dfa_state_counter)
    (hnames : ∀ (i : Nat) (hi : i < st.states_map.length),
      (st.states_map.get ⟨i, hi⟩).2 = "S" ++ toString i)
    (p : List String × String) (hp : p ∈ st.states_map) :
    ∃ i, i < st.dfa_state_counter ∧ p.2 = "S" ++ toString i := by
  obtain ⟨⟨i, hi⟩, hget⟩ := List.mem_iff_get.1 hp
  exact ⟨i, hlen ▸ hi, by rw [← hget]; exact hnames i hi⟩

theorem core_name_ne_counter (st : ConvState)
    (hlen : st.states_map.length = st.dfa_state_counter)
    (hnames : ∀ (i : Nat) (hi : i < st.states_map.length),
      (st.states_map.get ⟨i, hi⟩).2 = "S" ++ toString i)
    (p : List String × String) (hp : p ∈ st.states_map) :
    p.2 ≠ "S" ++ toString st.dfa_state_counter := by
  obtain ⟨i, hi, hname⟩ := core_entry_name st hlen hnames p hp
  rw [hname]
  exact sname_ne i st.dfa_state_counter (by omega)

theorem processSymbol_empty (nfa : NFA) (current : List String) (nm : String)
    (st : ConvState) (c : String)
    (hE : get_epsilon_closure nfa (move nfa current c) = []) :
    processSymbol nfa current nm st c = st := by
  simp only [processSymbol]
  rw [if_pos hE]

theorem processSymbol_found (nfa : NFA) (current : List String) (nm : String)
    (st : ConvState) (c : String) (dest : String)
    (hE : ¬get_epsilon_closure nfa (move nfa current c) = [])
    (hk : dlookup st.states_map
      (canon (get_epsilon_closure nfa (move nfa current c))) = some dest) :
    processSymbol nfa current nm st c
      = { st with dfa := st.dfa.add_transition nm c dest } := by
  simp only [processSymbol]
  rw [if_neg hE, hk]

theorem processSymbol_new (nfa : NFA) (current : List String) (nm : String)
    (st : ConvState) (c : String)
    (hE : ¬get_epsilon_closure nfa (move nfa current c) = [])
    (hk : dlookup st.states_map
      (canon (get_epsilon_closure nfa (move nfa current c))) = none) :
    processSymbol nfa current nm st c =
      { states_map := st.states_map
          ++ [(canon (get_epsilon_closure nfa (move nfa current c)),
               "S" ++ toString st.dfa_state_counter)]
        dfa_state_counter := st.dfa_state_counter + 1
        worklist := st.worklist
          ++ [canon (get_epsilon_closure nfa (move nfa current c))]
        dfa := (st.dfa.add_state ("S" ++ toString st.dfa_state_counter)
            ((get_epsilon_closure nfa (move nfa current c)).any
              (fun s => s ∈ nfa.final_states))).add_transition
            nm c ("S" ++ toString st.dfa_state_counter) } := by
  simp only [processSymbol]
  rw [if_neg hE, hk]

theorem processSymbol_spec (nfa : NFA) (current : List String) (nm : String)
    (st : ConvState) (c : String)
    (hcore : ConvCore nfa st)
    (hmem : (current, nm) ∈ st.states_map)
    (hblank : dlookup2 st.dfa.transitions nm c = none) :
    ConvCore nfa (processSymbol nfa current nm st c) ∧
    (∃ ext : List (List String × String),
      (processSymbol nfa current nm st c).states_map = st.states_map ++ ext ∧
      (processSymbol nfa current nm st c).worklist = st.worklist ++ ext.map Prod.fst) ∧
    (∀ x c', x ≠ nm →
      dlookup2 (processSymbol nfa current nm st c).dfa.transitions x c'
        = dlookup2 st.dfa.transitions x c') ∧
    (∀ c', c' ≠ c →
      dlookup2 (processSymbol nfa current nm st c).dfa.transitions nm c'
        = dlookup2 st.dfa.transitions nm c') ∧
    ConvSem nfa (processSymbol nfa current nm st c) current nm c := by
  obtain ⟨hlen, hnames, hkeys, hknd, hstates, hfin, hfs, hstart, hwl, hrows⟩ := hcore
  by_cases hE : get_epsilon_closure nfa (move nfa current c) = []
  · rw [processSymbol_empty nfa current nm st c hE]
    exact ⟨⟨hlen, hnames, hkeys, hknd, hstates, hfin, hfs, hstart, hwl, hrows⟩,
      ⟨[], by simp, by simp⟩,
      fun x c' _ => rfl, fun c' _ => rfl,
      Or.inl ⟨hE, hblank⟩⟩
  · rcases hk : dlookup st.states_map
        (canon (get_epsilon_closure nfa (move nfa current c))) with _ | dest
    · -- new key branch
      rw [processSymbol_new nfa current nm st c hE hk]
      have hSn_fresh : ∀ p ∈ st.states_map,
          p.2 ≠ "S" ++ toString st.dfa_state_counter :=
        core_name_ne_counter st hlen hnames
      have hnm_ne : nm ≠ "S" ++ toString st.dfa_state_counter :=
        hSn_fresh (current, nm) hmem
      have hK'_notkey : canon (get_epsilon_closure nfa (move nfa current c))
          ∉ st.states_map.map Prod.fst := by
        intro hc
        have hsomeK := dlookup_isSome_of_mem_fst st.states_map _ hc
        rw [hk] at hsomeK
        exact Bool.noConfusion hsomeK
      have hSn_trans_none : dlookup st.dfa.transitions
          ("S" ++ toString st.dfa_state_counter) = none := by
        rcases h0 : dlookup st.dfa.transitions
            ("S" ++ toString st.dfa_state_counter) with _ | row
        · rfl
        · obtain ⟨p, hp, hp2⟩ := hrows _ (dlookup_mem _ _ _ h0)
          exact absurd hp2 (hSn_fresh p hp)
      have haddtr : ∀ x, x ≠ "S" ++ toString st.dfa_state_counter →
          dlookup (st.dfa.add_state ("S" ++ toString st.dfa_state_counter)
            ((get_epsilon_closure nfa (move nfa current c)).any
              (fun s => s ∈ nfa.final_states))).transitions x
            = dlookup st.dfa.transitions x := by
        intro x hx
        rcases DFA.add_state_transitions_cases st.dfa _ _ x with hc | ⟨hc1, _, _⟩
        · exact hc
        · exact absurd hc1 hx
      have haddSn : dlookup (st.dfa.add_state ("S" ++ toString st.dfa_state_counter)
          ((get_epsilon_closure nfa (move nfa current c)).any
            (fun s => s ∈ nfa.final_states))).transitions
          ("S" ++ toString st.dfa_state_counter) = some [] := by
        rcases DFA.add_state_transitions_cases st.dfa
            ("S" ++ toString st.dfa_state_counter)
            ((get_epsilon_closure nfa (move nfa current c)).any
              (fun s => s ∈ nfa.final_states))
            ("S" ++ toString st.dfa_state_counter) with hc | ⟨_, _, hc⟩
        · have hsome := DFA.add_state_transitions_self_isSome st.dfa
            ("S" ++ toString st.dfa_state_counter)
            ((get_epsilon_closure nfa (move nfa current c)).any
              (fun s => s ∈ nfa.final_states))
          rw [hc, hSn_trans_none] at hsome
          exact Bool.noConfusion hsome
        · exact hc
      have hnmRow : dlookup ((st.dfa.add_state ("S" ++ toString st.dfa_state_counter)
          ((get_epsilon_closure nfa (move nfa current c)).any
            (fun s => s ∈ nfa.final_states))).add_transition nm c
            ("S" ++ toString st.dfa_state_counter)).transitions nm
          = some (dinsert ((dlookup st.dfa.transitions nm).getD []) c
              ("S" ++ toString st.dfa_state_counter)) := by
        rw [DFA.add_transition_lookup_self, haddtr nm hnm_ne]
      have haddrows : ∀ row ∈ (st.dfa.add_state ("S" ++ toString st.dfa_state_counter)
          ((get_epsilon_closure nfa (move nfa current c)).any
            (fun s => s ∈ nfa.final_states))).transitions,
          (∃ p ∈ st.states_map, p.2 = row.1) ∨
            row.1 = "S" ++ toString st.dfa_state_counter := by
        simp only [DFA.add_state]
        by_cases hs : (dlookup st.dfa.transitions
            ("S" ++ toString st.dfa_state_counter)).isSome
        · rw [if_pos hs]
          exact fun row h => Or.inl (hrows row h)
        · rw [if_neg hs]
          intro row h
          rcases mem_dinsert _ _ _ _ h with h' | h'
          · exact Or.inl (hrows row h')
          · exact Or.inr (by rw [h'])
      refine ⟨⟨?_, ?_, ?_, ?_, ?_, ?_, ?_, ?_, ?_, ?_⟩,
        ⟨[(canon (get_epsilon_closure nfa (move nfa current c)),
            "S" ++ toString st.dfa_state_counter)], rfl, rfl⟩, ?_, ?_, ?_⟩
      · show (st.states_map ++ [(canon (get_epsilon_closure nfa (move nfa current c)),
            "S" ++ toString st.dfa_state_counter)]).length
          = st.dfa_state_counter + 1
        rw [List.length_append, hlen]
        rfl
      · intro i hi
        have hi' : i < st.states_map.length + 1 := by
          have := hi
          simp only [List.length_append, List.length_cons, List.length_nil] at this
          omega
        by_cases hilt : i < st.states_map.length
        · have hget : ((st.states_map
              ++ [(canon (get_epsilon_closure nfa (move nfa current c)),
                  "S" ++ toString st.dfa_state_counter)]).get ⟨i, hi⟩)
              = st.states_map.get ⟨i, hilt⟩ := List.get_append i hilt
          rw [hget]
          exact hnames i hilt
        · have hieq : i = st.states_map.length := by omega
          subst hieq
          have hget : ((st.states_map
              ++ [(canon (get_epsilon_closure nfa (move nfa current c)),
                  "S" ++ toString st.dfa_state_counter)]).get
                ⟨st.states_map.length, hi⟩)
              = (canon (get_epsilon_closure nfa (move nfa current c)),
                  "S" ++ toString st.dfa_state_counter) := by
            simp
          rw [hget, hlen]
      · intro p hp
        rcases List.mem_append.1 hp with hp' | hp'
        · exact hkeys p hp'
        · rw [List.mem_singleton] at hp'
          subst hp'
          refine ⟨(canon_canon _).symm, ?_⟩
          intro x hx
          exact eclose_move_subset_convUniv nfa current c x ((mem_canon _ _).1 hx)
      · rw [List.map_append]
        refine List.Nodup.append hknd (List.nodup_singleton _) ?_
        intro a ha hb
        rw [List.map_singleton, List.mem_singleton] at hb
        subst hb
        exact hK'_notkey ha
      · intro x
        show x ∈ ((st.dfa.add_state ("S" ++ toString st.dfa_state_counter)
            ((get_epsilon_closure nfa (move nfa current c)).any
              (fun s => s ∈ nfa.final_states))).add_transition nm c
              ("S" ++ toString st.dfa_state_counter)).states ↔ _
        rw [(DFA.add_transition_fields _ nm c _).1, DFA.add_state_states, mem_sadd,
          hstates]
        constructor
        · rintro (⟨p, hp, hp2⟩ | rfl)
          · exact ⟨p, List.mem_append_left _ hp, hp2⟩
          · exact ⟨(canon (get_epsilon_closure nfa (move nfa current c)),
              "S" ++ toString st.dfa_state_counter),
              List.mem_append_right _ (List.mem_singleton.2 rfl), rfl⟩
        · rintro ⟨p, hp, hp2⟩
          rcases List.mem_append.1 hp with hp' | hp'
          · exact Or.inl ⟨p, hp', hp2⟩
          · rw [List.mem_singleton] at hp'
            subst hp'
            exact Or.inr hp2.symm
      · intro p hp
        show p.2 ∈ ((st.dfa.add_state ("S" ++ toString st.dfa_state_counter)
            ((get_epsilon_closure nfa (move nfa current c)).any
              (fun s => s ∈ nfa.final_states))).add_transition nm c
              ("S" ++ toString st.dfa_state_counter)).final_states ↔ _
        rw [(DFA.add_transition_fields _ nm c _).2.1, DFA.add_state_finals_mem_dfa]
        rcases List.mem_append.1 hp with hp' | hp'
        · constructor
          · rintro (h | ⟨hp2, _⟩)
            · exact (hfin p hp').1 h
            · exact absurd hp2 (hSn_fresh p hp')
          · intro h
            exact Or.inl ((hfin p hp').2 h)
        · rw [List.mem_singleton] at hp'
          subst hp'
          constructor
          · rintro (h | ⟨_, hfnew⟩)
            · exfalso
              obtain ⟨q, hq, hq2⟩ := (hstates _).1 (hfs _ h)
              exact hSn_fresh q hq hq2
            · obtain ⟨s, hs, hsf⟩ := List.any_eq_true.1 hfnew
              exact ⟨s, (mem_canon _ _).2 hs, of_decide_eq_true hsf⟩
          · rintro ⟨s, hs, hsf⟩
            exact Or.inr ⟨rfl, List.any_eq_true.2
              ⟨s, (mem_canon _ _).1 hs, decide_eq_true hsf⟩⟩
      · intro x hx
        show x ∈ ((st.dfa.add_state ("S" ++ toString st.dfa_state_counter)
            ((get_epsilon_closure nfa (move nfa current c)).any
              (fun s => s ∈ nfa.final_states))).add_transition nm c
              ("S" ++ toString st.dfa_state_counter)).states
        rw [(DFA.add_transition_fields _ nm c _).1, DFA.add_state_states, mem_sadd]
        have hx' : x ∈ ((st.dfa.add_state ("S" ++ toString st.dfa_state_counter)
            ((get_epsilon_closure nfa (move nfa current c)).any
              (fun s => s ∈ nfa.final_states))).add_transition nm c
              ("S" ++ toString st.dfa_state_counter)).final_states := hx
        rw [(DFA.add_transition_fields _ nm c _).2.1, DFA.add_state_finals_mem_dfa] at hx'
        rcases hx' with h | ⟨rfl, _⟩
        · exact Or.inl (hfs x h)
        · exact Or.inr rfl
      · show ((st.dfa.add_state ("S" ++ toString st.dfa_state_counter)
            ((get_epsilon_closure nfa (move nfa current c)).any
              (fun s => s ∈ nfa.final_states))).add_transition nm c
              ("S" ++ toString st.dfa_state_counter)).start_state = some "S0"
        rw [(DFA.add_transition_fields _ nm c _).2.2, DFA.add_state_start]
        exact hstart
      · intro k hk'
        rcases List.mem_append.1 hk' with h | h
        · obtain ⟨p, hp, hp1⟩ := hwl k h
          exact ⟨p, List.mem_append_left _ hp, hp1⟩
        · rw [List.mem_singleton] at h
          exact ⟨(canon (get_epsilon_closure nfa (move nfa current c)),
            "S" ++ toString st.dfa_state_counter),
            List.mem_append_right _ (List.mem_singleton.2 rfl), h.symm⟩
      · intro row hrow'
        show ∃ p ∈ st.states_map
            ++ [(canon (get_epsilon_closure nfa (move nfa current c)),
                "S" ++ toString st.dfa_state_counter)], p.2 = row.1
        have hrow'' : row ∈ dinsert (st.dfa.add_state
            ("S" ++ toString st.dfa_state_counter)
            ((get_epsilon_closure nfa (move nfa current c)).any
              (fun s => s ∈ nfa.final_states))).transitions nm
            (dinsert ((dlookup (st.dfa.add_state
                ("S" ++ toString st.dfa_state_counter)
                ((get_epsilon_closure nfa (move nfa current c)).any
                  (fun s => s ∈ nfa.final_states))).transitions nm).getD []) c
              ("S" ++ toString st.dfa_state_counter)) := hrow'
        rcases mem_dinsert _ _ _ _ hrow'' with h' | h'
        · rcases haddrows row h' with ⟨p, hp, hp2⟩ | hSn
          · exact ⟨p, List.mem_append_left _ hp, hp2⟩
          · exact ⟨(canon (get_epsilon_closure nfa (move nfa current c)),
              "S" ++ toString st.dfa_state_counter),
              List.mem_append_right _ (List.mem_singleton.2 rfl), hSn.symm⟩
        · exact ⟨(current, nm), List.mem_append_left _ hmem, by rw [h']⟩
      · intro x c' hx
        show dlookup2 ((st.dfa.add_state ("S" ++ toString st.dfa_state_counter)
            ((get_epsilon_closure nfa (move nfa current c)).any
              (fun s => s ∈ nfa.final_states))).add_transition nm c
              ("S" ++ toString st.dfa_state_counter)).transitions x c'
          = dlookup2 st.dfa.transitions x c'
        unfold dlookup2
        rw [DFA.add_transition_lookup_ne _ nm c _ x (fun hc => hx hc.symm)]
        by_cases hxSn : x = "S" ++ toString st.dfa_state_counter
        · subst hxSn
          rw [haddSn, hSn_trans_none]
          rfl
        · rw [haddtr x hxSn]
      · intro c' hc'
        show dlookup2 ((st.dfa.add_state ("S" ++ toString st.dfa_state_counter)
            ((get_epsilon_closure nfa (move nfa current c)).any
              (fun s => s ∈ nfa.final_states))).add_transition nm c
              ("S" ++ toString st.dfa_state_counter)).transitions nm c'
          = dlookup2 st.dfa.transitions nm c'
        unfold dlookup2
        rw [hnmRow]
        show dlookup (dinsert ((dlookup st.dfa.transitions nm).getD []) c
            ("S" ++ toString st.dfa_state_counter)) c'
          = match dlookup st.dfa.transitions nm with
            | none => none
            | some d => dlookup d c'
        rw [dlookup_dinsert_ne _ _ _ _ (fun hcc => hc' hcc.symm)]
        rcases h0 : dlookup st.dfa.transitions nm with _ | row
        · rfl
        · rfl
      · refine Or.inr ⟨hE, "S" ++ toString st.dfa_state_counter, ?_, ?_⟩
        · show dlookup (st.states_map
              ++ [(canon (get_epsilon_closure nfa (move nfa current c)),
                  "S" ++ toString st.dfa_state_counter)])
              (canon (get_epsilon_closure nfa (move nfa current c)))
            = some ("S" ++ toString st.dfa_state_counter)
          rw [dlookup_append_m, hk]
          show dlookup [(canon (get_epsilon_closure nfa (move nfa current c)),
              "S" ++ toString st.dfa_state_counter)]
              (canon (get_epsilon_closure nfa (move nfa current c)))
            = some ("S" ++ toString st.dfa_state_counter)
          rw [dlookup, if_pos rfl]
        · show dlookup2 ((st.dfa.add_state ("S" ++ toString st.dfa_state_counter)
              ((get_epsilon_closure nfa (move nfa current c)).any
                (fun s => s ∈ nfa.final_states))).add_transition nm c
                ("S" ++ toString st.dfa_state_counter)).transitions nm c
            = some ("S" ++ toString st.dfa_state_counter)
          unfold dlookup2
          rw [hnmRow]
          exact dlookup_dinsert_self _ _ _
    · -- existing destination branch
      rw [processSymbol_found nfa current nm st c dest hE hk]
      refine ⟨⟨hlen, hnames, hkeys, hknd, ?_, ?_, ?_, ?_, hwl, ?_⟩,
        ⟨[], by simp, by simp⟩, ?_, ?_, ?_⟩
      · intro x
        show x ∈ (st.dfa.add_transition nm c dest).states ↔ _
        rw [(DFA.add_transition_fields st.dfa nm c dest).1]
        exact hstates x
      · intro p hp
        show p.2 ∈ (st.dfa.add_transition nm c dest).final_states ↔ _
        rw [(DFA.add_transition_fields st.dfa nm c dest).2.1]
        exact hfin p hp
      · intro x hx
        show x ∈ (st.dfa.add_transition nm c dest).states
        rw [(DFA.add_transition_fields st.dfa nm c dest).1]
        refine hfs x ?_
        have hx' : x ∈ (st.dfa.add_transition nm c dest).final_states := hx
        rw [(DFA.add_transition_fields st.dfa nm c dest).2.1] at hx'
        exact hx'
      · show (st.dfa.add_transition nm c dest).start_state = some "S0"
        rw [(DFA.add_transition_fields st.dfa nm c dest).2.2]
        exact hstart
      · intro row hrow'
        have hrow'' : row ∈ dinsert st.dfa.transitions nm
            (dinsert ((dlookup st.dfa.transitions nm).getD []) c dest) := hrow'
        rcases mem_dinsert _ _ _ _ hrow'' with h' | h'
        · exact hrows row h'
        · exact ⟨(current, nm), hmem, by rw [h']⟩
      · intro x c' hx
        show dlookup2 (st.dfa.add_transition nm c dest).transitions x c'
          = dlookup2 st.dfa.transitions x c'
        unfold dlookup2
        rw [DFA.add_transition_lookup_ne st.dfa nm c dest x (fun hc => hx hc.symm)]
      · intro c' hc'
        show dlookup2 (st.dfa.add_transition nm c dest).transitions nm c'
          = dlookup2 st.dfa.transitions nm c'
        unfold dlookup2
        rw [DFA.add_transition_lookup_self]
        show dlookup (dinsert ((dlookup st.dfa.transitions nm).getD []) c dest) c'
          = match dlookup st.dfa.transitions nm with
            | none => none
            | some d => dlookup d c'
        rw [dlookup_dinsert_ne _ _ _ _ (fun hcc => hc' hcc.symm)]
        rcases h0 : dlookup st.dfa.transitions nm with _ | row
        · rfl
        · rfl
      · refine Or.inr ⟨hE, dest, hk, ?_⟩
        show dlookup2 (st.dfa.add_transition nm c dest).transitions nm c = some dest
        unfold dlookup2
        rw [DFA.add_transition_lookup_self]
        exact dlookup_dinsert_self _ _ _

theorem ConvSem_mono (nfa : NFA) (st st' : ConvState) (k : List String) (nm c : String)
    (h : ConvSem nfa st k nm c)
    (hmapmono : ∀ key v, dlookup st.states_map key = some v →
      dlookup st'.states_map key = some v)
    (hrow : dlookup2 st'.dfa.transitions nm c = dlookup2 st.dfa.transitions nm c) :
    ConvSem nfa st' k nm c := by
  rcases h with ⟨h1, h2⟩ | ⟨h1, nm', h2, h3⟩
  · exact Or.inl ⟨h1, by rw [hrow]; exact h2⟩
  · exact Or.inr ⟨h1, nm', hmapmono _ _ h2, by rw [hrow]; exact h3⟩

theorem processFold_spec (nfa : NFA) (current : List String) (nm : String) :
    ∀ (cs : List String) (st : ConvState),
      cs.Nodup →
      ConvCore nfa st →
      (current, nm) ∈ st.states_map →
      (∀ c ∈ cs, dlookup2 st.dfa.transitions nm c = none) →
      ConvCore nfa (cs.foldl (processSymbol nfa current nm) st) ∧
      (∃ ext : List (List String × String),
        (cs.foldl (processSymbol nfa current nm) st).states_map
          = st.states_map ++ ext ∧
        (cs.foldl (processSymbol nfa current nm) st).worklist
          = st.worklist ++ ext.map Prod.fst) ∧
      (∀ x c', x ≠ nm →
        dlookup2 (cs.foldl (processSymbol nfa current nm) st).dfa.transitions x c'
          = dlookup2 st.dfa.transitions x c') ∧
      (∀ c', c' ∉ cs →
        dlookup2 (cs.foldl (processSymbol nfa current nm) st).dfa.transitions nm c'
          = dlookup2 st.dfa.transitions nm c') ∧
      (∀ c ∈ cs,
        ConvSem nfa (cs.foldl (processSymbol nfa current nm) st) current nm c) := by
  intro cs
  induction cs with
  | nil =>
      intro st _ hcore hmem _
      exact ⟨hcore, ⟨[], by simp, by simp⟩, fun x c' _ => rfl, fun c' _ => rfl,
        fun c hc => absurd hc (List.not_mem_nil c)⟩
  | cons c cs ih =>
      intro st hnd hcore hmem hblank
      rw [List.nodup_cons] at hnd
      rw [List.foldl_cons]
      obtain ⟨hcore1, ⟨ext1, hm1, hw1⟩, hother1, hsame1, hsem1⟩ :=
        processSymbol_spec nfa current nm st c hcore hmem
          (hblank c (List.mem_cons_self _ _))
      have hmem1 : (current, nm) ∈ (processSymbol nfa current nm st c).states_map := by
        rw [hm1]
        exact List.mem_append_left _ hmem
      have hblank1 : ∀ c' ∈ cs,
          dlookup2 (processSymbol nfa current nm st c).dfa.transitions nm c' = none := by
        intro c' hc'
        rw [hsame1 c' (fun hcc => hnd.1 (hcc ▸ hc'))]
        exact hblank c' (List.mem_cons_of_mem _ hc')
      obtain ⟨hcore2, ⟨ext2, hm2, hw2⟩, hother2, hsame2, hsem2⟩ :=
        ih _ hnd.2 hcore1 hmem1 hblank1
      refine ⟨hcore2, ⟨ext1 ++ ext2, ?_, ?_⟩, ?_, ?_, ?_⟩
      · rw [hm2, hm1, List.append_assoc]
      · rw [hw2, hw1, List.map_append, List.append_assoc]
      · intro x c' hx
        rw [hother2 x c' hx, hother1 x c' hx]
      · intro c' hc'
        have hc1 : c' ≠ c := fun hcc => hc' (hcc ▸ List.mem_cons_self _ _)
        have hc2 : c' ∉ cs := fun hcc => hc' (List.mem_cons_of_mem _ hcc)
        rw [hsame2 c' hc2, hsame1 c' hc1]
      · intro c0 hc0
        rcases List.mem_cons.1 hc0 with rfl | hc0'
        · refine ConvSem_mono nfa _ _ current nm c0 hsem1 ?_ ?_
          · intro key v h
            rw [hm2]
            exact dlookup_append_some _ _ _ _ h
          · exact hsame2 c0 hnd.1
        · exact hsem2 c0 hc0'

theorem key_inj {α : Type} :
    ∀ (M : List (List String × α)), (M.map Prod.fst).Nodup →
      ∀ p ∈ M, ∀ q ∈ M, p.1 = q.1 → p = q := by
  intro M
  induction M with
  | nil => intro _ p hp; simp at hp
  | cons e M ih =>
      intro hnd p hp q hq hpq
      rw [List.map_cons, List.nodup_cons] at hnd
      rcases List.mem_cons.1 hp with rfl | hp' <;> rcases List.mem_cons.1 hq with rfl | hq'
      · rfl
      · exact absurd (hpq ▸ List.mem_map.2 ⟨q, hq', rfl⟩) hnd.1
      · exact absurd (hpq ▸ List.mem_map.2 ⟨p, hp', rfl⟩) hnd.1
      · exact ih hnd.2 p hp' q hq' hpq

theorem name_inj (st : ConvState)
    (hnames : ∀ (i : Nat) (hi : i < st.states_map.length),
      (st.states_map.get ⟨i, hi⟩).2 = "S" ++ toString i) :
    ∀ p ∈ st.states_map, ∀ q ∈ st.states_map, p.2 = q.2 → p = q := by
  intro p hp q hq hpq
  obtain ⟨⟨i, hi⟩, hgi⟩ := List.mem_iff_get.1 hp
  obtain ⟨⟨j, hj⟩, hgj⟩ := List.mem_iff_get.1 hq
  have hni : p.2 = "S" ++ toString i := by rw [← hgi]; exact hnames i hi
  have hnj : q.2 = "S" ++ toString j := by rw [← hgj]; exact hnames j hj
  have hij : i = j := sname_eq i j (by rw [← hni, ← hnj, hpq])
  subst hij
  rw [← hgi, ← hgj]

theorem nfaAlphabet_nodup (nfa : NFA) : (nfaAlphabet nfa).Nodup := by
  unfold nfaAlphabet
  have hinner : ∀ (d : List (String × List String)) (acc : List String), acc.Nodup →
      (d.foldl (fun a q => if isEpsilonSymbol q.1 then a else sadd a q.1) acc).Nodup := by
    intro d
    induction d with
    | nil => intro acc h; exact h
    | cons q d ih =>
        intro acc h
        rw [List.foldl_cons]
        by_cases he : isEpsilonSymbol q.1
        · rw [if_pos he]
          exact ih acc h
        · rw [if_neg he]
          exact ih _ (sadd_nodup acc q.1 h)
  have houter : ∀ (l : List (String × List (String × List String)))
      (acc : List String), acc.Nodup →
      (l.foldl (fun alphabet p =>
        p.2.foldl (fun a q => if isEpsilonSymbol q.1 then a else sadd a q.1)
          alphabet) acc).Nodup := by
    intro l
    induction l with
    | nil => intro acc h; exact h
    | cons p l ih =>
        intro acc h
        rw [List.foldl_cons]
        exact ih _ (hinner p.2 acc h)
  exact houter nfa.transitions [] (List.nodup_nil)

theorem sortedAlpha_nodup (nfa : NFA) : (sortStrings (nfaAlphabet nfa)).Nodup :=
  ((sortStrings_perm (nfaAlphabet nfa)).nodup_iff).2 (nfaAlphabet_nodup nfa)

theorem convLoop_succ (nfa : NFA) (A : List String) (fuel : Nat)
    (processed : List (List String)) (st : ConvState) :
    convLoop nfa A (fuel + 1) processed st =
      match st.worklist with
      | [] => st.dfa
      | current :: rest =>
          if current ∈ processed then
            convLoop nfa A fuel processed { st with worklist := rest }
          else
            convLoop nfa A fuel (processed ++ [current])
              (A.foldl (processSymbol nfa current
                ((dlookup st.states_map current).getD "")) { st with worklist := rest }) :=
  rfl

theorem convLoop_nil (nfa : NFA) (A : List String) (fuel : Nat)
    (processed : List (List String)) (st : ConvState) (h : st.worklist = []) :
    convLoop nfa A (fuel + 1) processed st = st.dfa := by
  rw [convLoop_succ, h]

theorem convLoop_cons (nfa : NFA) (A : List String) (fuel : Nat)
    (processed : List (List String)) (st : ConvState)
    (current : List String) (rest : List (List String))
    (h : st.worklist = current :: rest) :
    convLoop nfa A (fuel + 1) processed st =
      if current ∈ processed then
        convLoop nfa A fuel processed { st with worklist := rest }
      else
        convLoop nfa A fuel (processed ++ [current])
          (A.foldl (processSymbol nfa current
            ((dlookup st.states_map current).getD "")) { st with worklist := rest }) := by
  rw [convLoop_succ, h]

theorem conv_keys_bound (nfa : NFA) (st : ConvState) (hcore : ConvCore nfa st) :
    st.states_map.length ≤ 2 ^ (convUniv nfa).length := by
  obtain ⟨_, _, hkeys, hknd, _⟩ := hcore
  have hb := canonical_keys_length_le (convUniv nfa) (canon_nodup _)
    (st.states_map.map Prod.fst) hknd ?_
  · rw [List.length_map] at hb
    exact hb
  · intro k hk
    obtain ⟨p, hp, rfl⟩ := List.mem_map.1 hk
    exact hkeys p hp

theorem convLoop_spec (nfa : NFA) :
    ∀ (fuel : Nat) (processed : List (List String)) (st : ConvState),
      ConvInv nfa processed st →
      st.worklist.length + (2 ^ (convUniv nfa).length - st.states_map.length) < fuel →
      ∃ (stf : ConvState) (processedf : List (List String)),
        convLoop nfa (sortStrings (nfaAlphabet nfa)) fuel processed st = stf.dfa ∧
        ConvInv nfa processedf stf ∧
        (∀ p ∈ st.states_map, p ∈ stf.states_map) ∧
        (∀ p ∈ stf.states_map, p.1 ∈ processedf) := by
  intro fuel
  induction fuel with
  | zero => intro processed st _ hfu; omega
  | succ fuel ih =>
      intro processed st hinv hfu
      obtain ⟨hcore, hsemP, hblankP, hcover, hPkeys⟩ := hinv
      obtain ⟨hlen, hnames, hkeys, hknd, hstates, hfin, hfs, hstart, hwl, hrows⟩ := hcore
      rcases hwl0 : st.worklist with _ | ⟨current, rest⟩
      · refine ⟨st, processed, convLoop_nil nfa _ fuel processed st hwl0,
          ⟨⟨hlen, hnames, hkeys, hknd, hstates, hfin, hfs, hstart, hwl, hrows⟩,
            hsemP, hblankP, hcover, hPkeys⟩, fun p hp => hp, ?_⟩
        intro p hp
        rcases hcover p hp with h | h
        · exact h
        · rw [hwl0] at h
          simp at h
      · rw [convLoop_cons nfa _ fuel processed st current rest hwl0]
        have hwl' : ∀ k ∈ rest, ∃ p ∈ st.states_map, p.1 = k := by
          intro k hk
          refine hwl k ?_
          rw [hwl0]
          exact List.mem_cons_of_mem _ hk
        rw [hwl0] at hfu
        simp only [List.length_cons] at hfu
        by_cases hproc : current ∈ processed
        · rw [if_pos hproc]
          have hcov1 : ∀ p ∈ ({ st with worklist := rest } : ConvState).states_map,
              p.1 ∈ processed ∨ p.1 ∈ ({ st with worklist := rest } : ConvState).worklist := by
            intro p hp
            rcases hcover p hp with h | h
            · exact Or.inl h
            · rw [hwl0] at h
              rcases List.mem_cons.1 h with hcc | hcc
              · exact Or.inl (hcc ▸ hproc)
              · exact Or.inr hcc
          obtain ⟨stf, pf, heq, hinvf, hmono, hallproc⟩ :=
            ih processed { st with worklist := rest }
              ⟨⟨hlen, hnames, hkeys, hknd, hstates, hfin, hfs, hstart, hwl', hrows⟩,
                hsemP, hblankP, hcov1, hPkeys⟩
              (by
                show rest.length + (2 ^ (convUniv nfa).length
                  - st.states_map.length) < fuel
                omega)
          exact ⟨stf, pf, heq, hinvf, hmono, hallproc⟩
        · rw [if_neg hproc]
          obtain ⟨pc, hpcM, hpc1⟩ : ∃ p ∈ st.states_map, p.1 = current := by
            refine hwl current ?_
            rw [hwl0]
            exact List.mem_cons_self _ _
          have hcurmem : current ∈ st.states_map.map Prod.fst :=
            List.mem_map.2 ⟨pc, hpcM, hpc1⟩
          obtain ⟨v, hv⟩ := Option.isSome_iff_exists.1
            (dlookup_isSome_of_mem_fst st.states_map current hcurmem)
          have hgd : (dlookup st.states_map current).getD "" = v := by
            rw [hv]
            rfl
          have hmemcv : (current, v) ∈ st.states_map := dlookup_mem _ _ _ hv
          rw [hgd]
          have hname_ne_v : ∀ p' ∈ st.states_map, p'.1 ≠ current → p'.2 ≠ v := by
            intro p' hpM hne hcc
            have hpq := name_inj st hnames p' hpM (current, v) hmemcv hcc
            exact hne (by rw [hpq])
          obtain ⟨hcore', ⟨ext, hm', hw'⟩, hother', hsame', hsem'⟩ :=
            processFold_spec nfa current v (sortStrings (nfaAlphabet nfa))
              { st with worklist := rest } (sortedAlpha_nodup nfa)
              ⟨hlen, hnames, hkeys, hknd, hstates, hfin, hfs, hstart, hwl', hrows⟩
              hmemcv
              (fun c _ => hblankP (current, v) hmemcv hproc c)
          obtain ⟨hlen', hnames', hkeys', hknd', hstates', hfin', hfs', hstart',
            hwl'', hrows'⟩ := hcore'
          have hst1map : ({ st with worklist := rest } : ConvState).states_map
              = st.states_map := rfl
          rw [hst1map] at hm'
          have hinv' : ConvInv nfa (processed ++ [current])
              ((sortStrings (nfaAlphabet nfa)).foldl (processSymbol nfa current v)
                { st with worklist := rest }) := by
            refine ⟨⟨hlen', hnames', hkeys', hknd', hstates', hfin', hfs', hstart',
              hwl'', hrows'⟩, ?_, ?_, ?_, ?_⟩
            · intro p' hp' hmemP c hc
              by_cases hpM : p' ∈ st.states_map
              · rcases List.mem_append.1 hmemP with hP | hCur
                · have hne : p'.1 ≠ current := fun hcc => hproc (hcc ▸ hP)
                  refine ConvSem_mono nfa st _ p'.1 p'.2 c (hsemP p' hpM hP c hc) ?_ ?_
                  · intro key v' h
                    rw [hm']
                    exact dlookup_append_some _ _ _ _ h
                  · exact hother' p'.2 c (hname_ne_v p' hpM hne)
                · rw [List.mem_singleton] at hCur
                  have hpeq : p' = (current, v) :=
                    key_inj st.states_map hknd p' hpM (current, v) hmemcv hCur
                  rw [hpeq]
                  exact hsem' c hc
              · exfalso
                rcases List.mem_append.1 hmemP with hP | hCur
                · obtain ⟨q, hqM, hq1⟩ := hPkeys p'.1 hP
                  have hq' : q ∈ ((sortStrings (nfaAlphabet nfa)).foldl
                      (processSymbol nfa current v)
                      { st with worklist := rest }).states_map := by
                    rw [hm']
                    exact List.mem_append_left _ hqM
                  have hpq := key_inj _ hknd' p' hp' q hq' hq1.symm
                  exact hpM (by rw [hpq]; exact hqM)
                · rw [List.mem_singleton] at hCur
                  have hq' : (current, v) ∈ ((sortStrings (nfaAlphabet nfa)).foldl
                      (processSymbol nfa current v)
                      { st with worklist := rest }).states_map := by
                    rw [hm']
                    exact List.mem_append_left _ hmemcv
                  have hpq := key_inj _ hknd' p' hp' (current, v) hq' hCur
                  exact hpM (by rw [hpq]; exact hmemcv)
            · intro p' hp' hnot c
              by_cases hpM : p' ∈ st.states_map
              · have hnp : p'.1 ∉ processed :=
                  fun hcc => hnot (List.mem_append_left _ hcc)
                have hne : p'.1 ≠ current := fun hcc =>
                  hnot (List.mem_append_right _ (List.mem_singleton.2 hcc))
                rw [hother' p'.2 c (hname_ne_v p' hpM hne)]
                exact hblankP p' hpM hnp c
              · have hfresh : ∀ q ∈ st.states_map, q.2 ≠ p'.2 := by
                  intro q hq hcc
                  have hq' : q ∈ ((sortStrings (nfaAlphabet nfa)).foldl
                      (processSymbol nfa current v)
                      { st with worklist := rest }).states_map := by
                    rw [hm']
                    exact List.mem_append_left _ hq
                  have hpq := name_inj _ hnames' q hq' p' hp' hcc
                  exact hpM (by rw [← hpq]; exact hq)
                have hpne : p'.2 ≠ v :=
                  fun hcc => hfresh (current, v) hmemcv hcc.symm
                rw [hother' p'.2 c hpne]
                show dlookup2 st.dfa.transitions p'.2 c = none
                rcases h0 : dlookup st.dfa.transitions p'.2 with _ | row
                · unfold dlookup2
                  rw [h0]
                · exfalso
                  obtain ⟨q, hq, hq2⟩ := hrows _ (dlookup_mem _ _ _ h0)
                  exact hfresh q hq hq2
            · intro p' hp'
              by_cases hpM : p' ∈ st.states_map
              · rcases hcover p' hpM with h | h
                · exact Or.inl (List.mem_append_left _ h)
                · rw [hwl0] at h
                  rcases List.mem_cons.1 h with hcc | hcc
                  · exact Or.inl (List.mem_append_right _ (List.mem_singleton.2 hcc))
                  · refine Or.inr ?_
                    rw [hw']
                    exact List.mem_append_left _ hcc
              · have hext : p' ∈ ext := by
                  rw [hm'] at hp'
                  rcases List.mem_append.1 hp' with h | h
                  · exact absurd h hpM
                  · exact h
                refine Or.inr ?_
                rw [hw']
                exact List.mem_append_right _ (List.mem_map.2 ⟨p', hext, rfl⟩)
            · intro k hk
              rcases List.mem_append.1 hk with h | h
              · obtain ⟨q, hq, hq1⟩ := hPkeys k h
                exact ⟨q, by rw [hm']; exact List.mem_append_left _ hq, hq1⟩
              · rw [List.mem_singleton] at h
                refine ⟨(current, v), by rw [hm']; exact List.mem_append_left _ hmemcv, ?_⟩
                rw [h]
          have hbound : ((sortStrings (nfaAlphabet nfa)).foldl
              (processSymbol nfa current v)
              { st with worklist := rest }).states_map.length
              ≤ 2 ^ (convUniv nfa).length :=
            conv_keys_bound nfa _ ⟨hlen', hnames', hkeys', hknd', hstates', hfin',
              hfs', hstart', hwl'', hrows'⟩
          have hlen_eq : ((sortStrings (nfaAlphabet nfa)).foldl
              (processSymbol nfa current v)
              { st with worklist := rest }).states_map.length
              = st.states_map.length + ext.length := by
            rw [hm', List.length_append]
          have hwlen : ((sortStrings (nfaAlphabet nfa)).foldl
              (processSymbol nfa current v)
              { st with worklist := rest }).worklist.length
              = rest.length + ext.length := by
            rw [hw']
            show (rest ++ ext.map Prod.fst).length = rest.length + ext.length
            rw [List.length_append, List.length_map]
          obtain ⟨stf, pf, heq, hinvf, hmono, hallproc⟩ :=
            ih (processed ++ [current]) _ hinv'
              (by
                rw [hwlen]
                have h1 : st.states_map.length + ext.length
                    ≤ 2 ^ (convUniv nfa).length := by
                  rw [← hlen_eq]
                  exact hbound
                rw [hlen_eq]
                omega)
          refine ⟨stf, pf, heq, hinvf, ?_, hallproc⟩
          intro p hp
          refine hmono p ?_
          rw [hm']
          exact List.mem_append_left _ hp

theorem conv_init_inv (nfa : NFA) :
    ConvInv nfa []
      { states_map := [(canon (get_epsilon_closure nfa (startSeed nfa)), "S0")]
        dfa_state_counter := 1
        worklist := [canon (get_epsilon_closure nfa (startSeed nfa))]
        dfa := ({ DFA.empty with start_state := some "S0" } : DFA).add_state "S0"
          ((get_epsilon_closure nfa (startSeed nfa)).any
            (fun s => s ∈ nfa.final_states)) } := by
  refine ⟨⟨rfl, ?_, ?_, List.nodup_singleton _, ?_, ?_, ?_, rfl, ?_, ?_⟩,
    ?_, ?_, ?_, ?_⟩
  · intro i hi
    have hi0 : i = 0 := by
      simp only [List.length_singleton] at hi
      omega
    subst hi0
    rfl
  · intro p hp
    rw [List.mem_singleton] at hp
    subst hp
    refine ⟨(canon_canon _).symm, ?_⟩
    intro x hx
    exact start_closure_subset_convUniv nfa x ((mem_canon _ _).1 hx)
  · intro x
    show x ∈ sadd DFA.empty.states "S0" ↔ _
    rw [mem_sadd]
    constructor
    · rintro (h | rfl)
      · simp [DFA.empty] at h
      · exact ⟨(canon (get_epsilon_closure nfa (startSeed nfa)), "S0"),
          List.mem_singleton.2 rfl, rfl⟩
    · rintro ⟨p, hp, hp2⟩
      rw [List.mem_singleton] at hp
      subst hp
      exact Or.inr hp2.symm
  · intro p hp
    rw [List.mem_singleton] at hp
    subst hp
    show "S0" ∈ (({ DFA.empty with start_state := some "S0" } : DFA).add_state "S0"
      ((get_epsilon_closure nfa (startSeed nfa)).any
        (fun s => s ∈ nfa.final_states))).final_states ↔ _
    rw [DFA.add_state_finals_mem_dfa]
    constructor
    · rintro (h | ⟨_, hf⟩)
      · simp [DFA.empty] at h
      · obtain ⟨s, hs, hsf⟩ := List.any_eq_true.1 hf
        exact ⟨s, (mem_canon _ _).2 hs, of_decide_eq_true hsf⟩
    · rintro ⟨s, hs, hsf⟩
      exact Or.inr ⟨rfl, List.any_eq_true.2
        ⟨s, (mem_canon _ _).1 hs, decide_eq_true hsf⟩⟩
  · intro x hx
    have hx' : x ∈ (({ DFA.empty with start_state := some "S0" } : DFA).add_state "S0"
        ((get_epsilon_closure nfa (startSeed nfa)).any
          (fun s => s ∈ nfa.final_states))).final_states := hx
    rw [DFA.add_state_finals_mem_dfa] at hx'
    show x ∈ sadd DFA.empty.states "S0"
    rw [mem_sadd]
    rcases hx' with h | ⟨rfl, _⟩
    · simp [DFA.empty] at h
    · exact Or.inr rfl
  · intro k hk
    rw [List.mem_singleton] at hk
    exact ⟨(canon (get_epsilon_closure nfa (startSeed nfa)), "S0"),
      List.mem_singleton.2 rfl, hk.symm⟩
  · intro row hrow
    have hrow' : row ∈ dinsert DFA.empty.transitions "S0" [] := by
      have hcases := DFA.add_state_transitions_cases
        ({ DFA.empty with start_state := some "S0" } : DFA) "S0"
        ((get_epsilon_closure nfa (startSeed nfa)).any
          (fun s => s ∈ nfa.final_states)) "S0"
      exact hrow
    rcases mem_dinsert _ _ _ _ hrow' with h | h
    · simp [DFA.empty] at h
    · exact ⟨(canon (get_epsilon_closure nfa (startSeed nfa)), "S0"),
        List.mem_singleton.2 rfl, by rw [h]⟩
  · intro p _ hP
    simp at hP
  · intro p hp _ c
    rw [List.mem_singleton] at hp
    subst hp
    show dlookup2 (dinsert DFA.empty.transitions "S0" []) "S0" c = none
    unfold dlookup2
    rw [dlookup_dinsert_self]
    rfl
  · intro p hp
    rw [List.mem_singleton] at hp
    subst hp
    exact Or.inr (List.mem_singleton.2 rfl)
  · intro k hk
    simp at hk

theorem conv_bisim (nfa : NFA) (stf : ConvState) (pf : List (List String))
    (hinv : ConvInv nfa pf stf) (hall : ∀ p ∈ stf.states_map, p.1 ∈ pf) :
    ∀ (w : List String), (∀ c ∈ w, c ∈ nfaAlphabet nfa) →
      ∀ p ∈ stf.states_map, nfaGo nfa p.1 w = dfaGo stf.dfa p.2 w := by
  obtain ⟨⟨hlen, hnames, hkeys, hknd, hstates, hfin, hfs, hstart, hwl, hrows⟩,
    hsemP, hblankP, hcover, hPkeys⟩ := hinv
  intro w
  induction w with
  | nil =>
      intro _ p hp
      show p.1.any (fun s => s ∈ nfa.final_states)
        = decide (p.2 ∈ stf.dfa.final_states)
      rcases hA : p.1.any (fun s => s ∈ nfa.final_states) with _ | _
      · have hnf : ¬(p.2 ∈ stf.dfa.final_states) := by
          intro hc
          obtain ⟨s, hs, hsf⟩ := (hfin p hp).1 hc
          rw [List.any_eq_false] at hA
          exact hA s hs (decide_eq_true hsf)
        exact (decide_eq_false hnf).symm
      · obtain ⟨s, hs, hsf⟩ := List.any_eq_true.1 hA
        have hf : p.2 ∈ stf.dfa.final_states :=
          (hfin p hp).2 ⟨s, hs, of_decide_eq_true hsf⟩
        exact (decide_eq_true hf).symm
  | cons c rest ihw =>
      intro hw p hp
      have hcA : c ∈ sortStrings (nfaAlphabet nfa) :=
        (mem_sortStrings _ _).2 (hw c (List.mem_cons_self _ _))
      have hw' : ∀ c' ∈ rest, c' ∈ nfaAlphabet nfa :=
        fun c' hc' => hw c' (List.mem_cons_of_mem _ hc')
      have hsem := hsemP p hp (hall p hp) c hcA
      show nfaGo nfa (nfaStep nfa p.1 c) rest
        = match dlookup2 stf.dfa.transitions p.2 c with
          | none => false
          | some t => dfaGo stf.dfa t rest
      rcases hsem with ⟨hE, hnone⟩ | ⟨hEne, nm', hkey, hsome⟩
      · rw [hnone]
        show nfaGo nfa (nfaStep nfa p.1 c) rest = false
        unfold nfaStep
        rw [hE]
        exact nfaGo_nil nfa rest
      · rw [hsome]
        have hpair := dlookup_mem _ _ _ hkey
        have hrec := ihw hw'
          (canon (get_epsilon_closure nfa (move nfa p.1 c)), nm') hpair
        show nfaGo nfa (nfaStep nfa p.1 c) rest = dfaGo stf.dfa nm' rest
        rw [← hrec]
        apply nfaGo_congr
        intro x
        exact (mem_canon _ _).symm

/-- **C1**: for every NFA and every word over the NFA's non-epsilon alphabet,
the DFA built by `convert_nfa_to_dfa` (`DFA_Builder.py` lines 146-225) accepts
the word iff the NFA accepts it, where NFA acceptance uses epsilon-closure
subset semantics built from the source's own `get_epsilon_closure` and `move`
operators, and DFA acceptance uses the partial transition table (a missing
transition rejects). -/
theorem c1_subset_construction_equiv (nfa : NFA) (w : List String)
    (hw : ∀ c ∈ w, c ∈ nfaAlphabet nfa) :
    (convert_nfa_to_dfa nfa).accepts w = nfa.accepts w := by
  obtain ⟨stf, pf, heq, hinvf, hmono, hall⟩ :=
    convLoop_spec nfa (2 ^ (convUniv nfa).length + 1) []
      { states_map := [(canon (get_epsilon_closure nfa (startSeed nfa)), "S0")]
        dfa_state_counter := 1
        worklist := [canon (get_epsilon_closure nfa (startSeed nfa))]
        dfa := ({ DFA.empty with start_state := some "S0" } : DFA).add_state "S0"
          ((get_epsilon_closure nfa (startSeed nfa)).any
            (fun s => s ∈ nfa.final_states)) }
      (conv_init_inv nfa)
      (by
        show 1 + (2 ^ (convUniv nfa).length - 1) < 2 ^ (convUniv nfa).length + 1
        have h1 : 1 ≤ 2 ^ (convUniv nfa).length := Nat.one_le_two_pow
        omega)
  have hconv : convert_nfa_to_dfa nfa = stf.dfa := heq
  have hstartmem : (canon (get_epsilon_closure nfa (startSeed nfa)), "S0")
      ∈ stf.states_map := by
    refine hmono _ ?_
    exact List.mem_singleton.2 rfl
  have hbis := conv_bisim nfa stf pf hinvf hall w hw _ hstartmem
  have hstartf : stf.dfa.start_state = some "S0" := hinvf.1.2.2.2.2.2.2.2.1
  rw [hconv]
  unfold DFA.accepts NFA.accepts
  rw [hstartf]
  show dfaGo stf.dfa "S0" w
    = nfaGo nfa (get_epsilon_closure nfa (startSeed nfa)) w
  rw [← hbis]
  exact (nfaGo_congr nfa w _ _ (fun x => (mem_canon _ _).symm)).symm

theorem c1_subset_construction_equiv_witness :
    (convert_nfa_to_dfa
      { start_state := some "A"
        states := ["A", "B"]
        final_states := ["B"]
        transitions := [("A", [("a", ["B"])]), ("B", [("a", ["B"])])] }).accepts ["a"]
      = NFA.accepts
      { start_state := some "A"
        states := ["A", "B"]
        final_states := ["B"]
        transitions := [("A", [("a", ["B"])]), ("B", [("a", ["B"])])] } ["a"] :=
  c1_subset_construction_equiv _ ["a"] (by decide)

end LexAnalyzer
